import Mathlib

/-!
Verification of the IPO-update digest generator against its specification.

The Python sources are embedded shallowly:
* Python `str` values are modelled as `List Char` (ASCII-level semantics for
  `lower`/`upper`/`strip`, which is all the data in these claims exercises).
* Python `date` is modelled by `PyDate` (proleptic Gregorian calendar).
* JSON documents (`json.loads` / `json.dumps`) are modelled by the `Json`
  inductive with integer numeric literals, which covers every numeric literal
  appearing in the claims; `json.dumps` is modelled with its default
  separators `", "` and `": "`.
* Stateful loops become explicit folds; functions that can raise return
  `Except`/`Option`.

Each embedded definition cites the source file/lines it translates.
-/

set_option maxRecDepth 10000

namespace IpoUpdate

/-! ## Python string primitives (List Char model of `str`) -/

/-- Python `str.isspace` members relevant to `strip()` (ASCII whitespace:
space, tab, newline, carriage return, vertical tab, form feed). -/
def pyIsSpace (c : Char) : Bool :=
  c = ' ' || c = '\t' || c = '\n' || c = '\r' || c = '\x0b' || c = '\x0c'

/-- Python `str.lstrip()` (no argument): drop leading whitespace. -/
def pyLStrip (cs : List Char) : List Char := cs.dropWhile pyIsSpace

/-- Python `str.rstrip()` (no argument): drop trailing whitespace. -/
def pyRStrip (cs : List Char) : List Char :=
  (cs.reverse.dropWhile pyIsSpace).reverse

/-- Python `str.strip()` (no argument): drop whitespace from both ends. -/
def pyStrip (cs : List Char) : List Char := pyRStrip (pyLStrip cs)

/-- Python `str.strip(chars)`: drop characters of `set` from both ends. -/
def pyStripSet (cs : List Char) (set : List Char) : List Char :=
  ((cs.dropWhile (· ∈ set)).reverse.dropWhile (· ∈ set)).reverse

/-- Python `str.lstrip(chars)`: drop leading characters of `set`. -/
def pyLStripSet (cs : List Char) (set : List Char) : List Char :=
  cs.dropWhile (· ∈ set)

/-- Python `str.lower()` (ASCII). -/
def pyLower (cs : List Char) : List Char := cs.map Char.toLower

/-- Python `str.upper()` (ASCII). -/
def pyUpper (cs : List Char) : List Char := cs.map Char.toUpper

/-- Index of the first occurrence of substring `pat` in `cs`
(Python `str.find`, returning `none` for -1). -/
def findSubIdx : List Char → List Char → Option Nat
  | _, [] => some 0
  | [], _ => none
  | c :: cs, pat =>
    if pat.isPrefixOf (c :: cs) then some 0
    else (findSubIdx cs pat).map (· + 1)

/-- Python `pat in text` substring test. -/
def containsSub (cs pat : List Char) : Bool := (findSubIdx cs pat).isSome

/-- Python `text.split(pat, 1)[0]`: the part before the first occurrence of
`pat` (the whole string when `pat` does not occur). -/
def takeBeforeSub (cs pat : List Char) : List Char :=
  match findSubIdx cs pat with
  | some i => cs.take i
  | none => cs

/-- Fuel-driven core of Python `str.replace`: replace every (left-to-right,
non-overlapping) occurrence of `pat` by `rep`. -/
def pyReplaceFuel : Nat → List Char → List Char → List Char → List Char
  | 0, cs, _, _ => cs
  | _ + 1, [], _, _ => []
  | fuel + 1, c :: cs, pat, rep =>
    if pat ≠ [] && pat.isPrefixOf (c :: cs) then
      rep ++ pyReplaceFuel fuel (List.drop (pat.length - 1) cs) pat rep
    else
      c :: pyReplaceFuel fuel cs pat rep

/-- Python `str.replace(pat, rep)`. -/
def pyReplace (cs pat rep : List Char) : List Char :=
  pyReplaceFuel (cs.length + 1) cs pat rep

/-- Python `text.split(sep)` for a single-character separator. -/
def splitOnChar : List Char → Char → List (List Char)
  | [], _ => [[]]
  | c :: cs, sep =>
    if c = sep then
      [] :: splitOnChar cs sep
    else
      match splitOnChar cs sep with
      | [] => [[c]]
      | p :: ps => (c :: p) :: ps

/-- Decimal digit string to `Nat`. -/
def digitsToNat (cs : List Char) : Nat :=
  cs.foldl (fun acc c => acc * 10 + (c.toNat - 48)) 0

/-- All characters are ASCII digits (and the list is nonempty). -/
def allDigits (cs : List Char) : Bool :=
  cs ≠ [] && cs.all Char.isDigit

/-- Render a `Nat` in decimal. -/
def natToChars (n : Nat) : List Char := Nat.toDigits 10 n

/-- Render an `Int` in decimal (used for Python f-strings like `f"{n}d"`). -/
def intToChars : Int → List Char
  | Int.ofNat n => natToChars n
  | Int.negSucc n => '-' :: natToChars (n + 1)

/-! ## Python dates (`datetime.date`, `data_loader.parse_date`) -/

/-- A Python `datetime.date`: proleptic Gregorian calendar date. -/
structure PyDate where
  year : Nat
  month : Nat
  day : Nat
deriving DecidableEq, Repr

/-- Gregorian leap-year rule. -/
def isLeapYear (y : Nat) : Bool :=
  (y % 4 = 0 && y % 100 ≠ 0) || y % 400 = 0

/-- Days in a month of a given year. -/
def daysInMonth (y m : Nat) : Nat :=
  if m = 2 then (if isLeapYear y then 29 else 28)
  else if m = 4 || m = 6 || m = 9 || m = 11 then 30
  else 31

/-- The (year, month, day) triple is a constructible `datetime.date`
(`datetime.date(y, m, d)` raises `ValueError` otherwise). -/
def validYmd (y m d : Nat) : Bool :=
  1 ≤ y && y ≤ 9999 && 1 ≤ m && m ≤ 12 && 1 ≤ d && d ≤ daysInMonth y m

/-- Python `date` comparison `a < b` (lexicographic on (year, month, day),
which agrees with chronological order on valid dates). -/
def dateLt (a b : PyDate) : Bool :=
  a.year < b.year ||
    (a.year = b.year &&
      (a.month < b.month || (a.month = b.month && a.day < b.day)))

/-- Days in the years strictly before year `y` (proleptic Gregorian). -/
def daysBeforeYear (y : Nat) : Nat :=
  365 * (y - 1) + (y - 1) / 4 - (y - 1) / 100 + (y - 1) / 400

/-- Days in the months of year `y` strictly before month `m`. -/
def daysBeforeMonth (y m : Nat) : Nat :=
  (List.range (m - 1)).foldl (fun acc i => acc + daysInMonth y (i + 1)) 0

/-- Rata-die ordinal of a date (0001-01-01 ↦ 1), as used by
`datetime.date.toordinal`. -/
def toOrdinal (d : PyDate) : Nat :=
  daysBeforeYear d.year + daysBeforeMonth d.year d.month + d.day

/-- Python `date.weekday()`: Monday = 0 … Sunday = 6. -/
def pyWeekday (d : PyDate) : Nat := (toOrdinal d + 6) % 7

/-- Zero-pad a decimal rendering to `w` digits. -/
def padZeros (w : Nat) (n : Nat) : List Char :=
  let ds := natToChars n
  List.replicate (w - ds.length) '0' ++ ds

/-- Python `date.isoformat()`: `YYYY-MM-DD`. -/
def isoFormat (d : PyDate) : List Char :=
  padZeros 4 d.year ++ '-' :: padZeros 2 d.month ++ '-' :: padZeros 2 d.day

/-- Piece of a `strptime` pattern: a digit run of length in `[lo, hi]`. -/
def digitPiece (lo hi : Nat) (cs : List Char) : Bool :=
  lo ≤ cs.length && cs.length ≤ hi && allDigits cs

/-- `strptime(text, "%Y-%m-%d")` / `"%Y/%m/%d"`: split on the separator into
year (1–4 digits), month (1–2), day (1–2), then validate the calendar date. -/
def tryFmtYmdSep (text : List Char) (sep : Char) : Option PyDate :=
  match splitOnChar text sep with
  | [ys, ms, ds] =>
    if digitPiece 1 4 ys && digitPiece 1 2 ms && digitPiece 1 2 ds then
      let y := digitsToNat ys
      let m := digitsToNat ms
      let d := digitsToNat ds
      if validYmd y m d then some ⟨y, m, d⟩ else none
    else none
  | _ => none

/-- `strptime(text, "%m/%d/%Y")`. -/
def tryFmtMdySlash (text : List Char) : Option PyDate :=
  match splitOnChar text '/' with
  | [ms, ds, ys] =>
    if digitPiece 1 2 ms && digitPiece 1 2 ds && digitPiece 1 4 ys then
      let y := digitsToNat ys
      let m := digitsToNat ms
      let d := digitsToNat ds
      if validYmd y m d then some ⟨y, m, d⟩ else none
    else none
  | _ => none

/-- `strptime(text, "%Y%m%d")`: a digit run split greedily as
`\d{1,4}\d{1,2}\d{1,2}` (the regex `strptime` compiles), then validated. -/
def tryFmtCompact (text : List Char) : Option PyDate :=
  if allDigits text && 3 ≤ text.length && text.length ≤ 8 then
    let len := text.length
    let ylen := min 4 (len - 2)
    let mlen := min 2 (len - ylen - 1)
    let dlen := len - ylen - mlen
    let y := digitsToNat (text.take ylen)
    let m := digitsToNat ((text.drop ylen).take mlen)
    let d := digitsToNat (text.drop (ylen + mlen))
    if 1 ≤ dlen && dlen ≤ 2 && validYmd y m d then some ⟨y, m, d⟩ else none
  else none

/-- `data_loader.parse_date` (data_loader.py:15-26): falsy input gives
`None`; otherwise the stripped text is tried against the ordered format list
`%Y-%m-%d`, `%Y/%m/%d`, `%m/%d/%Y`, `%Y%m%d`, first match winning. -/
def parseDate (value : Option (List Char)) : Option PyDate :=
  match value with
  | none => none
  | some v =>
    if v = [] then none
    else
      let text := pyStrip v
      if text = [] then none
      else
        (tryFmtYmdSep text '-').orElse fun _ =>
        (tryFmtYmdSep text '/').orElse fun _ =>
        (tryFmtMdySlash text).orElse fun _ =>
        tryFmtCompact text

/-! ## JSON documents (`json.loads` / `json.dumps`)

The JSON values flowing through `extract_json_block` are modelled by `Json`.
Numeric literals are modelled as integers (every numeric literal in the
claims is an integer; the float grammar is out of scope of these claims).
Two further documented simplifications, neither observable by the claims:
string serialization keeps non-ASCII characters raw (Python's default
`ensure_ascii=True` would escape them), and an object is an ordered list of
members (Python collapses duplicate keys; none of the inputs in the claims
has duplicate keys). -/

inductive Json where
  | null
  | bool (b : Bool)
  | num (n : Int)
  | str (s : List Char)
  | arr (elems : List Json)
  | obj (members : List (List Char × Json))

/-- JSON insignificant whitespace (the set Python's `json` scanner skips). -/
def jsonWs (c : Char) : Bool := c = ' ' || c = '\t' || c = '\n' || c = '\r'

/-- Decimal digit `n < 10` as a character. -/
def digitChar : Nat → Char
  | 0 => '0' | 1 => '1' | 2 => '2' | 3 => '3' | 4 => '4'
  | 5 => '5' | 6 => '6' | 7 => '7' | 8 => '8' | _ => '9'

/-- Hexadecimal digit `n < 16` as a (lowercase) character. -/
def hexChar (n : Nat) : Char :=
  if n < 10 then digitChar n
  else if n = 10 then 'a' else if n = 11 then 'b' else if n = 12 then 'c'
  else if n = 13 then 'd' else if n = 14 then 'e' else 'f'

/-- Numeric value of a hexadecimal digit character. -/
def hexVal (c : Char) : Option Nat :=
  if '0' ≤ c && c ≤ '9' then some (c.toNat - 48)
  else if 'a' ≤ c && c ≤ 'f' then some (c.toNat - 87)
  else if 'A' ≤ c && c ≤ 'F' then some (c.toNat - 55)
  else none

/-- JSON escape of one character, as `json.dumps` emits it: the two-character
shortcuts for the standard escapes, `\u00XX` for other control characters,
everything else raw. -/
def escapeChar (c : Char) : List Char :=
  if c = '"' then ['\\', '"']
  else if c = '\\' then ['\\', '\\']
  else if c = '\n' then ['\\', 'n']
  else if c = '\t' then ['\\', 't']
  else if c = '\r' then ['\\', 'r']
  else if c = '\x08' then ['\\', 'b']
  else if c = '\x0c' then ['\\', 'f']
  else if c.toNat < 32 then
    ['\\', 'u', '0', '0', hexChar (c.toNat / 16), hexChar (c.toNat % 16)]
  else [c]

/-- JSON escape of a string body. -/
def escapeStr : List Char → List Char
  | [] => []
  | c :: cs => escapeChar c ++ escapeStr cs

/-- A JSON string literal: `"..."` with the body escaped. -/
def strLit (s : List Char) : List Char := '"' :: escapeStr s ++ ['"']

/-- Serialization of a JSON value: Python `json.dumps` with its default
separators `", "` and `": "`. -/
def Json.dumps : Json → List Char
  | .null => 'n' :: 'u' :: 'l' :: 'l' :: []
  | .bool true => 't' :: 'r' :: 'u' :: 'e' :: []
  | .bool false => 'f' :: 'a' :: 'l' :: 's' :: 'e' :: []
  | .num n => intToChars n
  | .str s => strLit s
  | .arr xs => '[' :: dumpsList xs ++ [']']
  | .obj kvs => '\x7b' :: dumpsMembers kvs ++ ['\x7d']
where
  dumpsList : List Json → List Char
    | [] => []
    | [x] => x.dumps
    | x :: y :: rest => x.dumps ++ ',' :: ' ' :: dumpsList (y :: rest)
  dumpsMembers : List (List Char × Json) → List Char
    | [] => []
    | [(k, v)] => strLit k ++ ':' :: ' ' :: v.dumps
    | (k, v) :: m :: rest =>
      strLit k ++ ':' :: ' ' :: v.dumps ++ ',' :: ' ' :: dumpsMembers (m :: rest)

/-- Body of a JSON string literal after the opening quote: returns the
decoded characters and the input after the closing quote.  `json.loads` in
its default strict mode rejects raw control characters; `\uXXXX` escapes are
decoded (surrogate halves, which Lean's `Char` cannot hold, are rejected —
`json.dumps` never emits them for the values modelled here). -/
def parseStrBody : Nat → List Char → Option (List Char × List Char)
  | 0, _ => none
  | _ + 1, [] => none
  | fuel + 1, c :: rest =>
    if c = '"' then some ([], rest)
    else if c = '\\' then
      match rest with
      | [] => none
      | e :: rest2 =>
        let dec : Option (Char × List Char) :=
          if e = '"' then some ('"', rest2)
          else if e = '\\' then some ('\\', rest2)
          else if e = '/' then some ('/', rest2)
          else if e = 'b' then some ('\x08', rest2)
          else if e = 'f' then some ('\x0c', rest2)
          else if e = 'n' then some ('\n', rest2)
          else if e = 'r' then some ('\r', rest2)
          else if e = 't' then some ('\t', rest2)
          else if e = 'u' then
            match rest2 with
            | h1 :: h2 :: h3 :: h4 :: rest3 =>
              match hexVal h1, hexVal h2, hexVal h3, hexVal h4 with
              | some a, some b, some c3, some d =>
                let n := ((a * 16 + b) * 16 + c3) * 16 + d
                if 0xd800 ≤ n && n < 0xe000 then none
                else some (Char.ofNat n, rest3)
              | _, _, _, _ => none
            | _ => none
          else none
        match dec with
        | some (ch, rest') =>
          (parseStrBody fuel rest').map (fun (s, r) => (ch :: s, r))
        | none => none
    else if c.toNat < 32 then none
    else (parseStrBody fuel rest).map (fun (s, r) => (c :: s, r))

/-- Integer literal at the head of the input (sign and digit run). -/
def parseNum (cs : List Char) : Option (Int × List Char) :=
  let (neg, cs') :=
    match cs with
    | '-' :: r => (true, r)
    | _ => (false, cs)
  let ds := cs'.takeWhile Char.isDigit
  if ds = [] then none
  else
    let n : Int := Int.ofNat (digitsToNat ds)
    some (if neg then -n else n, cs'.dropWhile Char.isDigit)

mutual

/-- One JSON value at the head of the input (leading whitespace skipped),
returning the value and the remaining input — the recursive core of
Python's `json.loads`. -/
def parseVal : Nat → List Char → Option (Json × List Char)
  | 0, _ => none
  | fuel + 1, cs =>
    let cs := cs.dropWhile jsonWs
    match cs with
    | [] => none
    | c :: rest =>
      if c = '"' then
        (parseStrBody (fuel + 1) rest).map (fun (s, r) => (Json.str s, r))
      else if c = '[' then
        let r' := rest.dropWhile jsonWs
        match r' with
        | ']' :: r2 => some (Json.arr [], r2)
        | _ => (parseElems fuel r').map (fun (vs, r) => (Json.arr vs, r))
      else if c = '\x7b' then
        let r' := rest.dropWhile jsonWs
        match r' with
        | '\x7d' :: r2 => some (Json.obj [], r2)
        | _ => (parseMembers fuel r').map (fun (ms, r) => (Json.obj ms, r))
      else if ['n', 'u', 'l', 'l'].isPrefixOf cs then
        some (Json.null, cs.drop 4)
      else if ['t', 'r', 'u', 'e'].isPrefixOf cs then
        some (Json.bool true, cs.drop 4)
      else if ['f', 'a', 'l', 's', 'e'].isPrefixOf cs then
        some (Json.bool false, cs.drop 5)
      else if c = '-' || c.isDigit then
        (parseNum cs).map (fun (n, r) => (Json.num n, r))
      else none

/-- Elements of a nonempty JSON array after the opening bracket, up to and
including the closing bracket. -/
def parseElems : Nat → List Char → Option (List Json × List Char)
  | 0, _ => none
  | fuel + 1, cs =>
    (parseVal fuel cs).bind fun (v, rest) =>
      match rest.dropWhile jsonWs with
      | ',' :: r2 => (parseElems fuel r2).map (fun (vs, r) => (v :: vs, r))
      | ']' :: r2 => some ([v], r2)
      | _ => none

/-- Members of a nonempty JSON object after the opening brace, up to and
including the closing brace. -/
def parseMembers : Nat → List Char → Option (List (List Char × Json) × List Char)
  | 0, _ => none
  | fuel + 1, cs =>
    match cs.dropWhile jsonWs with
    | '"' :: r1 =>
      (parseStrBody (fuel + 1) r1).bind fun (k, r2) =>
        match r2.dropWhile jsonWs with
        | ':' :: r3 =>
          (parseVal fuel r3).bind fun (v, rest) =>
            match rest.dropWhile jsonWs with
            | ',' :: r4 =>
              (parseMembers fuel r4).map (fun (ms, r) => ((k, v) :: ms, r))
            | '\x7d' :: r4 => some ([(k, v)], r4)
            | _ => none
        | _ => none
    | _ => none

end

/-- Python `json.loads`: parse a complete document, allowing surrounding
whitespace, rejecting trailing garbage. -/
def loadsChars (s : List Char) : Option Json :=
  match parseVal (s.length + 1) s with
  | some (v, rest) => if rest.dropWhile jsonWs = [] then some v else none
  | _ => none

/-! ## `llm_utils.extract_json_block` (llm_utils.py:299-379) -/

/-- The backtick character (written via its code point throughout). -/
def backtick : Char := Char.ofNat 96

/-- Does the input start with a triple-backtick fence marker? -/
def startsWithTriple : List Char → Bool
  | a :: b :: c :: _ => a = backtick && b = backtick && c = backtick
  | _ => false

/-- Split at the first triple-backtick: `some (before, after)` where
`before` is the text before the marker and `after` the text after it. -/
def findTriple : List Char → Option (List Char × List Char)
  | [] => none
  | c :: cs =>
    if startsWithTriple (c :: cs) then some ([], cs.drop 2)
    else (findTriple cs).map (fun (pre, rest) => (c :: pre, rest))

/-- Lazily scan for the closing fence of the pattern
`([\s\S]*?)\n?` + triple-backtick: returns the shortest capture and the text
after the closing marker (an optional single newline directly before the
marker is consumed but not captured). -/
def findClose : List Char → Option (List Char × List Char)
  | [] => none
  | c :: cs =>
    if startsWithTriple (c :: cs) then some ([], cs.drop 2)
    else if c = '\n' && startsWithTriple cs then some ([], cs.drop 3)
    else (findClose cs).map (fun (cap, rest) => (c :: cap, rest))

/-- Fuel-driven model of
`re.findall(r'BTBTBT(?:json)?\s*\n?([\s\S]*?)\n?BTBTBT', text)` (`BT` the
backtick): captures of successive non-overlapping fenced blocks. -/
def findFencesFuel : Nat → List Char → List (List Char)
  | 0, _ => []
  | fuel + 1, cs =>
    match findTriple cs with
    | none => []
    | some (_, afterOpen) =>
      let r1 :=
        if ['j', 's', 'o', 'n'].isPrefixOf afterOpen then afterOpen.drop 4
        else afterOpen
      let r2 := r1.dropWhile pyIsSpace
      match findClose r2 with
      | none => []
      | some (cap, rest) => cap :: findFencesFuel fuel rest

/-- All code-fence captures of the text (llm_utils.py:313-314). -/
def findFences (cs : List Char) : List (List Char) :=
  findFencesFuel (cs.length + 1) cs

/-- The fence loop (llm_utils.py:315-321): first stripped capture that
starts with a brace or bracket and parses as JSON. -/
def firstParsedFence : List (List Char) → Option Json
  | [] => none
  | m :: rest =>
    let c := pyStrip m
    let headOk : Bool :=
      match c with
      | '\x7b' :: _ => true
      | '[' :: _ => true
      | _ => false
    if headOk then
      match loadsChars c with
      | some v => some v
      | none => firstParsedFence rest
    else firstParsedFence rest

/-- Python `text.find(c)` for a single character, `none` for -1. -/
def pyFindChar (cs : List Char) (c : Char) : Option Nat :=
  cs.findIdx? (· = c)

/-- The string-aware depth scan of llm_utils.py:344-367: starting at an
opening character, the number of characters up to and including the matching
closer, tracking in-string and escape state so that braces and brackets
inside quoted strings (including escaped quotes) do not affect depth. -/
def findSpanLen (oc cc : Char) : List Char → Nat → Bool → Bool → Option Nat
  | [], _, _, _ => none
  | ch :: rest, depth, inStr, esc =>
    if esc then (findSpanLen oc cc rest depth inStr false).map (· + 1)
    else if ch = '\\' && inStr then
      (findSpanLen oc cc rest depth inStr true).map (· + 1)
    else if ch = '"' then (findSpanLen oc cc rest depth (!inStr) false).map (· + 1)
    else if inStr then (findSpanLen oc cc rest depth inStr false).map (· + 1)
    else if ch = oc then (findSpanLen oc cc rest (depth + 1) inStr false).map (· + 1)
    else if ch = cc then
      if depth = 1 then some 1
      else (findSpanLen oc cc rest (depth - 1) inStr false).map (· + 1)
    else (findSpanLen oc cc rest depth inStr false).map (· + 1)

/-- The raw-extraction fallback (llm_utils.py:344-379): depth-scan from the
chosen start, then `json.loads` on the spanned slice (`None` on failure). -/
def rawParse (text : List Char) (start : Nat) (oc cc : Char) : Option Json :=
  let tail := text.drop start
  match findSpanLen oc cc tail 0 false false with
  | none => none
  | some len => loadsChars (tail.take len)

/-- `llm_utils.extract_json_block` (llm_utils.py:299-379): falsy input gives
`None`; then the first parseable brace/bracket-headed code-fence capture;
then the raw scan from the earliest top-level `\x7b` or `[`. -/
def extractJsonBlock (text : List Char) : Option Json :=
  if text = [] then none
  else
    match firstParsedFence (findFences text) with
    | some v => some v
    | none =>
      let startObj := pyFindChar text '\x7b'
      let startArr := pyFindChar text '['
      match startObj, startArr with
      | none, none => none
      | none, some sa => rawParse text sa '[' ']'
      | some so, none => rawParse text so '\x7b' '\x7d'
      | some so, some sa =>
        if sa < so then rawParse text sa '[' ']'
        else rawParse text so '\x7b' '\x7d'

/-! ## `llm_utils.call_responses_with_web_search` (llm_utils.py:10-12, 219-296)

The body of one attempt (Responses API with web search, or the
chat-completions fallback) is abstracted into an executor `exec` mapping the
attempt number to its outcome, so the wrapper's control flow — the part the
claims are about — is embedded exactly.  `time.sleep(wait)` is recorded in a
trace of sleep durations (in seconds); the third component of the result
counts how many times the executor was invoked. -/

/-- An exception escaping one API attempt: its class flags and
`str(exc)` message. -/
structure ApiError where
  isAuthenticationError : Bool
  isPermissionDeniedError : Bool
  message : List Char
deriving DecidableEq, Repr

/-- Outcome of one underlying model-call attempt. -/
inductive CallOutcome (α : Type) where
  | ok : α → CallOutcome α
  | err : ApiError → CallOutcome α
deriving DecidableEq, Repr

/-- How the wrapper terminates. -/
inductive RetryResult (α : Type) where
  | success : α → RetryResult α
  | systemExit : RetryResult α
  | raised : ApiError → RetryResult α
  | implicitNone : RetryResult α
deriving DecidableEq, Repr

/-- `_MAX_RETRIES` (llm_utils.py:11). -/
def MAX_RETRIES : Nat := 3

/-- `_RETRY_BACKOFF_BASE` (llm_utils.py:12): seconds, doubles each retry. -/
def RETRY_BACKOFF_BASE : Nat := 5

/-- Fatal-error classification of llm_utils.py:257-281: authentication and
permission-denied exceptions, and any error whose truncated lowercased
message contains a billing/quota keyword, abort the run (`SystemExit`). -/
def isFatalApiError (e : ApiError) : Bool :=
  e.isAuthenticationError || e.isPermissionDeniedError ||
    (let lowerMsg := pyLower (e.message.take 300)
     containsSub lowerMsg "insufficient_quota".toList ||
       containsSub lowerMsg "billing".toList ||
       containsSub lowerMsg "deactivated".toList)

/-- The retry loop `for attempt in range(1, _MAX_RETRIES + 1)`
(llm_utils.py:228-296), counting down the attempts left: success returns,
fatal errors exit, transient errors sleep `5 * 2^(attempt-1)` and retry
while attempts remain, and the last transient error is re-raised.
`implicitNone` is the value of the (unreachable) loop fall-through. -/
def callRetryGo (exec : Nat → CallOutcome α) : Nat → Nat → RetryResult α × List Nat × Nat
  | _, 0 => (.implicitNone, [], 0)
  | attempt, left + 1 =>
    match exec attempt with
    | .ok v => (.success v, [], 1)
    | .err e =>
      if isFatalApiError e then (.systemExit, [], 1)
      else if left = 0 then (.raised e, [], 1)
      else
        let (r, sleeps, calls) := callRetryGo exec (attempt + 1) left
        (r, RETRY_BACKOFF_BASE * 2 ^ (attempt - 1) :: sleeps, calls + 1)

/-- `call_responses_with_web_search` (llm_utils.py:219-296): result, sleep
trace, and number of executor invocations. -/
def callResponsesWithWebSearch (exec : Nat → CallOutcome α) :
    RetryResult α × List Nat × Nat :=
  callRetryGo exec 1 MAX_RETRIES

/-! ## `ipo_finder` (ipo_finder.py) -/

/-- One provenance entry of the `sources` list (`{title, url, date}`). -/
structure SourceRef where
  title : List Char
  url : List Char
  date : List Char
deriving DecidableEq, Repr

/-- A loosely-typed item of the model's JSON array, holding the dict keys
`_parse_recent_items` / `_parse_upcoming_items` read.  `none` models an
absent key or a JSON null under a plain `item.get(k)`; fields read through
`str(item.get(k, ""))` treat both alike here (no claim exercises the
`str(None)` artefact of an explicit null).  The dict key `"type"` is the
field `itemType`. -/
structure RawItem where
  name : Option (List Char) := none
  ticker : Option (List Char) := none
  ipo_date : Option (List Char) := none
  ipo_price : Option (List Char) := none
  exchange : Option (List Char) := none
  itemType : Option (List Char) := none
  date_kind : Option (List Char) := none
  date_confidence : Option (List Char) := none
  status : Option (List Char) := none
  date_note : Option (List Char) := none
  expected_date : Option (List Char) := none
  date_status : Option (List Char) := none
  stage : Option (List Char) := none
  indicative_price : Option (List Char) := none
  price_confidence : Option (List Char) := none
  business_summary : Option (List Char) := none
  edgar_confirmed : Bool := false
  edgar_note : Option (List Char) := none
  sources : List SourceRef := []
deriving DecidableEq, Repr

/-- `_normalize_ticker` (ipo_finder.py:85-89). -/
def normalizeTicker : Option (List Char) → Option (List Char)
  | none => none
  | some v =>
    if v = [] then none
    else
      let text := pyUpper (pyStrip v)
      if text = [] then none else some text

/-- `_sanitize_name` (ipo_finder.py:92-103): strip, unwrap a markdown link,
remove URL scheme fragments and empty parens, trim whitespace and stray
dashes. -/
def sanitizeName : Option (List Char) → Option (List Char)
  | none => none
  | some v =>
    if v = [] then none
    else
      let text := pyStrip v
      let text :=
        if (match text with | '[' :: _ => true | _ => false) &&
            containsSub text "](".toList &&
            (match text.getLast? with | some ')' => true | _ => false) then
          pyStrip (pyLStripSet (takeBeforeSub text "](".toList) ['['])
        else text
      let text := pyReplace text "http://".toList []
      let text := pyReplace text "https://".toList []
      let text := pyStrip (pyReplace text "()".toList [])
      let text := pyStripSet text [' ', '-', '\t']
      if text = [] then none else some text

/-- Python `float(text)` for plain decimal literals (the forms exercised
here; exponent/inf/nan forms are out of scope of the claims). -/
def pyFloat (cs : List Char) : Option ℚ :=
  let (neg, cs1) :=
    match cs with
    | '-' :: r => (true, r)
    | '+' :: r => (false, r)
    | _ => (false, cs)
  let intPart := cs1.takeWhile Char.isDigit
  let rest1 := cs1.dropWhile Char.isDigit
  let (fracPart, rest2) :=
    match rest1 with
    | '.' :: r => (r.takeWhile Char.isDigit, r.dropWhile Char.isDigit)
    | _ => ([], rest1)
  if rest2 ≠ [] then none
  else if intPart = [] && fracPart = [] then none
  else if rest1 ≠ [] && rest1.head? ≠ some '.' then none
  else
    let q : ℚ :=
      (digitsToNat intPart : ℚ) +
        (digitsToNat fracPart : ℚ) / ((10 : ℚ) ^ fracPart.length)
    some (if neg then -q else q)

/-- `_normalize_price` (ipo_finder.py:106-112): strip a `$` and whitespace,
parse as a float, `None` on failure. -/
def normalizePrice : Option (List Char) → Option ℚ
  | none => none
  | some v => pyFloat (pyStrip (pyReplace v ['$'] []))

/-- The coercion `str(item.get(k, "")).strip() or None` used for the
string-valued optional fields. -/
def coerceStrField : Option (List Char) → Option (List Char)
  | none => none
  | some v =>
    let t := pyStrip v
    if t = [] then none else some t

/-- A recently-priced IPO (the `RecentIpo` dataclass, ipo_finder.py:11-25).
All thirteen fields are required: the dataclass declares no defaults. -/
structure RecentIpo where
  name : List Char
  ticker : Option (List Char)
  ipo_date : Option PyDate
  ipo_price : Option ℚ
  exchange : Option (List Char)
  ipo_type : Option (List Char)
  date_kind : Option (List Char)
  date_confidence : Option (List Char)
  status : Option (List Char)
  date_note : Option (List Char)
  source_count : Nat
  source_quality : List Char
  sources : List SourceRef
deriving DecidableEq, Repr

/-- An upcoming IPO (the `UpcomingIpo` dataclass, ipo_finder.py:45-62).
All sixteen fields are required: the dataclass declares no defaults. -/
structure UpcomingIpo where
  name : List Char
  ticker : Option (List Char)
  expected_date : Option (List Char)
  date_status : Option (List Char)
  date_confidence : Option (List Char)
  date_note : Option (List Char)
  stage : Option (List Char)
  indicative_price : Option ℚ
  price_confidence : Option (List Char)
  business_summary : Option (List Char)
  ipo_type : Option (List Char)
  edgar_confirmed : Bool
  edgar_note : Option (List Char)
  source_count : Nat
  source_quality : List Char
  sources : List SourceRef
deriving DecidableEq, Repr

/-- The coerced `"type"` field: `str(item.get("type", "")).strip().lower()`. -/
def coercedIpoType (item : RawItem) : List Char :=
  pyLower (pyStrip (item.itemType.getD []))

/-- The guards of the `_parse_recent_items` loop body (ipo_finder.py:118-127)
that `continue` past an item: empty sanitized name, parsed date before the
cutoff, or SPAC type. -/
def recentKeeps (cutoff : PyDate) (item : RawItem) : Bool :=
  (sanitizeName item.name).isSome &&
    (match parseDate item.ipo_date with
     | some d => !dateLt d cutoff
     | none => true) &&
    coercedIpoType item != "spac".toList

/-- The `RecentIpo` record built for a kept item (ipo_finder.py:128-147). -/
def mkRecentIpo (item : RawItem) : RecentIpo :=
  let sourceCount := item.sources.length
  { name := (sanitizeName item.name).getD []
    ticker := normalizeTicker item.ticker
    ipo_date := parseDate item.ipo_date
    ipo_price := normalizePrice item.ipo_price
    exchange := coerceStrField item.exchange
    ipo_type := (let t := coercedIpoType item; if t = [] then none else some t)
    date_kind := coerceStrField item.date_kind
    date_confidence := coerceStrField item.date_confidence
    status := coerceStrField item.status
    date_note := coerceStrField item.date_note
    source_count := sourceCount
    source_quality :=
      if sourceCount ≤ 1 then "single-source".toList else "multi-source".toList
    sources := item.sources }

/-- `confidence_rank.get(x or "", 0)` (ipo_finder.py:154-156):
high = 3, medium = 2, low = 1, anything else 0. -/
def confidenceRank (dc : Option (List Char)) : Nat :=
  match dc with
  | some t =>
    if t = "high".toList then 3
    else if t = "medium".toList then 2
    else if t = "low".toList then 1
    else 0
  | none => 0

/-- The replacement condition of ipo_finder.py:157-159: the new record wins
when it has strictly more sources, or the same number of sources and a
strictly higher date-confidence rank. -/
def recentBeats (newIpo existing : RecentIpo) : Bool :=
  newIpo.source_count > existing.source_count ||
    (newIpo.source_count = existing.source_count &&
      confidenceRank newIpo.date_confidence > confidenceRank existing.date_confidence)

/-- State of the `_parse_recent_items` loop: the output list and the
`seen_tickers` map from ticker to index in the output. -/
structure RecentParseState where
  parsed : List RecentIpo
  seen : List (List Char × Nat)
deriving Repr

/-- One iteration of the `_parse_recent_items` loop (ipo_finder.py:118-165):
skip invalid items; for a kept item with a previously seen ticker, replace
the earlier record in place when the new one beats it, otherwise drop the
new one; for new keys, record the index and append. -/
def parseRecentStep (cutoff : PyDate) (st : RecentParseState) (item : RawItem) :
    RecentParseState :=
  if recentKeeps cutoff item then
    let ipo := mkRecentIpo item
    match ipo.ticker with
    | some t =>
      match st.seen.lookup t with
      | some idx =>
        match st.parsed.get? idx with
        | some existing =>
          if recentBeats ipo existing then
            { st with parsed := st.parsed.set idx ipo }
          else st
        | none => st
      | none =>
        { parsed := st.parsed ++ [ipo], seen := (t, st.parsed.length) :: st.seen }
    | none => { st with parsed := st.parsed ++ [ipo] }
  else st

/-- `_parse_recent_items` (ipo_finder.py:115-166). -/
def parseRecentItems (items : List RawItem) (cutoff : PyDate) : List RecentIpo :=
  (items.foldl (parseRecentStep cutoff) ⟨[], []⟩).parsed

/-- The advisory note attached to weekend expected dates
(ipo_finder.py:186). -/
def weekendNote : List Char :=
  "Weekend date; verify pricing or first trade date".toList

/-- The default EDGAR note (ipo_finder.py:199). -/
def defaultEdgarNote : List Char := "No confirmation on EDGAR".toList

/-- The guards of the `_parse_upcoming_items` loop body
(ipo_finder.py:173-192): empty sanitized name, SPAC type, or a parsed
expected date strictly before today. -/
def upcomingKeeps (today : PyDate) (item : RawItem) : Bool :=
  (sanitizeName item.name).isSome &&
    coercedIpoType item != "spac".toList &&
    (match parseDate (coerceStrField item.expected_date) with
     | some d => !dateLt d today
     | none => true)

/-- The `UpcomingIpo` record built for a kept item (ipo_finder.py:180-220),
including the weekend-date advisory note and the default EDGAR note. -/
def mkUpcomingIpo (item : RawItem) : UpcomingIpo :=
  let expectedDate := coerceStrField item.expected_date
  let dateNote0 := coerceStrField item.date_note
  let parsedDate := parseDate expectedDate
  let dateNote :=
    match parsedDate with
    | some d =>
      if 5 ≤ pyWeekday d && dateNote0 = none then some weekendNote else dateNote0
    | none => dateNote0
  let edgarNote0 := coerceStrField item.edgar_note
  let edgarNote :=
    if !item.edgar_confirmed && edgarNote0 = none then some defaultEdgarNote
    else edgarNote0
  let sourceCount := item.sources.length
  { name := (sanitizeName item.name).getD []
    ticker := normalizeTicker item.ticker
    expected_date := expectedDate
    date_status := coerceStrField item.date_status
    date_confidence := coerceStrField item.date_confidence
    date_note := dateNote
    stage := (let s := pyLower (pyStrip (item.stage.getD [])); if s = [] then none else some s)
    indicative_price := normalizePrice item.indicative_price
    price_confidence := coerceStrField item.price_confidence
    business_summary := coerceStrField item.business_summary
    ipo_type := (let t := coercedIpoType item; if t = [] then none else some t)
    edgar_confirmed := item.edgar_confirmed
    edgar_note := edgarNote
    source_count := sourceCount
    source_quality :=
      if sourceCount ≤ 1 then "single-source".toList else "multi-source".toList
    sources := item.sources }

/-- The replacement condition of ipo_finder.py:226-228 and 236-238: the new
record wins when it has strictly more sources, or when it is
EDGAR-confirmed and the existing one is not. -/
def upcomingBeats (newIpo existing : UpcomingIpo) : Bool :=
  newIpo.source_count > existing.source_count ||
    (newIpo.edgar_confirmed && !existing.edgar_confirmed)

/-- State of the `_parse_upcoming_items` loop: output list, `seen_tickers`,
and `seen_names` (the latter for entries with no ticker). -/
structure UpcomingParseState where
  parsed : List UpcomingIpo
  seenTickers : List (List Char × Nat)
  seenNames : List (List Char × Nat)
deriving Repr

/-- One iteration of the `_parse_upcoming_items` loop
(ipo_finder.py:173-246): dedup by ticker when present, else by the
lowercased stripped name. -/
def parseUpcomingStep (today : PyDate) (st : UpcomingParseState) (item : RawItem) :
    UpcomingParseState :=
  if upcomingKeeps today item then
    let ipo := mkUpcomingIpo item
    match ipo.ticker with
    | some t =>
      match st.seenTickers.lookup t with
      | some idx =>
        match st.parsed.get? idx with
        | some existing =>
          if upcomingBeats ipo existing then
            { st with parsed := st.parsed.set idx ipo }
          else st
        | none => st
      | none =>
        { parsed := st.parsed ++ [ipo]
          seenTickers := (t, st.parsed.length) :: st.seenTickers
          seenNames := st.seenNames }
    | none =>
      let nameKey := pyStrip (pyLower ipo.name)
      match st.seenNames.lookup nameKey with
      | some idx =>
        match st.parsed.get? idx with
        | some existing =>
          if upcomingBeats ipo existing then
            { st with parsed := st.parsed.set idx ipo }
          else st
        | none => st
      | none =>
        { parsed := st.parsed ++ [ipo]
          seenTickers := st.seenTickers
          seenNames := (nameKey, st.parsed.length) :: st.seenNames }
  else st

/-- `_parse_upcoming_items` (ipo_finder.py:169-247); `date.today()` is the
explicit parameter `today`. -/
def parseUpcomingItems (items : List RawItem) (today : PyDate) : List UpcomingIpo :=
  (items.foldl (parseUpcomingStep today) ⟨[], [], []⟩).parsed

/-! ## `performance._price_return` (performance.py:34-46) -/

/-- A pandas price series: (date, adjusted close) pairs, index ascending. -/
abbrev PriceSeries := List (Int × ℚ)

/-- `_price_return` (performance.py:34-46): the trailing `days`-day return.
`series.loc[:start_date]` on an ascending index is the filter of points at
or before `start_date`. -/
def priceReturn (series : PriceSeries) (days : Int) : Option ℚ :=
  match series.getLast? with
  | none => none
  | some lastPoint =>
    let startDate := lastPoint.1 - days
    let prior := series.filter (fun p => p.1 ≤ startDate)
    match prior.getLast? with
    | none => none
    | some sp =>
      if sp.2 = 0 then none
      else some ((lastPoint.2 - sp.2) / sp.2)

/-! ## `charts.generate_comparison_chart` (charts.py:22-127)

Dates are day numbers (`Int`), so `timedelta(days=w)` is subtraction and
`(end_date - start_date).days` is a difference.  Only the data selection,
failure, normalization and label logic is embedded; the matplotlib drawing
calls produce the PNG artifact and are not modelled. -/

/-- `ChartRequest` (charts.py:13-19) without the output path. -/
structure ChartRequest where
  window_days : Int
  purchase_date : Option Int
deriving DecidableEq, Repr

/-- How the chart computation can raise. -/
inductive ChartError where
  | indexError
  | insufficientData
deriving DecidableEq, Repr

/-- The data-dependent outputs of `generate_comparison_chart`. -/
structure ChartOut where
  startDate : Int
  endDate : Int
  windowLabel : List Char
  stockNorm : PriceSeries
  benchNorm : PriceSeries
deriving DecidableEq, Repr

/-- `charts._normalize` (charts.py:122-126): index both slices to 100 at the
first value; a zero first value maps the series to zero. -/
def normalizeSeries (s : PriceSeries) : PriceSeries :=
  match s with
  | [] => []
  | p :: _ =>
    if p.2 = 0 then s.map (fun q => (q.1, 0))
    else s.map (fun q => (q.1, q.2 / p.2 * 100))

/-- `generate_comparison_chart` (charts.py:22-53): window selection, the
insufficient-data failure, normalization, and the window label.
`series.loc[start:]` on an ascending index is the filter of points at or
after `start`; `series.index[-1]` / `index[0]` on an empty series raise
(`indexError`). -/
def generateComparisonChart (series benchmark : PriceSeries)
    (request : ChartRequest) : Except ChartError ChartOut :=
  match series, benchmark with
  | [], _ => .error .indexError
  | _ :: _, [] => .error .indexError
  | s0 :: srest, b0 :: _ =>
    let endDate := ((s0 :: srest).getLastD s0).1
    let requestedStart := endDate - request.window_days
    let earliest0 := max s0.1 b0.1
    let earliestAvailable :=
      match request.purchase_date with
      | some p => if p > earliest0 then p else earliest0
      | none => earliest0
    let startDate := max requestedStart earliestAvailable
    let stockSlice := (s0 :: srest).filter (fun p => startDate ≤ p.1)
    let benchSlice := benchmark.filter (fun p => startDate ≤ p.1)
    if stockSlice = [] || benchSlice = [] then .error .insufficientData
    else
      let actualDays := endDate - startDate
      let windowLabel :=
        if actualDays < request.window_days then
          match request.purchase_date with
          | some p =>
            if startDate ≤ p then "since listing".toList
            else intToChars actualDays ++ ['d']
          | none => intToChars actualDays ++ ['d']
        else intToChars request.window_days ++ ['d']
      .ok
        { startDate := startDate
          endDate := endDate
          windowLabel := windowLabel
          stockNorm := normalizeSeries stockSlice
          benchNorm := normalizeSeries benchSlice }

/-! ## The disk-cache round trip (runner.py:300-367, ipo_finder to_dict) -/

/-- A JSON-able value of a cache dict (`to_dict` emits strings, numbers,
booleans, nulls, and the source list). -/
inductive CVal where
  | str : List Char → CVal
  | num : ℚ → CVal
  | boolv : Bool → CVal
  | null : CVal
  | srcList : List SourceRef → CVal
deriving DecidableEq, Repr

/-- An optional string serialized into a cache dict. -/
def optStrVal : Option (List Char) → CVal
  | none => .null
  | some s => .str s

/-- An optional number serialized into a cache dict. -/
def optNumVal : Option ℚ → CVal
  | none => .null
  | some q => .num q

/-- `RecentIpo.to_dict` (ipo_finder.py:27-42). -/
def RecentIpo.toDict (r : RecentIpo) : List (List Char × CVal) :=
  [ ("name".toList, .str r.name)
  , ("ticker".toList, optStrVal r.ticker)
  , ("ipo_date".toList,
      match r.ipo_date with
      | some d => .str (isoFormat d)
      | none => .null)
  , ("ipo_price".toList, optNumVal r.ipo_price)
  , ("exchange".toList, optStrVal r.exchange)
  , ("ipo_type".toList, optStrVal r.ipo_type)
  , ("date_kind".toList, optStrVal r.date_kind)
  , ("date_confidence".toList, optStrVal r.date_confidence)
  , ("status".toList, optStrVal r.status)
  , ("date_note".toList, optStrVal r.date_note)
  , ("source_count".toList, .num r.source_count)
  , ("source_quality".toList, .str r.source_quality)
  , ("sources".toList, .srcList r.sources) ]

/-- `UpcomingIpo.to_dict` (ipo_finder.py:64-82). -/
def UpcomingIpo.toDict (r : UpcomingIpo) : List (List Char × CVal) :=
  [ ("name".toList, .str r.name)
  , ("ticker".toList, optStrVal r.ticker)
  , ("expected_date".toList, optStrVal r.expected_date)
  , ("date_status".toList, optStrVal r.date_status)
  , ("date_confidence".toList, optStrVal r.date_confidence)
  , ("date_note".toList, optStrVal r.date_note)
  , ("stage".toList, optStrVal r.stage)
  , ("indicative_price".toList, optNumVal r.indicative_price)
  , ("price_confidence".toList, optStrVal r.price_confidence)
  , ("business_summary".toList, optStrVal r.business_summary)
  , ("ipo_type".toList, optStrVal r.ipo_type)
  , ("edgar_confirmed".toList, .boolv r.edgar_confirmed)
  , ("edgar_note".toList, optStrVal r.edgar_note)
  , ("source_count".toList, .num r.source_count)
  , ("source_quality".toList, .str r.source_quality)
  , ("sources".toList, .srcList r.sources) ]

/-- A raised Python `TypeError` (here: a constructor call naming the listed
required parameters it omits). -/
inductive PyErr where
  | typeError (missingArgs : List (List Char))
deriving DecidableEq, Repr

/-- The thirteen required parameters of `RecentIpo.__init__`
(ipo_finder.py:11-25: a frozen dataclass whose fields all lack defaults). -/
def recentIpoRequiredArgs : List (List Char) :=
  [ "name".toList, "ticker".toList, "ipo_date".toList, "ipo_price".toList
  , "exchange".toList, "ipo_type".toList, "date_kind".toList
  , "date_confidence".toList, "status".toList, "date_note".toList
  , "source_count".toList, "source_quality".toList, "sources".toList ]

/-- The keyword arguments the cache-hit reconstruction at runner.py:310-317
actually passes to `RecentIpo(...)`. -/
def recentCacheKwargs : List (List Char) :=
  [ "name".toList, "ticker".toList, "ipo_date".toList, "ipo_price".toList
  , "exchange".toList, "sources".toList ]

/-- The required `RecentIpo.__init__` parameters the cache-hit call omits. -/
def missingRecentCtorArgs : List (List Char) :=
  recentIpoRequiredArgs.filter (fun f => !recentCacheKwargs.contains f)

/-- The sixteen required parameters of `UpcomingIpo.__init__`
(ipo_finder.py:45-62). -/
def upcomingIpoRequiredArgs : List (List Char) :=
  [ "name".toList, "ticker".toList, "expected_date".toList
  , "date_status".toList, "date_confidence".toList, "date_note".toList
  , "stage".toList, "indicative_price".toList, "price_confidence".toList
  , "business_summary".toList, "ipo_type".toList, "edgar_confirmed".toList
  , "edgar_note".toList, "source_count".toList, "source_quality".toList
  , "sources".toList ]

/-- The keyword arguments the cache-hit reconstruction at runner.py:344-352
actually passes to `UpcomingIpo(...)`. -/
def upcomingCacheKwargs : List (List Char) :=
  [ "name".toList, "ticker".toList, "expected_date".toList
  , "date_status".toList, "indicative_price".toList
  , "price_confidence".toList, "business_summary".toList, "sources".toList ]

/-- The required `UpcomingIpo.__init__` parameters the cache-hit call
omits. -/
def missingUpcomingCtorArgs : List (List Char) :=
  upcomingIpoRequiredArgs.filter (fun f => !upcomingCacheKwargs.contains f)

/-- Reconstruction of one cached recent item (runner.py:309-319).  The
`RecentIpo(...)` call there omits the required dataclass parameters listed
in `missingRecentCtorArgs` (that list is nonempty), so Python raises
`TypeError` before evaluating any field: the call is embedded as exactly
that raised error. -/
def loadCachedRecentItem (_item : List (List Char × CVal)) :
    Except PyErr RecentIpo :=
  .error (.typeError missingRecentCtorArgs)

/-- Reconstruction of one cached upcoming item (runner.py:343-355), which
likewise raises `TypeError` for the omitted required parameters. -/
def loadCachedUpcomingItem (_item : List (List Char × CVal)) :
    Except PyErr UpcomingIpo :=
  .error (.typeError missingUpcomingCtorArgs)

/-- A cache document as written by `write_json` (runner.py:323-330,
359-366). -/
structure CachePayload where
  generated_at : List Char
  window_days : Int
  items : List (List (List Char × CVal))
deriving DecidableEq, Repr

/-- The cache document `_load_or_fetch_recent` writes after a fetch
(runner.py:323-330). -/
def writeRecentCache (now : List Char) (windowDays : Int)
    (ipos : List RecentIpo) : CachePayload :=
  ⟨now, windowDays, ipos.map RecentIpo.toDict⟩

/-- The cache document `_load_or_fetch_upcoming` writes
(runner.py:359-366). -/
def writeUpcomingCache (now : List Char) (windowDays : Int)
    (ipos : List UpcomingIpo) : CachePayload :=
  ⟨now, windowDays, ipos.map UpcomingIpo.toDict⟩

/-- The cache-hit branch of `_load_or_fetch_recent` (runner.py:300-319) with
`refresh` false: `some` of the reconstruction outcome when the stored window
matches and the item list is nonempty (the list comprehension raising at its
first element), `none` when the branch falls through to a fresh fetch. -/
def loadRecentCacheHit (cached : Option CachePayload) (windowDays : Int) :
    Option (Except PyErr (List RecentIpo)) :=
  match cached with
  | none => none
  | some p =>
    if p.window_days = windowDays && !p.items.isEmpty then
      some (p.items.mapM loadCachedRecentItem)
    else none

/-- The cache-hit branch of `_load_or_fetch_upcoming` (runner.py:334-355). -/
def loadUpcomingCacheHit (cached : Option CachePayload) (windowDays : Int) :
    Option (Except PyErr (List UpcomingIpo)) :=
  match cached with
  | none => none
  | some p =>
    if p.window_days = windowDays && !p.items.isEmpty then
      some (p.items.mapM loadCachedUpcomingItem)
    else none

/-- Decidable equality of `Except` results (used to evaluate embedded
fallible operations at concrete inputs). -/
instance {ε α : Type} [DecidableEq ε] [DecidableEq α] : DecidableEq (Except ε α) := fun a b =>
  match a, b with
  | .ok x, .ok y =>
    decidable_of_iff (x = y) ⟨fun h => by rw [h], fun h => by injection h⟩
  | .error x, .error y =>
    decidable_of_iff (x = y) ⟨fun h => by rw [h], fun h => by injection h⟩
  | .ok _, .error _ => isFalse (fun h => Except.noConfusion h)
  | .error _, .ok _ => isFalse (fun h => Except.noConfusion h)

/-! ## Specification-side definitions

These definitions follow the wording of the claims (not the code); the
refinement theorems compare them with the embedded source functions. -/

/-- Claim-side key sequence: one key per dedup key, in the order each key
first appeared; `none` entries (no dedup key) are kept as they come. -/
def specFirstKeys {K : Type} [DecidableEq K] (seen : List K) :
    List (Option K) → List (Option K)
  | [] => []
  | none :: ks => none :: specFirstKeys seen ks
  | some t :: ks =>
    if t ∈ seen then specFirstKeys seen ks
    else some t :: specFirstKeys (t :: seen) ks

/-- Dedup key of a raw recent item: the normalized ticker, when present. -/
def recentRawKey (item : RawItem) : Option (List Char) :=
  normalizeTicker item.ticker

/-- Dedup key of a raw upcoming item: the normalized ticker when present
(left), else the case-insensitive trimmed sanitized name (right). -/
def upcomingRawKey (item : RawItem) : (List Char) ⊕ (List Char) :=
  match normalizeTicker item.ticker with
  | some t => Sum.inl t
  | none => Sum.inr (pyStrip (pyLower ((sanitizeName item.name).getD [])))

/-- Dedup key read back from a parsed upcoming record. -/
def upcomingRecordKey (r : UpcomingIpo) : (List Char) ⊕ (List Char) :=
  match r.ticker with
  | some t => Sum.inl t
  | none => Sum.inr (pyStrip (pyLower r.name))

/-- Claim-side earliest usable start: the later of (series start, benchmark
start, purchase date if given and later than both). -/
def specEarliestUsableStart (seriesStart benchStart : Int)
    (purchase : Option Int) : Int :=
  match purchase with
  | some p =>
    if seriesStart < p ∧ benchStart < p then p else max seriesStart benchStart
  | none => max seriesStart benchStart

/-- Claim-side effective start: `max(endDate − requestedDays, earliest
usable start)`. -/
def specEffectiveStart (seriesStart benchStart endDate : Int)
    (request : ChartRequest) : Int :=
  max (endDate - request.window_days)
    (specEarliestUsableStart seriesStart benchStart request.purchase_date)

/-- Claim-side window label (C4 wording): `"{requestedDays}d"` when the
realized span reaches the request; otherwise `"since listing"` exactly when
a purchase date forced the truncation (it is strictly later than both series
starts, so it set the earliest usable start) and falls within the realized
window, else `"{realized_days}d"`. -/
def specWindowLabel (seriesStart benchStart endDate : Int)
    (request : ChartRequest) : List Char :=
  let effStart := specEffectiveStart seriesStart benchStart endDate request
  let realized := endDate - effStart
  if realized < request.window_days then
    match request.purchase_date with
    | some p =>
      if (seriesStart < p ∧ benchStart < p) ∧ effStart ≤ p ∧ p ≤ endDate then
        "since listing".toList
      else intToChars realized ++ ['d']
    | none => intToChars realized ++ ['d']
  else intToChars request.window_days ++ ['d']

/-- Claim-side start value of a trailing return: the series value at the
latest date at or before the target date (later entries win date ties). -/
def specLastValueAtOrBefore (series : PriceSeries) (d : Int) : Option ℚ :=
  match series.filter (fun p => p.1 ≤ d) with
  | [] => none
  | p :: ps =>
    some ((ps.foldl (fun best q => if best.1 ≤ q.1 then q else best) p).2)

/-- Claim-side trailing `days`-day return: `(end − start)/start` from the
claim-side start value, absent when there is no start value or it is zero. -/
def specTrailingReturn (series : PriceSeries) (days : Int) : Option ℚ :=
  match series.getLast? with
  | none => none
  | some lastPoint =>
    match specLastValueAtOrBefore series (lastPoint.1 - days) with
    | none => none
    | some sv =>
      if sv = 0 then none else some ((lastPoint.2 - sv) / sv)

/-- A price series sorted ascending by date. -/
abbrev seriesSorted (s : PriceSeries) : Prop :=
  List.Pairwise (fun p q => p.1 ≤ q.1) s

/-- No triple backtick occurs in the text. -/
def hasTripleBacktick (cs : List Char) : Bool := (findTriple cs).isSome

/-- The text contains no backtick at all. -/
def backtickFree (cs : List Char) : Bool := cs.all (fun c => c != backtick)

/-- The text contains neither an opening brace nor an opening bracket. -/
def braceBracketFree (cs : List Char) : Bool :=
  cs.all (fun c => c != '\x7b' && c != '[')

/-- A serialized number must not be followed directly by another digit (the
parser would absorb it); every other value is delimited by its own last
character. -/
def restSafe : Json → List Char → Bool
  | .num _, c :: _ => !c.isDigit
  | _, _ => true

/-- The state automaton of `findSpanLen` run over a whole segment: the final
(depth, in-string, escape) state, or `none` if the segment would close the
span (hit the closer at depth 1). -/
def scanList (oc cc : Char) : List Char → Nat × Bool × Bool →
    Option (Nat × Bool × Bool)
  | [], st => some st
  | ch :: rest, (depth, inStr, esc) =>
    if esc then scanList oc cc rest (depth, inStr, false)
    else if ch = '\\' && inStr then scanList oc cc rest (depth, inStr, true)
    else if ch = '"' then scanList oc cc rest (depth, !inStr, false)
    else if inStr then scanList oc cc rest (depth, inStr, false)
    else if ch = oc then scanList oc cc rest (depth + 1, inStr, false)
    else if ch = cc then
      if depth = 1 then none
      else scanList oc cc rest (depth - 1, inStr, false)
    else scanList oc cc rest (depth, inStr, false)

/-- Coherence of the recent parser's `seen_tickers` map with its output
list: the map sends each ticker to the unique index of the record carrying
it. -/
def RecInv (st : RecentParseState) : Prop :=
  (∀ t i, List.lookup t st.seen = some i →
    ∃ r, st.parsed[i]? = some r ∧ r.ticker = some t) ∧
  (∀ i r t, st.parsed[i]? = some r → r.ticker = some t →
    List.lookup t st.seen = some i)

/-- Coherence of the upcoming parser's `seen_tickers` and `seen_names` maps
with its output list. -/
def UpInv (st : UpcomingParseState) : Prop :=
  (∀ t i, List.lookup t st.seenTickers = some i →
    ∃ r, st.parsed[i]? = some r ∧ r.ticker = some t) ∧
  (∀ i r t, st.parsed[i]? = some r → r.ticker = some t →
    List.lookup t st.seenTickers = some i) ∧
  (∀ nk i, List.lookup nk st.seenNames = some i →
    ∃ r, st.parsed[i]? = some r ∧ r.ticker = none ∧
      pyStrip (pyLower r.name) = nk) ∧
  (∀ i r, st.parsed[i]? = some r → r.ticker = none →
    List.lookup (pyStrip (pyLower r.name)) st.seenNames = some i)

/-- The dedup keys the upcoming parser state has already seen, as claim-side
sum keys. -/
def upcomingSeenKeys (st : UpcomingParseState) :
    List ((List Char) ⊕ (List Char)) :=
  st.seenTickers.map (fun p => Sum.inl p.1) ++
    st.seenNames.map (fun p => Sum.inr p.1)

/-! ## Concrete instances used by witnesses and counterexamples -/

/-- Day number of 2023-01-01. -/
def day20230101 : Int := toOrdinal ⟨2023, 1, 1⟩

/-- Day number of 2023-06-01. -/
def day20230601 : Int := toOrdinal ⟨2023, 6, 1⟩

/-- Day number of 2024-01-01. -/
def day20240101 : Int := toOrdinal ⟨2024, 1, 1⟩

/-- A stock series spanning 2023-01-01..2024-01-01. -/
def c5Series : PriceSeries := [(day20230101, 10), (day20240101, 11)]

/-- A benchmark series spanning 2023-06-01..2024-01-01. -/
def c5Bench : PriceSeries := [(day20230601, 5), (day20240101, 6)]

/-- A series spanning 2023-06-01..2024-01-01 (both roles). -/
def c4Series : PriceSeries := [(day20230601, 10), (day20240101, 11)]

/-- A 365-day request whose purchase date equals the common series start. -/
def c4Request : ChartRequest := ⟨365, some day20230601⟩

/-- The chart output on `c4Series`/`c4Request`. -/
def c4Out : ChartOut :=
  ⟨day20230601, day20240101, "since listing".toList,
    [(day20230601, 100), (day20240101, 110)],
    [(day20230601, 100), (day20240101, 110)]⟩

/-- Three backticks. -/
def tripleBT : List Char := [backtick, backtick, backtick]

/-- The spec's fenced-block example input: a JSON array inside a
```json fence followed by prose with stray braces. -/
def c7Text : List Char :=
  "Here is data:\n".toList ++ tripleBT ++ "json\n[\x7b\"a\":1\x7d]\n".toList ++
    tripleBT ++ "\nNote: cost was \x7bhigh\x7d.".toList

/-- The JSON value of the spec example: the one-object array whose object
maps "a" to 1. -/
def c7Value : Json := .arr [.obj [("a".toList, .num 1)]]

/-- A text whose raw-scan extraction is an array holding one string that
itself contains a parseable fenced JSON array. -/
def c8Text : List Char :=
  'x' :: tripleBT ++ '\n' :: '[' :: '"' :: tripleBT ++ "[1]".toList ++
    tripleBT ++ '"' :: ']' :: '\n' :: tripleBT

/-- The value `extract_json_block` yields on `c8Text`. -/
def c8Value : Json := .arr [.str (tripleBT ++ "[1]".toList ++ tripleBT)]

/-- A sample provenance entry. -/
def sampleSource : SourceRef := ⟨"t".toList, "u".toList, "d".toList⟩

/-- A concrete recent record for the cache round-trip witness. -/
def c1Recent : RecentIpo :=
  { name := "Acme Corp".toList
    ticker := some "ACME".toList
    ipo_date := some ⟨2025, 9, 15⟩
    ipo_price := none
    exchange := some "NYSE".toList
    ipo_type := some "operating_company".toList
    date_kind := none
    date_confidence := some "high".toList
    status := some "priced".toList
    date_note := none
    source_count := 1
    source_quality := "single-source".toList
    sources := [sampleSource] }

/-- A concrete upcoming record for the cache round-trip witness. -/
def c1Upcoming : UpcomingIpo :=
  { name := "Stripe Inc.".toList
    ticker := none
    expected_date := some "TBD".toList
    date_status := some "rumored".toList
    date_confidence := some "low".toList
    date_note := none
    stage := some "rumored".toList
    indicative_price := none
    price_confidence := none
    business_summary := none
    ipo_type := some "operating_company".toList
    edgar_confirmed := false
    edgar_note := some defaultEdgarNote
    source_count := 1
    source_quality := "single-source".toList
    sources := [sampleSource] }

/-- Upcoming item with two sources and no EDGAR confirmation. -/
def c2ItemA : RawItem :=
  { name := some "Stripe".toList
    sources := [sampleSource, ⟨"t2".toList, "u2".toList, "d2".toList⟩]
    edgar_confirmed := false }

/-- Upcoming item for the same company with one source, EDGAR-confirmed. -/
def c2ItemB : RawItem :=
  { name := some " stripe ".toList
    sources := [sampleSource]
    edgar_confirmed := true }

/-- A fixed `date.today()` for the upcoming-item instances. -/
def c2Today : PyDate := ⟨2025, 10, 12⟩

/-- An upcoming item with a distinct name, placed between the duplicates. -/
def c10ItemD : RawItem :=
  { name := some "Zeta Co".toList
    sources := [sampleSource] }

/-- Recent item: ticker ACME, two sources, low confidence. -/
def c3ItemA : RawItem :=
  { name := some "Acme".toList
    ticker := some "ACME".toList
    date_confidence := some "low".toList
    sources := [sampleSource, ⟨"t2".toList, "u2".toList, "d2".toList⟩] }

/-- Recent item: same ticker, two sources, high confidence. -/
def c3ItemB : RawItem :=
  { name := some "Acme Incorporated".toList
    ticker := some " acme".toList
    date_confidence := some "high".toList
    sources := [⟨"t3".toList, "u3".toList, "d3".toList⟩, ⟨"t4".toList, "u4".toList, "d4".toList⟩] }

/-- Recent item with a distinct ticker, placed between the duplicates. -/
def c10ItemC : RawItem :=
  { name := some "Other Co".toList
    ticker := some "OTHR".toList
    sources := [sampleSource] }

/-- A fixed cutoff predating nothing in the instances. -/
def c3Cutoff : PyDate := ⟨2025, 1, 1⟩

/-- An executor failing transiently on every attempt. -/
def c9ExecTransient : Nat → CallOutcome Nat :=
  fun _ => .err ⟨false, false, "Rate limit exceeded, try again".toList⟩

/-- An executor failing with an authentication error on every attempt. -/
def c9ExecAuth : Nat → CallOutcome Nat :=
  fun _ => .err ⟨true, false, "Incorrect API key provided".toList⟩

/-- A price series whose first point is less than 7 days before its last. -/
def c6ShortSeries : PriceSeries := [(0, 10), (5, 20)]

/-- A price series reaching back 8 days. -/
def c6LongSeries : PriceSeries := [(0, 10), (8, 20)]

/-! ## Helper lemmas -/

/-- A nonempty traversal of an always-raising reconstruction raises. -/
theorem mapM_error_of_ne_nil {X E R : Type} (f : X → Except E R) (e : E)
    (hf : ∀ x, f x = .error e) (l : List X) (h : l ≠ []) :
    l.mapM f = .error e := by
  cases l with
  | nil => exact absurd rfl h
  | cons a t =>
    rw [List.mapM_cons, hf a]
    rfl

/-- Unrolling of the three-attempt retry loop. -/
theorem callRetry_unfold {α : Type} (exec : Nat → CallOutcome α) :
    callResponsesWithWebSearch exec =
      match exec 1 with
      | .ok v => (.success v, [], 1)
      | .err e1 =>
        if isFatalApiError e1 then (.systemExit, [], 1)
        else
          match exec 2 with
          | .ok v => (.success v, [5], 2)
          | .err e2 =>
            if isFatalApiError e2 then (.systemExit, [5], 2)
            else
              match exec 3 with
              | .ok v => (.success v, [5, 10], 3)
              | .err e3 =>
                if isFatalApiError e3 then (.systemExit, [5, 10], 3)
                else (.raised e3, [5, 10], 3) := by
  show callRetryGo exec 1 3 = _
  cases h1 : exec 1 with
  | ok v => simp [callRetryGo, h1]
  | err e1 =>
    by_cases hf1 : isFatalApiError e1
    · simp [callRetryGo, h1, hf1]
    · cases h2 : exec 2 with
      | ok v => simp [callRetryGo, h1, h2, hf1, RETRY_BACKOFF_BASE]
      | err e2 =>
        by_cases hf2 : isFatalApiError e2
        · simp [callRetryGo, h1, h2, hf1, hf2, RETRY_BACKOFF_BASE]
        · cases h3 : exec 3 with
          | ok v => simp [callRetryGo, h1, h2, h3, hf1, hf2, RETRY_BACKOFF_BASE]
          | err e3 =>
            by_cases hf3 : isFatalApiError e3 <;>
              simp [callRetryGo, h1, h2, h3, hf1, hf2, hf3, RETRY_BACKOFF_BASE]

/-! ## C1 -/

/-- C1: the claimed disk-cache round trip does not hold — it is a code bug.
Writing any nonempty recent (resp. upcoming) IPO list to the cache and
reading it back with the same `window_days` does not reproduce the records:
the reconstruction calls `RecentIpo(...)` (runner.py:310-317) and
`UpcomingIpo(...)` (runner.py:344-352) omitting required dataclass
parameters, so Python raises `TypeError` on the first cached item. -/
theorem cache_round_trip_raises_typeError (recents : List RecentIpo)
    (upcomings : List UpcomingIpo) (now now' : List Char) (w : Int)
    (hr : recents ≠ []) (hu : upcomings ≠ []) :
    loadRecentCacheHit (some (writeRecentCache now w recents)) w =
      some (.error (.typeError missingRecentCtorArgs)) ∧
    loadUpcomingCacheHit (some (writeUpcomingCache now' w upcomings)) w =
      some (.error (.typeError missingUpcomingCtorArgs)) ∧
    missingRecentCtorArgs ≠ [] ∧ missingUpcomingCtorArgs ≠ [] := by
  refine ⟨?_, ?_, by decide, by decide⟩
  · have hmap : recents.map RecentIpo.toDict ≠ [] := by
      simpa using hr
    simp only [loadRecentCacheHit, writeRecentCache]
    rw [if_pos]
    · rw [mapM_error_of_ne_nil loadCachedRecentItem _ (fun _ => rfl) _ hmap]
    · simp [List.isEmpty_iff, hmap]
  · have hmap : upcomings.map UpcomingIpo.toDict ≠ [] := by
      simpa using hu
    simp only [loadUpcomingCacheHit, writeUpcomingCache]
    rw [if_pos]
    · rw [mapM_error_of_ne_nil loadCachedUpcomingItem _ (fun _ => rfl) _ hmap]
    · simp [List.isEmpty_iff, hmap]

/-- Witness: the round-trip failure evaluated on one concrete recent and
upcoming record. -/
theorem cache_round_trip_raises_typeError_witness :
    loadRecentCacheHit (some (writeRecentCache "2025-10-12T08:00:00".toList 30 [c1Recent])) 30 =
      some (.error (.typeError missingRecentCtorArgs)) ∧
    loadUpcomingCacheHit (some (writeUpcomingCache "2025-10-12T08:00:00".toList 30 [c1Upcoming])) 30 =
      some (.error (.typeError missingUpcomingCtorArgs)) ∧
    missingRecentCtorArgs ≠ [] ∧ missingUpcomingCtorArgs ≠ [] :=
  cache_round_trip_raises_typeError [c1Recent] [c1Upcoming] _ _ 30
    (by decide) (by decide)

/-- The omitted required constructor arguments, explicitly: seven fields of
`RecentIpo` and eight of `UpcomingIpo` are dropped by the cache load. -/
theorem missing_ctor_args_explicit :
    missingRecentCtorArgs =
      [ "ipo_type".toList, "date_kind".toList, "date_confidence".toList
      , "status".toList, "date_note".toList, "source_count".toList
      , "source_quality".toList ] ∧
    missingUpcomingCtorArgs =
      [ "date_confidence".toList, "date_note".toList, "stage".toList
      , "ipo_type".toList, "edgar_confirmed".toList, "edgar_note".toList
      , "source_count".toList, "source_quality".toList ] := by
  constructor <;> decide

/-! ## C9 -/

/-- C9: the retry wrapper invokes the executor at most `_MAX_RETRIES` = 3
times; when every attempt fails transiently it performs all three
invocations with exponential backoff sleeps of 5 then 10 seconds and
surfaces the last error; an authentication or billing/quota failure at any
attempt aborts immediately with `SystemExit` after exactly that many
invocations and no further attempts. -/
theorem retry_policy {α : Type} (exec : Nat → CallOutcome α) :
    (callResponsesWithWebSearch exec).2.2 ≤ MAX_RETRIES ∧
    ((∀ k, 1 ≤ k → k ≤ MAX_RETRIES →
        ∃ e, exec k = .err e ∧ isFatalApiError e = false) →
      ∃ e3, exec MAX_RETRIES = .err e3 ∧
        callResponsesWithWebSearch exec =
          (.raised e3, [RETRY_BACKOFF_BASE, RETRY_BACKOFF_BASE * 2], MAX_RETRIES)) ∧
    (∀ k e, 1 ≤ k → k ≤ MAX_RETRIES → exec k = .err e →
      isFatalApiError e = true →
      (∀ j, 1 ≤ j → j < k → ∃ e', exec j = .err e' ∧ isFatalApiError e' = false) →
      callResponsesWithWebSearch exec =
        (.systemExit, (List.range (k - 1)).map (fun i => RETRY_BACKOFF_BASE * 2 ^ i), k)) := by
  have hu := callRetry_unfold exec
  refine ⟨?_, ?_, ?_⟩
  · rw [hu]
    rcases h1 : exec 1 with v1 | e1
    · simp [MAX_RETRIES]
    by_cases hf1 : isFatalApiError e1
    · simp [hf1, MAX_RETRIES]
    rcases h2 : exec 2 with v2 | e2
    · simp [hf1, MAX_RETRIES]
    by_cases hf2 : isFatalApiError e2
    · simp [hf1, hf2, MAX_RETRIES]
    rcases h3 : exec 3 with v3 | e3
    · simp [hf1, hf2, MAX_RETRIES]
    by_cases hf3 : isFatalApiError e3 <;> simp [hf1, hf2, hf3, MAX_RETRIES]
  · intro h
    obtain ⟨e1, he1, hf1⟩ := h 1 (by norm_num) (by norm_num [MAX_RETRIES])
    obtain ⟨e2, he2, hf2⟩ := h 2 (by norm_num) (by norm_num [MAX_RETRIES])
    obtain ⟨e3, he3, hf3⟩ := h 3 (by norm_num [MAX_RETRIES]) (by norm_num [MAX_RETRIES])
    refine ⟨e3, he3, ?_⟩
    rw [hu, he1, he2, he3]
    simp [hf1, hf2, hf3, RETRY_BACKOFF_BASE, MAX_RETRIES]
  · intro k e hk1 hk3 hek hfk hprior
    have hk3' : k ≤ 3 := by simpa [MAX_RETRIES] using hk3
    interval_cases k
    · rw [hu, hek]
      simp [hfk]
    · obtain ⟨e1, he1, hf1⟩ := hprior 1 (by norm_num) (by norm_num)
      rw [hu, he1, hek]
      simp [hf1, hfk, RETRY_BACKOFF_BASE]
      decide
    · obtain ⟨e1, he1, hf1⟩ := hprior 1 (by norm_num) (by norm_num)
      obtain ⟨e2, he2, hf2⟩ := hprior 2 (by norm_num) (by norm_num)
      rw [hu, he1, he2, hek]
      simp [hf1, hf2, hfk, RETRY_BACKOFF_BASE]
      decide

/-- Witness: an always-transient executor is invoked exactly three times,
sleeping 5 then 10 seconds, and its final error is re-raised; an
authentication failure aborts on the first invocation with no sleeps. -/
theorem retry_policy_witness :
    callResponsesWithWebSearch c9ExecTransient =
      (.raised ⟨false, false, "Rate limit exceeded, try again".toList⟩, [5, 10], 3) ∧
    callResponsesWithWebSearch c9ExecAuth = (.systemExit, [], 1) := by
  constructor
  · obtain ⟨e3, he3, hr⟩ :=
      (retry_policy c9ExecTransient).2.1
        (fun k _ _ => ⟨_, rfl, by decide⟩)
    have he : e3 = ⟨false, false, "Rate limit exceeded, try again".toList⟩ := by
      have : CallOutcome.err (α := Nat) e3 =
          .err ⟨false, false, "Rate limit exceeded, try again".toList⟩ := he3.symm.trans rfl
      injection this
    rw [he] at hr
    simpa [RETRY_BACKOFF_BASE, MAX_RETRIES] using hr
  · have := (retry_policy c9ExecAuth).2.2 1 ⟨true, false, "Incorrect API key provided".toList⟩
      (by norm_num) (by norm_num [MAX_RETRIES]) rfl (by decide)
      (fun j hj1 hj2 => absurd (Nat.lt_of_lt_of_le hj2 hj1) (by omega))
    simpa using this

/-! ## C6 -/

/-- On a list whose head is below all later entries and whose tail is
sorted, the later-wins max-by-date fold picks the last element. -/
theorem foldPick_sorted (ps : List (Int × ℚ)) :
    ∀ p : Int × ℚ, (∀ q ∈ ps, p.1 ≤ q.1) →
      List.Pairwise (fun a b => a.1 ≤ b.1) ps →
      some (ps.foldl (fun best q => if best.1 ≤ q.1 then q else best) p) =
        (p :: ps).getLast? := by
  induction ps with
  | nil => intro p _ _; rfl
  | cons q ps' ih =>
    intro p hle hpw
    have hpq : p.1 ≤ q.1 := hle q (List.mem_cons_self q ps')
    rw [List.pairwise_cons] at hpw
    have := ih q hpw.1 hpw.2
    simp only [List.foldl_cons, if_pos hpq]
    rw [this, List.getLast?_cons_cons]

/-- C6: `_price_return` computes exactly the claimed trailing return — the
last series value at or before `last_date − N` (for an ascending series,
the value at the latest such date), absent when the series does not reach
back far enough or when the start value is zero, never dividing by zero;
in particular a series with no point at least 7 days before its last date
has an absent, not zero, one-week return. -/
theorem price_return_spec (series : PriceSeries) (days : Int)
    (hs : seriesSorted series) :
    priceReturn series days = specTrailingReturn series days ∧
    (∀ lp : Int × ℚ, series.getLast? = some lp →
      (∀ p ∈ series, lp.1 - 7 < p.1) → priceReturn series 7 = none) := by
  constructor
  · cases hl : series.getLast? with
    | none => simp [priceReturn, specTrailingReturn, hl]
    | some lp =>
      have hfsorted :
          List.Pairwise (fun a b : Int × ℚ => a.1 ≤ b.1)
            (series.filter (fun p => p.1 ≤ lp.1 - days)) :=
        List.Pairwise.filter _ hs
      cases hf : series.filter (fun p => p.1 ≤ lp.1 - days) with
      | nil =>
        simp [priceReturn, specTrailingReturn, specLastValueAtOrBefore, hl, hf]
      | cons p ps =>
        rw [hf, List.pairwise_cons] at hfsorted
        have hfold := foldPick_sorted ps p
          (fun q hq => hfsorted.1 q hq) hfsorted.2
        simp [priceReturn, specTrailingReturn, specLastValueAtOrBefore, hl, hf,
          ← hfold]
  · intro lp hl hfar
    have hf : series.filter (fun p => p.1 ≤ lp.1 - 7) = [] := by
      rw [List.filter_eq_nil_iff]
      intro p hp
      have := hfar p hp
      simp only [decide_eq_true_eq]
      omega
    simp [priceReturn, hl, hf]

/-- Witness: the too-short series has an absent one-week return; the
eight-day series agrees with the claimed formula. -/
theorem price_return_spec_witness :
    priceReturn c6ShortSeries 7 = none ∧
    priceReturn c6LongSeries 7 = specTrailingReturn c6LongSeries 7 := by
  constructor
  · exact (price_return_spec c6ShortSeries 7 (by decide)).2 (5, 20) (by decide)
      (by decide)
  · exact (price_return_spec c6LongSeries 7 (by decide)).1

/-! ## C5 -/

/-- The default-completed last element of a nonempty list is its last
element. -/
theorem getLastD_cons_eq_getLast {α : Type} (a : α) (l : List α) :
    (a :: l).getLastD a = (a :: l).getLast (List.cons_ne_nil a l) := by
  rw [List.getLastD_eq_getLast?,
    List.getLast?_eq_getLast_of_ne_nil (List.cons_ne_nil a l)]
  rfl

/-- The claim-side effective start coincides with the code's start
computation: `p > max(seriesStart, benchStart)` is `p` later than both. -/
theorem specEffectiveStart_eq (s0 b0 endD : Int) (request : ChartRequest) :
    specEffectiveStart s0 b0 endD request =
      max (endD - request.window_days)
        (match request.purchase_date with
         | some p => if p > max s0 b0 then p else max s0 b0
         | none => max s0 b0) := by
  unfold specEffectiveStart specEarliestUsableStart
  cases request.purchase_date with
  | none => rfl
  | some p =>
    by_cases h : s0 < p ∧ b0 < p
    · have hm : max s0 b0 < p := max_lt_iff.mpr h
      simp [h, hm]
    · have hm : ¬(max s0 b0 < p) := fun hc => h (max_lt_iff.mp hc)
      simp [h, hm]

/-- C5: for nonempty series, the chart window's effective start equals
`max(endDate − requestedDays, later of (series start, benchmark start,
purchase date if later than both))`; the computation fails with the
insufficient-data error exactly when the resulting slice of either series is
empty; and on the spec's instance (series 2023-01-01..2024-01-01, benchmark
2023-06-01..2024-01-01, 365 days) the effective start is 2023-06-01. -/
theorem chart_effective_start_and_failure (series bench : PriceSeries)
    (request : ChartRequest) (hs : series ≠ []) (hb : bench ≠ []) :
    (∀ out, generateComparisonChart series bench request = .ok out →
      out.endDate = (series.getLast hs).1 ∧
      out.startDate =
        specEffectiveStart (series.head hs).1 (bench.head hb).1
          (series.getLast hs).1 request) ∧
    (generateComparisonChart series bench request = .error .insufficientData ↔
      series.filter
          (fun p => specEffectiveStart (series.head hs).1 (bench.head hb).1
            (series.getLast hs).1 request ≤ p.1) = [] ∨
        bench.filter
          (fun p => specEffectiveStart (series.head hs).1 (bench.head hb).1
            (series.getLast hs).1 request ≤ p.1) = []) ∧
    (generateComparisonChart c5Series c5Bench ⟨365, none⟩).toOption.map
        (·.startDate) = some day20230601 := by
  refine ⟨?_, ?_, by decide⟩ <;>
  · cases series with
    | nil => exact absurd rfl hs
    | cons s0 srest =>
      cases bench with
      | nil => exact absurd rfl hb
      | cons b0 brest =>
        have hED : ((s0 :: srest).getLastD s0) = ((s0 :: srest).getLast hs) :=
          getLastD_cons_eq_getLast s0 srest
        have hSeq :
            specEffectiveStart ((s0 :: srest).head hs).1 ((b0 :: brest).head hb).1
                ((s0 :: srest).getLast hs).1 request =
              max ((((s0 :: srest).getLastD s0).1) - request.window_days)
                (match request.purchase_date with
                 | some p => if p > max s0.1 b0.1 then p else max s0.1 b0.1
                 | none => max s0.1 b0.1) := by
          rw [← hED]
          exact specEffectiveStart_eq s0.1 b0.1 _ request
        first
        | · intro out hout
            simp only [generateComparisonChart] at hout
            split at hout
            · exact absurd hout (by simp)
            · rw [Except.ok.injEq] at hout
              subst hout
              refine ⟨congrArg Prod.fst hED, ?_⟩
              rw [hSeq]
        | · simp only [generateComparisonChart]
            rw [hSeq]
            split
            · rename_i hcond
              simp only [Bool.or_eq_true, decide_eq_true_eq] at hcond
              exact iff_of_true rfl hcond
            · rename_i hcond
              refine iff_of_false (by simp) (fun h => hcond ?_)
              simpa using h

/-- Witness: the spec's window-selection instance, via the theorem. -/
theorem chart_effective_start_and_failure_witness :
    (generateComparisonChart c5Series c5Bench ⟨365, none⟩).toOption.map
        (·.startDate) = some day20230601 :=
  (chart_effective_start_and_failure c5Series c5Bench ⟨365, none⟩
    (by decide) (by decide)).2.2

/-! ## C4 -/

/-- A realized-days label never reads "since listing" (it ends in 'd'). -/
theorem daysLabel_ne_sinceListing (n : Int) :
    intToChars n ++ ['d'] ≠ "since listing".toList := by
  intro h
  have hlast := congrArg List.getLast? h
  rw [List.getLast?_concat] at hlast
  have : ("since listing".toList).getLast? = some 'g' := by decide
  rw [this] at hlast
  simp at hlast

/-- In an ascending series every date is at most the last date. -/
theorem mem_fst_le_getLast :
    ∀ (l : PriceSeries) (hl : l ≠ []), seriesSorted l →
      ∀ x ∈ l, x.1 ≤ (l.getLast hl).1 := by
  intro l
  induction l with
  | nil => intro hl; exact absurd rfl hl
  | cons a t ih =>
    intro hl hs x hx
    cases t with
    | nil =>
      have hxa : x = a := by simpa using hx
      subst hxa
      simp [List.getLast]
    | cons b t' =>
      rw [List.getLast_cons (List.cons_ne_nil b t')]
      rcases List.mem_cons.mp hx with rfl | hx'
      · exact (List.pairwise_cons.mp hs).1 _ (List.getLast_mem _)
      · exact ih (List.cons_ne_nil b t') (List.pairwise_cons.mp hs).2 x hx'

/-- C4 counterexample: with both series starting 2023-06-01 and ending
2024-01-01, a purchase date equal to that common start, and a 365-day
request, the purchase date did not force the truncation (it is not later
than the series starts), so the claimed label is the realized "214d" — but
the code labels the chart "since listing". -/
theorem chart_label_claim_counterexample :
    (generateComparisonChart c4Series c4Series c4Request).toOption.map
        (·.windowLabel) = some "since listing".toList ∧
    specWindowLabel day20230601 day20230601 day20240101 c4Request =
      "214d".toList ∧
    some "since listing".toList ≠ some "214d".toList := by
  refine ⟨by decide, by decide, by decide⟩

/-- C4 (amended): for a successfully charted ascending series, the label is
`"{requestedDays}d"` when the realized span reaches the request; when it is
shorter, the label is "since listing" exactly when a purchase date is given
and lies at or after the effective start (such a date always lies within
the realized window, but need not have strictly forced the truncation), and
`"{realized_days}d"` otherwise. -/
theorem chart_label_amended (series bench : PriceSeries)
    (request : ChartRequest) (hsorted : seriesSorted series) (out : ChartOut)
    (hok : generateComparisonChart series bench request = .ok out) :
    (out.windowLabel = "since listing".toList ↔
      out.endDate - out.startDate < request.window_days ∧
      ∃ p, request.purchase_date = some p ∧ out.startDate ≤ p ∧
        p ≤ out.endDate) ∧
    (out.endDate - out.startDate < request.window_days →
      (∀ p, request.purchase_date = some p → p < out.startDate) →
      out.windowLabel = intToChars (out.endDate - out.startDate) ++ ['d']) ∧
    (request.window_days ≤ out.endDate - out.startDate →
      out.windowLabel = intToChars request.window_days ++ ['d']) := by
  obtain ⟨wd, pd⟩ := request
  cases series with
  | nil => exact absurd hok (by simp [generateComparisonChart])
  | cons s0 srest =>
    cases bench with
    | nil => exact absurd hok (by simp [generateComparisonChart])
    | cons b0 brest =>
      simp only [generateComparisonChart] at hok
      split at hok
      · exact absurd hok (by simp)
      · rename_i hcond
        rw [Except.ok.injEq] at hok
        subst hok
        simp only [Bool.or_eq_true, decide_eq_true_eq, not_or] at hcond
        cases pd with
        | none =>
          refine ⟨⟨fun hlabel => ?_, fun hex => ?_⟩, fun hshort _ => ?_,
            fun hlong => ?_⟩
          · dsimp only at hlabel
            split at hlabel
            · exact absurd hlabel (daysLabel_ne_sinceListing _)
            · exact absurd hlabel (daysLabel_ne_sinceListing _)
          · obtain ⟨-, p, hp, -⟩ := hex
            exact absurd hp (by simp)
          · dsimp only at hshort ⊢
            rw [if_pos hshort]
          · dsimp only at hlong ⊢
            rw [if_neg (by omega)]
        | some p =>
          have hpS : p ≤ max ((((s0 :: srest).getLastD s0).1) - wd)
              (if p > max s0.1 b0.1 then p else max s0.1 b0.1) := by
            have hin : p ≤ (if p > max s0.1 b0.1 then p else max s0.1 b0.1) := by
              split
              · exact le_refl p
              · rename_i hnp
                omega
            exact le_trans hin (le_max_right _ _)
          have hSE : max ((((s0 :: srest).getLastD s0).1) - wd)
              (if p > max s0.1 b0.1 then p else max s0.1 b0.1) ≤
                (((s0 :: srest).getLastD s0).1) := by
            rcases List.exists_mem_of_ne_nil _ hcond.1 with ⟨x, hx⟩
            have hxmem := (List.mem_filter.mp hx).1
            have hxge := (List.mem_filter.mp hx).2
            simp only [decide_eq_true_eq] at hxge
            refine le_trans hxge ?_
            rw [getLastD_cons_eq_getLast]
            exact mem_fst_le_getLast _ (List.cons_ne_nil s0 srest) hsorted x hxmem
          by_cases hshort : ((((s0 :: srest).getLastD s0).1 -
              max ((((s0 :: srest).getLastD s0).1) - wd)
                (if p > max s0.1 b0.1 then p else max s0.1 b0.1)) < wd)
          · by_cases hple : (max ((((s0 :: srest).getLastD s0).1) - wd)
                (if p > max s0.1 b0.1 then p else max s0.1 b0.1) ≤ p)
            · refine ⟨⟨fun _ => ⟨hshort, p, rfl, hple, le_trans hpS hSE⟩,
                fun _ => ?_⟩, fun _ hnone => ?_, fun hlong => ?_⟩
              · dsimp only
                rw [if_pos hshort, if_pos hple]
              · have hplt := hnone p rfl
                dsimp only at hplt
                exact absurd hplt (by omega)
              · dsimp only at hlong
                exact absurd hlong (by omega)
            · refine ⟨⟨fun hlabel => ?_, fun hex => ?_⟩, fun _ _ => ?_,
                fun hlong => ?_⟩
              · dsimp only at hlabel
                rw [if_pos hshort, if_neg hple] at hlabel
                exact absurd hlabel (daysLabel_ne_sinceListing _)
              · obtain ⟨-, q, hq, hqle, -⟩ := hex
                have hqp : q = p := by
                  have := hq.symm
                  injection this
                subst hqp
                exact absurd hqle hple
              · dsimp only
                rw [if_pos hshort, if_neg hple]
              · dsimp only at hlong
                exact absurd hlong (by omega)
          · refine ⟨⟨fun hlabel => ?_, fun hex => ?_⟩, fun hshort' _ => ?_,
              fun _ => ?_⟩
            · dsimp only at hlabel
              rw [if_neg hshort] at hlabel
              exact absurd hlabel (daysLabel_ne_sinceListing _)
            · obtain ⟨hshort', -⟩ := hex
              exact absurd hshort' hshort
            · exact absurd hshort' hshort
            · dsimp only
              rw [if_neg hshort]


/-- Witness for the amended label policy: the counterexample input, where
the purchase date equals the effective start and the label is
"since listing". -/
theorem chart_label_amended_witness :
    generateComparisonChart c4Series c4Series c4Request = .ok c4Out ∧
    c4Out.windowLabel = "since listing".toList := by
  have hout : generateComparisonChart c4Series c4Series c4Request = .ok c4Out := by
    have h0 : generateComparisonChart c4Series c4Series c4Request =
        .ok ⟨day20230601, day20240101, "since listing".toList,
          [(day20230601, (10 : ℚ) / 10 * 100), (day20240101, (11 : ℚ) / 10 * 100)],
          [(day20230601, (10 : ℚ) / 10 * 100), (day20240101, (11 : ℚ) / 10 * 100)]⟩ := rfl
    rw [h0]
    simp only [c4Out, Except.ok.injEq, ChartOut.mk.injEq, Prod.mk.injEq]
    norm_num
  refine ⟨hout, ?_⟩
  exact ((chart_label_amended c4Series c4Series c4Request (by decide) c4Out
    hout).1).mpr ⟨by decide, day20230601, rfl, le_refl _, by decide⟩

/-! ## C2 -/

/-- C2 counterexample: two upcoming items for the same company (matched by
case-insensitive trimmed name), the first with two sources and no EDGAR
confirmation, the second with one source but EDGAR-confirmed.  The claim
makes the edgar tie-break apply only at equal source counts, so the
two-source record should survive; the code keeps the EDGAR-confirmed
one-source record. -/
theorem upcoming_dedup_claim_counterexample :
    parseUpcomingItems [c2ItemA, c2ItemB] c2Today = [mkUpcomingIpo c2ItemB] ∧
    (mkUpcomingIpo c2ItemB).source_count <
      (mkUpcomingIpo c2ItemA).source_count := by
  constructor <;> decide

/-- C2 (amended): when two kept upcoming items share a dedup key (normalized
ticker when present, else case-insensitive trimmed name), exactly one record
survives, and the later record replaces the earlier exactly when it has
strictly more sources OR it is EDGAR-confirmed and the earlier one is not —
the EDGAR preference applies regardless of the source counts, not only as a
tie-break. -/
theorem upcoming_dedup_amended (a b : RawItem) (today : PyDate)
    (ha : upcomingKeeps today a = true) (hb : upcomingKeeps today b = true)
    (hkey : upcomingRawKey a = upcomingRawKey b) :
    parseUpcomingItems [a, b] today =
      [if upcomingBeats (mkUpcomingIpo b) (mkUpcomingIpo a) then
        mkUpcomingIpo b
       else mkUpcomingIpo a] := by
  have hta : (mkUpcomingIpo a).ticker = normalizeTicker a.ticker := rfl
  have htb : (mkUpcomingIpo b).ticker = normalizeTicker b.ticker := rfl
  simp only [parseUpcomingItems, List.foldl]
  cases hna : normalizeTicker a.ticker with
  | some t =>
    have hnb : normalizeTicker b.ticker = some t := by
      unfold upcomingRawKey at hkey
      rw [hna] at hkey
      cases hnb' : normalizeTicker b.ticker with
      | some t' =>
        rw [hnb'] at hkey
        injection hkey with hkey'
        rw [hkey']
      | none =>
        rw [hnb'] at hkey
        exact absurd hkey (by simp)
    show (parseUpcomingStep today (parseUpcomingStep today ⟨[], [], []⟩ a) b).parsed = _
    rw [show parseUpcomingStep today ⟨[], [], []⟩ a =
        ⟨[mkUpcomingIpo a], [(t, 0)], []⟩ by
      unfold parseUpcomingStep
      rw [if_pos ha]
      dsimp only
      rw [hta, hna]
      rfl]
    unfold parseUpcomingStep
    rw [if_pos hb]
    dsimp only
    rw [htb, hnb]
    simp [List.lookup]
    split <;> rfl
  | none =>
    have hnb : normalizeTicker b.ticker = none := by
      unfold upcomingRawKey at hkey
      rw [hna] at hkey
      cases hnb' : normalizeTicker b.ticker with
      | some t' =>
        rw [hnb'] at hkey
        exact absurd hkey (by simp)
      | none => rfl
    have hnk : pyStrip (pyLower (mkUpcomingIpo b).name) =
        pyStrip (pyLower (mkUpcomingIpo a).name) := by
      unfold upcomingRawKey at hkey
      rw [hna, hnb] at hkey
      injection hkey with hkey'
      exact hkey'.symm
    show (parseUpcomingStep today (parseUpcomingStep today ⟨[], [], []⟩ a) b).parsed = _
    rw [show parseUpcomingStep today ⟨[], [], []⟩ a =
        ⟨[mkUpcomingIpo a], [],
          [(pyStrip (pyLower (mkUpcomingIpo a).name), 0)]⟩ by
      unfold parseUpcomingStep
      rw [if_pos ha]
      dsimp only
      rw [hta, hna]
      rfl]
    unfold parseUpcomingStep
    rw [if_pos hb]
    dsimp only
    rw [htb, hnb]
    dsimp only
    rw [hnk]
    simp [List.lookup]
    split <;> rfl

/-- Witness for the amended dedup rule at the counterexample items. -/
theorem upcoming_dedup_amended_witness :
    parseUpcomingItems [c2ItemA, c2ItemB] c2Today =
      [if upcomingBeats (mkUpcomingIpo c2ItemB) (mkUpcomingIpo c2ItemA) then
        mkUpcomingIpo c2ItemB
       else mkUpcomingIpo c2ItemA] :=
  upcoming_dedup_amended c2ItemA c2ItemB c2Today (by decide) (by decide)
    (by decide)

/-! ## Dedup machinery (C3, C10) -/

/-- A lookup misses exactly when the key is not among the stored keys. -/
theorem lookup_eq_none_iff (l : List (List Char × Nat)) (t : List Char) :
    List.lookup t l = none ↔ t ∉ l.map Prod.fst := by
  induction l with
  | nil => simp [List.lookup]
  | cons p l ih =>
    obtain ⟨k, v⟩ := p
    by_cases hk : t = k
    · subst hk
      simp [List.lookup]
    · have hbeq : (t == k) = false := beq_eq_false_iff_ne.mpr hk
      simp [List.lookup, hbeq, ih, hk]

/-- Writing back the element already at an index is the identity. -/
theorem set_getElem?_self {α : Type} :
    ∀ (l : List α) (i : Nat) (x : α), l[i]? = some x → l.set i x = l := by
  intro l
  induction l with
  | nil => intro i x h; simp at h
  | cons a t ih =>
    intro i x h
    cases i with
    | zero =>
      simp only [List.getElem?_cons_zero, Option.some.injEq] at h
      subst h
      rfl
    | succ n =>
      simp only [List.getElem?_cons_succ] at h
      show a :: t.set n x = a :: t
      rw [ih n x h]

/-- Indices past an appended singleton hold nothing. -/
theorem getElem?_append_singleton_gt {α : Type} (l : List α) (x : α) (i : Nat)
    (h : l.length < i) : (l ++ [x])[i]? = none := by
  rw [List.getElem?_append]
  have h1 : ¬(i < l.length) := by omega
  rw [if_neg h1]
  rcases hidx : i - l.length with _ | m
  · omega
  · simp

/-- The `seen_tickers`/output coherence of the recent parser is preserved by
the loop, and the output's ticker sequence extends by the first-appearance
dedup of the kept items' keys. -/
theorem recentFold_spec (cutoff : PyDate) :
    ∀ (items : List RawItem) (st : RecentParseState), RecInv st →
      RecInv (items.foldl (parseRecentStep cutoff) st) ∧
      (items.foldl (parseRecentStep cutoff) st).parsed.map (·.ticker) =
        st.parsed.map (·.ticker) ++
          specFirstKeys (st.seen.map Prod.fst)
            ((items.filter (recentKeeps cutoff)).map recentRawKey) := by
  intro items
  induction items with
  | nil =>
    intro st hst
    exact ⟨hst, by simp [specFirstKeys]⟩
  | cons item rest ih =>
    intro st hst
    rw [List.foldl_cons]
    by_cases hk : recentKeeps cutoff item
    case neg =>
      have hstep : parseRecentStep cutoff st item = st := by
        unfold parseRecentStep
        rw [if_neg hk]
      have hfilter : (item :: rest).filter (recentKeeps cutoff) =
          rest.filter (recentKeeps cutoff) := by
        simp [List.filter_cons, hk]
      rw [hstep, hfilter]
      exact ih st hst
    case pos =>
      have hfilter : (item :: rest).filter (recentKeeps cutoff) =
          item :: rest.filter (recentKeeps cutoff) := by
        simp [List.filter_cons, hk]
      rw [hfilter, List.map_cons]
      have hkey : (mkRecentIpo item).ticker = recentRawKey item := rfl
      obtain ⟨hfwd, hrev⟩ := hst
      cases hkr : recentRawKey item with
      | none =>
        have hstep : parseRecentStep cutoff st item =
            ⟨st.parsed ++ [mkRecentIpo item], st.seen⟩ := by
          unfold parseRecentStep
          rw [if_pos hk]
          dsimp only
          rw [hkey, hkr]
        rw [hstep]
        have hinv' : RecInv ⟨st.parsed ++ [mkRecentIpo item], st.seen⟩ := by
          constructor
          · intro t i hl
            obtain ⟨r, hr, hrt⟩ := hfwd t i hl
            have hi : i < st.parsed.length := (List.getElem?_eq_some_iff.mp hr).1
            refine ⟨r, ?_, hrt⟩
            rw [List.getElem?_append, if_pos hi]
            exact hr
          · intro i r t hr hrt
            rcases Nat.lt_trichotomy i st.parsed.length with hi | hi | hi
            · apply hrev i r t ?_ hrt
              rw [List.getElem?_append, if_pos hi] at hr
              exact hr
            · rw [hi, List.getElem?_concat_length, Option.some.injEq] at hr
              subst hr
              rw [hkey, hkr] at hrt
              exact absurd hrt (by simp)
            · rw [getElem?_append_singleton_gt _ _ _ hi] at hr
              exact absurd hr (by simp)
        refine ⟨(ih _ hinv').1, ?_⟩
        rw [(ih _ hinv').2]
        dsimp only
        rw [List.map_append, List.map_cons, List.map_nil, hkey, hkr]
        rw [specFirstKeys, List.append_assoc]
        rfl
      | some t =>
        cases hlu : List.lookup t st.seen with
        | none =>
          have hstep : parseRecentStep cutoff st item =
              ⟨st.parsed ++ [mkRecentIpo item],
                (t, st.parsed.length) :: st.seen⟩ := by
            unfold parseRecentStep
            rw [if_pos hk]
            dsimp only
            rw [hkey, hkr]
            simp only [hlu]
          rw [hstep]
          have hinv' : RecInv ⟨st.parsed ++ [mkRecentIpo item],
              (t, st.parsed.length) :: st.seen⟩ := by
            constructor
            · intro t' i hl
              by_cases ht' : t' = t
              · subst ht'
                have hself : (t' == t') = true := beq_self_eq_true t'
                simp only [List.lookup, hself, Option.some.injEq] at hl
                subst hl
                refine ⟨mkRecentIpo item, List.getElem?_concat_length _ _, ?_⟩
                rw [hkey, hkr]
              · have hbeq : (t' == t) = false := beq_eq_false_iff_ne.mpr ht'
                simp only [List.lookup, hbeq] at hl
                obtain ⟨r, hr, hrt⟩ := hfwd t' i hl
                have hi : i < st.parsed.length :=
                  (List.getElem?_eq_some_iff.mp hr).1
                refine ⟨r, ?_, hrt⟩
                rw [List.getElem?_append, if_pos hi]
                exact hr
            · intro i r t' hr hrt
              rcases Nat.lt_trichotomy i st.parsed.length with hi | hi | hi
              · rw [List.getElem?_append, if_pos hi] at hr
                have hold := hrev i r t' hr hrt
                have ht' : t' ≠ t := by
                  intro heq
                  subst heq
                  rw [hlu] at hold
                  exact absurd hold (by simp)
                have hbeq : (t' == t) = false := beq_eq_false_iff_ne.mpr ht'
                simp only [List.lookup, hbeq]
                exact hold
              · rw [hi, List.getElem?_concat_length, Option.some.injEq] at hr
                subst hr
                rw [hkey, hkr, Option.some.injEq] at hrt
                subst hrt
                have hself : (t == t) = true := beq_self_eq_true t
                simp only [List.lookup, hself]
                rw [hi]
              · rw [getElem?_append_singleton_gt _ _ _ hi] at hr
                exact absurd hr (by simp)
          refine ⟨(ih _ hinv').1, ?_⟩
          rw [(ih _ hinv').2]
          dsimp only
          have hmem : t ∉ st.seen.map Prod.fst :=
            (lookup_eq_none_iff st.seen t).mp hlu
          rw [List.map_append, List.map_cons, List.map_nil, hkey, hkr]
          rw [specFirstKeys, if_neg hmem, List.append_assoc]
          rfl
        | some idx =>
          obtain ⟨existing, hex, hext⟩ := hfwd t idx hlu
          have hmem : t ∈ st.seen.map Prod.fst := by
            by_contra hmem
            rw [← lookup_eq_none_iff] at hmem
            rw [hmem] at hlu
            exact absurd hlu (by simp)
          have hkeyskip :
              specFirstKeys (st.seen.map Prod.fst)
                  (some t ::
                    (rest.filter (recentKeeps cutoff)).map recentRawKey) =
                specFirstKeys (st.seen.map Prod.fst)
                  ((rest.filter (recentKeeps cutoff)).map recentRawKey) := by
            rw [specFirstKeys, if_pos hmem]
          by_cases hbeats : recentBeats (mkRecentIpo item) existing
          · have hstep : parseRecentStep cutoff st item =
                ⟨st.parsed.set idx (mkRecentIpo item), st.seen⟩ := by
              unfold parseRecentStep
              rw [if_pos hk]
              dsimp only
              rw [hkey, hkr]
              simp only [hlu, List.get?_eq_getElem?, hex, if_pos hbeats]
            rw [hstep]
            have hinv' : RecInv ⟨st.parsed.set idx (mkRecentIpo item), st.seen⟩ := by
              constructor
              · intro t' i hl
                obtain ⟨r, hr, hrt⟩ := hfwd t' i hl
                by_cases hi : i = idx
                · subst hi
                  rw [hex, Option.some.injEq] at hr
                  subst hr
                  have ht' : t' = t := by
                    rw [hext, Option.some.injEq] at hrt
                    exact hrt.symm
                  subst ht'
                  refine ⟨mkRecentIpo item, ?_, by rw [hkey, hkr]⟩
                  rw [List.getElem?_set_self]
                  exact (List.getElem?_eq_some_iff.mp hex).1
                · refine ⟨r, ?_, hrt⟩
                  rw [List.getElem?_set_ne (fun h => hi h.symm)]
                  exact hr
              · intro i r t' hr hrt
                by_cases hi : i = idx
                · subst hi
                  rw [List.getElem?_set_self
                      ((List.getElem?_eq_some_iff.mp hex).1),
                    Option.some.injEq] at hr
                  subst hr
                  rw [hkey, hkr, Option.some.injEq] at hrt
                  subst hrt
                  exact hlu
                · rw [List.getElem?_set_ne (fun h => hi h.symm)] at hr
                  exact hrev i r t' hr hrt
            refine ⟨(ih _ hinv').1, ?_⟩
            rw [(ih _ hinv').2]
            have hmapset : (st.parsed.set idx (mkRecentIpo item)).map (·.ticker) =
                st.parsed.map (·.ticker) := by
              rw [List.map_set]
              apply set_getElem?_self
              rw [List.getElem?_map, hex]
              show some existing.ticker = some (mkRecentIpo item).ticker
              rw [hext, hkey, hkr]
            rw [hkeyskip]
            exact congrArg
              (fun z => z ++ specFirstKeys (st.seen.map Prod.fst)
                ((rest.filter (recentKeeps cutoff)).map recentRawKey)) hmapset
          · have hstep : parseRecentStep cutoff st item = st := by
              unfold parseRecentStep
              rw [if_pos hk]
              dsimp only
              rw [hkey, hkr]
              simp only [hlu, List.get?_eq_getElem?, hex, if_neg hbeats]
            rw [hstep]
            refine ⟨(ih _ ⟨hfwd, hrev⟩).1, ?_⟩
            rw [(ih _ ⟨hfwd, hrev⟩).2]
            rw [hkeyskip]

/-- At most one element satisfies a predicate whose witnesses all sit at one
index. -/
theorem countP_le_one_of_unique {α : Type} :
    ∀ (l : List α) (p : α → Bool),
      (∀ (i j : Nat) (a b : α), l[i]? = some a → l[j]? = some b →
        p a = true → p b = true → i = j) →
      l.countP p ≤ 1 := by
  intro l
  induction l with
  | nil => intro p _; simp
  | cons x xs ih =>
    intro p h
    rw [List.countP_cons]
    by_cases hx : p x = true
    · have hz : xs.countP p = 0 := by
        by_contra hnz
        have hex : ∃ y ∈ xs, p y = true := by
          by_contra hno
          push_neg at hno
          have : xs.countP p = 0 :=
            List.countP_eq_zero.mpr (by
              intro a ha
              exact fun hpa => hno a ha hpa)
          exact hnz this
        obtain ⟨y, hy, hpy⟩ := hex
        obtain ⟨k, hk⟩ := List.mem_iff_getElem?.mp hy
        have h0 := h 0 (k + 1) x y (by simp) (by simpa using hk) hx hpy
        omega
      rw [hz, hx]
      simp
    · have hx' : p x = false := by
        cases hpx : p x with
        | true => exact absurd hpx hx
        | false => rfl
      rw [hx']
      have hplus : (if false = true then 1 else 0) = 0 := rfl
      rw [hplus, Nat.add_zero]
      refine ih p ?_
      intro i j a b hi hj hpa hpb
      have := h (i + 1) (j + 1) a b (by simpa using hi) (by simpa using hj)
        hpa hpb
      omega

/-- The trivial starting invariant of the recent parser. -/
theorem recInv_empty : RecInv ⟨[], []⟩ :=
  ⟨fun t i h => by simp [List.lookup] at h, fun i r t h => by simp at h⟩

/-! ## C3 -/

/-- C3: the output of the recent normalizer has at most one record per
normalized ticker; and for two kept items sharing a normalized ticker the
survivor is the one with more sources, with ties broken by the higher
date-confidence rank (high 3, medium 2, low 1, anything else 0), the
earlier record surviving otherwise. -/
theorem recent_dedup_spec :
    (∀ (items : List RawItem) (cutoff : PyDate) (t : List Char),
      (parseRecentItems items cutoff).countP
        (fun r => decide (r.ticker = some t)) ≤ 1) ∧
    (∀ (a b : RawItem) (cutoff : PyDate) (t : List Char),
      recentKeeps cutoff a = true → recentKeeps cutoff b = true →
      recentRawKey a = some t → recentRawKey b = some t →
      parseRecentItems [a, b] cutoff =
        [if recentBeats (mkRecentIpo b) (mkRecentIpo a) then mkRecentIpo b
         else mkRecentIpo a]) := by
  constructor
  · intro items cutoff t
    obtain ⟨⟨hfwd, hrev⟩, -⟩ := recentFold_spec cutoff items ⟨[], []⟩ recInv_empty
    apply countP_le_one_of_unique
    intro i j a b hi hj hpa hpb
    have hat : a.ticker = some t := of_decide_eq_true hpa
    have hbt : b.ticker = some t := of_decide_eq_true hpb
    have h1 := hrev i a t hi hat
    have h2 := hrev j b t hj hbt
    rw [h1, Option.some.injEq] at h2
    exact h2
  · intro a b cutoff t ha hb hta htb
    have hka : (mkRecentIpo a).ticker = recentRawKey a := rfl
    have hkb : (mkRecentIpo b).ticker = recentRawKey b := rfl
    simp only [parseRecentItems, List.foldl]
    show (parseRecentStep cutoff (parseRecentStep cutoff ⟨[], []⟩ a) b).parsed = _
    rw [show parseRecentStep cutoff ⟨[], []⟩ a =
        ⟨[mkRecentIpo a], [(t, 0)]⟩ by
      unfold parseRecentStep
      rw [if_pos ha]
      dsimp only
      rw [hka, hta]
      rfl]
    unfold parseRecentStep
    rw [if_pos hb]
    dsimp only
    rw [hkb, htb]
    simp [List.lookup]
    split <;> rfl

/-- Witness: the pair rule and the uniqueness bound evaluated on two
concrete items sharing the ticker ACME (equal source counts, so the higher
date confidence wins). -/
theorem recent_dedup_spec_witness :
    (parseRecentItems [c3ItemA, c3ItemB] c3Cutoff).countP
        (fun r => decide (r.ticker = some "ACME".toList)) ≤ 1 ∧
    parseRecentItems [c3ItemA, c3ItemB] c3Cutoff =
      [if recentBeats (mkRecentIpo c3ItemB) (mkRecentIpo c3ItemA) then
        mkRecentIpo c3ItemB
       else mkRecentIpo c3ItemA] :=
  ⟨recent_dedup_spec.1 [c3ItemA, c3ItemB] c3Cutoff "ACME".toList,
   recent_dedup_spec.2 c3ItemA c3ItemB c3Cutoff "ACME".toList
     (by decide) (by decide) (by decide) (by decide)⟩

/-! ## C10 machinery: the upcoming parser -/

/-- Ticker keys sit in the seen-key list exactly when stored in
`seen_tickers`. -/
theorem inl_mem_seenKeys (st : UpcomingParseState) (t : List Char) :
    (Sum.inl t ∈ upcomingSeenKeys st) ↔ t ∈ st.seenTickers.map Prod.fst := by
  simp [upcomingSeenKeys]

/-- Name keys sit in the seen-key list exactly when stored in
`seen_names`. -/
theorem inr_mem_seenKeys (st : UpcomingParseState) (nk : List Char) :
    (Sum.inr nk ∈ upcomingSeenKeys st) ↔ nk ∈ st.seenNames.map Prod.fst := by
  simp [upcomingSeenKeys]

/-- The first-appearance key sequence only depends on seen-set
membership. -/
theorem specFirstKeys_congr {K : Type} [DecidableEq K] :
    ∀ (ks : List (Option K)) (s1 s2 : List K),
      (∀ x, x ∈ s1 ↔ x ∈ s2) → specFirstKeys s1 ks = specFirstKeys s2 ks := by
  intro ks
  induction ks with
  | nil => intro s1 s2 _; rfl
  | cons k rest ih =>
    intro s1 s2 hmem
    cases k with
    | none =>
      rw [specFirstKeys, specFirstKeys, ih s1 s2 hmem]
    | some t =>
      by_cases ht : t ∈ s1
      · rw [specFirstKeys, if_pos ht, specFirstKeys, if_pos ((hmem t).mp ht)]
        exact ih s1 s2 hmem
      · rw [specFirstKeys, if_neg ht, specFirstKeys,
          if_neg (fun hc => ht ((hmem t).mpr hc))]
        rw [ih (t :: s1) (t :: s2) (by intro x; simp [hmem x])]

/-- The trivial starting invariant of the upcoming parser. -/
theorem upInv_empty : UpInv ⟨[], [], []⟩ :=
  ⟨fun t i h => by simp [List.lookup] at h,
   fun i r t h => by simp at h,
   fun nk i h => by simp [List.lookup] at h,
   fun i r h => by simp at h⟩

/-- The two-map/output coherence of the upcoming parser is preserved by the
loop, and the output's dedup-key sequence extends by the first-appearance
dedup of the kept items' keys. -/
theorem upcomingFold_spec (today : PyDate) :
    ∀ (items : List RawItem) (st : UpcomingParseState), UpInv st →
      UpInv (items.foldl (parseUpcomingStep today) st) ∧
      (items.foldl (parseUpcomingStep today) st).parsed.map
          (fun r => some (upcomingRecordKey r)) =
        st.parsed.map (fun r => some (upcomingRecordKey r)) ++
          specFirstKeys (upcomingSeenKeys st)
            ((items.filter (upcomingKeeps today)).map
              (fun i => some (upcomingRawKey i))) := by
  intro items
  induction items with
  | nil =>
    intro st hst
    exact ⟨hst, by simp [specFirstKeys]⟩
  | cons item rest ih =>
    intro st hst
    rw [List.foldl_cons]
    by_cases hk : upcomingKeeps today item
    case neg =>
      have hstep : parseUpcomingStep today st item = st := by
        unfold parseUpcomingStep
        rw [if_neg hk]
      have hfilter : (item :: rest).filter (upcomingKeeps today) =
          rest.filter (upcomingKeeps today) := by
        simp [List.filter_cons, hk]
      rw [hstep, hfilter]
      exact ih st hst
    case pos =>
      have hfilter : (item :: rest).filter (upcomingKeeps today) =
          item :: rest.filter (upcomingKeeps today) := by
        simp [List.filter_cons, hk]
      rw [hfilter, List.map_cons]
      have hkt : (mkUpcomingIpo item).ticker = normalizeTicker item.ticker := rfl
      have hkeyrec :
          upcomingRecordKey (mkUpcomingIpo item) = upcomingRawKey item := rfl
      obtain ⟨hf1, hf2, hf3, hf4⟩ := hst
      cases hnt : normalizeTicker item.ticker with
      | some t =>
        have hrawkey : upcomingRawKey item = Sum.inl t := by
          unfold upcomingRawKey
          rw [hnt]
        cases hlu : List.lookup t st.seenTickers with
        | none =>
          have hstep : parseUpcomingStep today st item =
              ⟨st.parsed ++ [mkUpcomingIpo item],
                (t, st.parsed.length) :: st.seenTickers, st.seenNames⟩ := by
            unfold parseUpcomingStep
            rw [if_pos hk]
            dsimp only
            rw [hkt, hnt]
            simp only [hlu]
          rw [hstep]
          have hinv' : UpInv ⟨st.parsed ++ [mkUpcomingIpo item],
              (t, st.parsed.length) :: st.seenTickers, st.seenNames⟩ := by
            refine ⟨?_, ?_, ?_, ?_⟩
            · intro t' i hl
              by_cases ht' : t' = t
              · subst ht'
                have hself : (t' == t') = true := beq_self_eq_true t'
                simp only [List.lookup, hself, Option.some.injEq] at hl
                subst hl
                refine ⟨mkUpcomingIpo item, List.getElem?_concat_length _ _, ?_⟩
                rw [hkt, hnt]
              · have hbeq : (t' == t) = false := beq_eq_false_iff_ne.mpr ht'
                simp only [List.lookup, hbeq] at hl
                obtain ⟨r, hr, hrt⟩ := hf1 t' i hl
                have hi : i < st.parsed.length :=
                  (List.getElem?_eq_some_iff.mp hr).1
                refine ⟨r, ?_, hrt⟩
                rw [List.getElem?_append, if_pos hi]
                exact hr
            · intro i r t' hr hrt
              rcases Nat.lt_trichotomy i st.parsed.length with hi | hi | hi
              · rw [List.getElem?_append, if_pos hi] at hr
                have hold := hf2 i r t' hr hrt
                have ht' : t' ≠ t := by
                  intro heq
                  subst heq
                  rw [hlu] at hold
                  exact absurd hold (by simp)
                have hbeq : (t' == t) = false := beq_eq_false_iff_ne.mpr ht'
                simp only [List.lookup, hbeq]
                exact hold
              · rw [hi, List.getElem?_concat_length, Option.some.injEq] at hr
                subst hr
                rw [hkt, hnt, Option.some.injEq] at hrt
                subst hrt
                have hself : (t == t) = true := beq_self_eq_true t
                simp only [List.lookup, hself]
                rw [hi]
              · rw [getElem?_append_singleton_gt _ _ _ hi] at hr
                exact absurd hr (by simp)
            · intro nk i hl
              obtain ⟨r, hr, hrt, hrn⟩ := hf3 nk i hl
              have hi : i < st.parsed.length :=
                (List.getElem?_eq_some_iff.mp hr).1
              refine ⟨r, ?_, hrt, hrn⟩
              rw [List.getElem?_append, if_pos hi]
              exact hr
            · intro i r hr hrt
              rcases Nat.lt_trichotomy i st.parsed.length with hi | hi | hi
              · rw [List.getElem?_append, if_pos hi] at hr
                exact hf4 i r hr hrt
              · rw [hi, List.getElem?_concat_length, Option.some.injEq] at hr
                subst hr
                rw [hkt, hnt] at hrt
                exact absurd hrt (by simp)
              · rw [getElem?_append_singleton_gt _ _ _ hi] at hr
                exact absurd hr (by simp)
          refine ⟨(ih _ hinv').1, ?_⟩
          rw [(ih _ hinv').2]
          dsimp only
          have hmem : Sum.inl t ∉ upcomingSeenKeys st := by
            rw [inl_mem_seenKeys]
            exact (lookup_eq_none_iff st.seenTickers t).mp hlu
          rw [List.map_append, List.map_cons, List.map_nil, hkeyrec, hrawkey]
          rw [specFirstKeys, if_neg hmem, List.append_assoc]
          have hseen' : upcomingSeenKeys ⟨st.parsed ++ [mkUpcomingIpo item],
              (t, st.parsed.length) :: st.seenTickers, st.seenNames⟩ =
            Sum.inl t :: upcomingSeenKeys st := rfl
          rw [hseen']
          rfl
        | some idx =>
          obtain ⟨existing, hex, hext⟩ := hf1 t idx hlu
          have hmem : Sum.inl t ∈ upcomingSeenKeys st := by
            rw [inl_mem_seenKeys]
            by_contra hmem
            rw [← lookup_eq_none_iff] at hmem
            rw [hmem] at hlu
            exact absurd hlu (by simp)
          have hkeyskip :
              specFirstKeys (upcomingSeenKeys st)
                  (some (Sum.inl t) ::
                    (rest.filter (upcomingKeeps today)).map
                      (fun i => some (upcomingRawKey i))) =
                specFirstKeys (upcomingSeenKeys st)
                  ((rest.filter (upcomingKeeps today)).map
                    (fun i => some (upcomingRawKey i))) := by
            rw [specFirstKeys, if_pos hmem]
          by_cases hbeats : upcomingBeats (mkUpcomingIpo item) existing
          · have hstep : parseUpcomingStep today st item =
                ⟨st.parsed.set idx (mkUpcomingIpo item),
                  st.seenTickers, st.seenNames⟩ := by
              unfold parseUpcomingStep
              rw [if_pos hk]
              dsimp only
              rw [hkt, hnt]
              simp only [hlu, List.get?_eq_getElem?, hex, if_pos hbeats]
            rw [hstep]
            have hidxlt : idx < st.parsed.length :=
              (List.getElem?_eq_some_iff.mp hex).1
            have hinv' : UpInv ⟨st.parsed.set idx (mkUpcomingIpo item),
                st.seenTickers, st.seenNames⟩ := by
              refine ⟨?_, ?_, ?_, ?_⟩
              · intro t' i hl
                obtain ⟨r, hr, hrt⟩ := hf1 t' i hl
                by_cases hi : i = idx
                · subst hi
                  rw [hex, Option.some.injEq] at hr
                  subst hr
                  have ht' : t' = t := by
                    rw [hext, Option.some.injEq] at hrt
                    exact hrt.symm
                  subst ht'
                  refine ⟨mkUpcomingIpo item, ?_, by rw [hkt, hnt]⟩
                  rw [List.getElem?_set_self hidxlt]
                · refine ⟨r, ?_, hrt⟩
                  rw [List.getElem?_set_ne (fun h => hi h.symm)]
                  exact hr
              · intro i r t' hr hrt
                by_cases hi : i = idx
                · subst hi
                  rw [List.getElem?_set_self hidxlt, Option.some.injEq] at hr
                  subst hr
                  rw [hkt, hnt, Option.some.injEq] at hrt
                  subst hrt
                  exact hlu
                · rw [List.getElem?_set_ne (fun h => hi h.symm)] at hr
                  exact hf2 i r t' hr hrt
              · intro nk i hl
                obtain ⟨r, hr, hrt, hrn⟩ := hf3 nk i hl
                have hi : i ≠ idx := by
                  intro heq
                  subst heq
                  rw [hex, Option.some.injEq] at hr
                  subst hr
                  rw [hext] at hrt
                  exact absurd hrt (by simp)
                refine ⟨r, ?_, hrt, hrn⟩
                rw [List.getElem?_set_ne (fun h => hi h.symm)]
                exact hr
              · intro i r hr hrt
                by_cases hi : i = idx
                · subst hi
                  rw [List.getElem?_set_self hidxlt, Option.some.injEq] at hr
                  subst hr
                  rw [hkt, hnt] at hrt
                  exact absurd hrt (by simp)
                · rw [List.getElem?_set_ne (fun h => hi h.symm)] at hr
                  exact hf4 i r hr hrt
            refine ⟨(ih _ hinv').1, ?_⟩
            rw [(ih _ hinv').2]
            have hmapset : (st.parsed.set idx (mkUpcomingIpo item)).map
                (fun r => some (upcomingRecordKey r)) =
                st.parsed.map (fun r => some (upcomingRecordKey r)) := by
              rw [List.map_set]
              apply set_getElem?_self
              rw [List.getElem?_map, hex]
              show some (some (upcomingRecordKey existing)) =
                some (some (upcomingRecordKey (mkUpcomingIpo item)))
              rw [hkeyrec, hrawkey]
              unfold upcomingRecordKey
              rw [hext]
            have hgoal : List.map (fun r => some (upcomingRecordKey r))
                  (st.parsed.set idx (mkUpcomingIpo item)) ++
                specFirstKeys (upcomingSeenKeys st)
                  ((rest.filter (upcomingKeeps today)).map
                    (fun i => some (upcomingRawKey i))) =
                List.map (fun r => some (upcomingRecordKey r)) st.parsed ++
                specFirstKeys (upcomingSeenKeys st)
                  (some (upcomingRawKey item) ::
                    (rest.filter (upcomingKeeps today)).map
                      (fun i => some (upcomingRawKey i))) := by
              rw [hmapset, hrawkey, hkeyskip]
            exact hgoal
          · have hstep : parseUpcomingStep today st item = st := by
              unfold parseUpcomingStep
              rw [if_pos hk]
              dsimp only
              rw [hkt, hnt]
              simp only [hlu, List.get?_eq_getElem?, hex, if_neg hbeats]
            rw [hstep]
            refine ⟨(ih _ ⟨hf1, hf2, hf3, hf4⟩).1, ?_⟩
            rw [(ih _ ⟨hf1, hf2, hf3, hf4⟩).2]
            rw [hrawkey, hkeyskip]
      | none =>
        have hnamekey : pyStrip (pyLower (mkUpcomingIpo item).name) =
            pyStrip (pyLower ((sanitizeName item.name).getD [])) := rfl
        have hrawkey : upcomingRawKey item =
            Sum.inr (pyStrip (pyLower ((sanitizeName item.name).getD []))) := by
          unfold upcomingRawKey
          rw [hnt]
        cases hlu : List.lookup
            (pyStrip (pyLower ((sanitizeName item.name).getD [])))
            st.seenNames with
        | none =>
          have hstep : parseUpcomingStep today st item =
              ⟨st.parsed ++ [mkUpcomingIpo item], st.seenTickers,
                (pyStrip (pyLower ((sanitizeName item.name).getD [])),
                  st.parsed.length) :: st.seenNames⟩ := by
            unfold parseUpcomingStep
            rw [if_pos hk]
            dsimp only
            rw [hkt, hnt]
            dsimp only
            rw [hnamekey]
            simp only [hlu]
          rw [hstep]
          have hinv' : UpInv ⟨st.parsed ++ [mkUpcomingIpo item],
              st.seenTickers,
              (pyStrip (pyLower ((sanitizeName item.name).getD [])),
                st.parsed.length) :: st.seenNames⟩ := by
            refine ⟨?_, ?_, ?_, ?_⟩
            · intro t' i hl
              obtain ⟨r, hr, hrt⟩ := hf1 t' i hl
              have hi : i < st.parsed.length :=
                (List.getElem?_eq_some_iff.mp hr).1
              refine ⟨r, ?_, hrt⟩
              rw [List.getElem?_append, if_pos hi]
              exact hr
            · intro i r t' hr hrt
              rcases Nat.lt_trichotomy i st.parsed.length with hi | hi | hi
              · rw [List.getElem?_append, if_pos hi] at hr
                exact hf2 i r t' hr hrt
              · rw [hi, List.getElem?_concat_length, Option.some.injEq] at hr
                subst hr
                rw [hkt, hnt] at hrt
                exact absurd hrt (by simp)
              · rw [getElem?_append_singleton_gt _ _ _ hi] at hr
                exact absurd hr (by simp)
            · intro nk i hl
              by_cases hnk : nk = pyStrip (pyLower ((sanitizeName item.name).getD []))
              · subst hnk
                have hself : ((pyStrip (pyLower ((sanitizeName item.name).getD []))) ==
                    (pyStrip (pyLower ((sanitizeName item.name).getD [])))) = true :=
                  beq_self_eq_true _
                simp only [List.lookup, hself, Option.some.injEq] at hl
                subst hl
                refine ⟨mkUpcomingIpo item, List.getElem?_concat_length _ _,
                  by rw [hkt, hnt], hnamekey⟩
              · have hbeq : (nk == pyStrip (pyLower ((sanitizeName item.name).getD []))) = false :=
                  beq_eq_false_iff_ne.mpr hnk
                simp only [List.lookup, hbeq] at hl
                obtain ⟨r, hr, hrt, hrn⟩ := hf3 nk i hl
                have hi : i < st.parsed.length :=
                  (List.getElem?_eq_some_iff.mp hr).1
                refine ⟨r, ?_, hrt, hrn⟩
                rw [List.getElem?_append, if_pos hi]
                exact hr
            · intro i r hr hrt
              rcases Nat.lt_trichotomy i st.parsed.length with hi | hi | hi
              · rw [List.getElem?_append, if_pos hi] at hr
                have hold := hf4 i r hr hrt
                have hne : pyStrip (pyLower r.name) ≠
                    pyStrip (pyLower ((sanitizeName item.name).getD [])) := by
                  intro heq
                  rw [heq] at hold
                  rw [hlu] at hold
                  exact absurd hold (by simp)
                have hbeq : (pyStrip (pyLower r.name) ==
                    pyStrip (pyLower ((sanitizeName item.name).getD []))) = false :=
                  beq_eq_false_iff_ne.mpr hne
                simp only [List.lookup, hbeq]
                exact hold
              · rw [hi, List.getElem?_concat_length, Option.some.injEq] at hr
                subst hr
                rw [hnamekey]
                have hself : ((pyStrip (pyLower ((sanitizeName item.name).getD []))) ==
                    (pyStrip (pyLower ((sanitizeName item.name).getD [])))) = true :=
                  beq_self_eq_true _
                simp only [List.lookup, hself]
                rw [hi]
              · rw [getElem?_append_singleton_gt _ _ _ hi] at hr
                exact absurd hr (by simp)
          refine ⟨(ih _ hinv').1, ?_⟩
          rw [(ih _ hinv').2]
          dsimp only
          have hmem : Sum.inr (pyStrip (pyLower ((sanitizeName item.name).getD []))) ∉
              upcomingSeenKeys st := by
            rw [inr_mem_seenKeys]
            exact (lookup_eq_none_iff st.seenNames _).mp hlu
          rw [List.map_append, List.map_cons, List.map_nil, hkeyrec, hrawkey]
          rw [specFirstKeys, if_neg hmem, List.append_assoc]
          have hcongr := specFirstKeys_congr
            ((rest.filter (upcomingKeeps today)).map
              (fun i => some (upcomingRawKey i)))
            (upcomingSeenKeys ⟨st.parsed ++ [mkUpcomingIpo item],
              st.seenTickers,
              (pyStrip (pyLower ((sanitizeName item.name).getD [])),
                st.parsed.length) :: st.seenNames⟩)
            (Sum.inr (pyStrip (pyLower ((sanitizeName item.name).getD []))) ::
              upcomingSeenKeys st)
            (by
              intro x
              simp [upcomingSeenKeys]
              constructor
              · rintro (h | h | h)
                · exact Or.inr (Or.inl h)
                · exact Or.inl h
                · exact Or.inr (Or.inr h)
              · rintro (h | h | h)
                · exact Or.inr (Or.inl h)
                · exact Or.inl h
                · exact Or.inr (Or.inr h))
          rw [hcongr]
          rfl
        | some idx =>
          obtain ⟨existing, hex, hext, hexn⟩ := hf3 _ idx hlu
          have hmem : Sum.inr (pyStrip (pyLower ((sanitizeName item.name).getD []))) ∈
              upcomingSeenKeys st := by
            rw [inr_mem_seenKeys]
            by_contra hmem
            rw [← lookup_eq_none_iff] at hmem
            rw [hmem] at hlu
            exact absurd hlu (by simp)
          have hkeyskip :
              specFirstKeys (upcomingSeenKeys st)
                  (some (Sum.inr (pyStrip (pyLower ((sanitizeName item.name).getD [])))) ::
                    (rest.filter (upcomingKeeps today)).map
                      (fun i => some (upcomingRawKey i))) =
                specFirstKeys (upcomingSeenKeys st)
                  ((rest.filter (upcomingKeeps today)).map
                    (fun i => some (upcomingRawKey i))) := by
            rw [specFirstKeys, if_pos hmem]
          have hidxlt : idx < st.parsed.length :=
            (List.getElem?_eq_some_iff.mp hex).1
          by_cases hbeats : upcomingBeats (mkUpcomingIpo item) existing
          · have hstep : parseUpcomingStep today st item =
                ⟨st.parsed.set idx (mkUpcomingIpo item),
                  st.seenTickers, st.seenNames⟩ := by
              unfold parseUpcomingStep
              rw [if_pos hk]
              dsimp only
              rw [hkt, hnt]
              dsimp only
              rw [hnamekey]
              simp only [hlu, List.get?_eq_getElem?, hex, if_pos hbeats]
            rw [hstep]
            have hinv' : UpInv ⟨st.parsed.set idx (mkUpcomingIpo item),
                st.seenTickers, st.seenNames⟩ := by
              refine ⟨?_, ?_, ?_, ?_⟩
              · intro t' i hl
                obtain ⟨r, hr, hrt⟩ := hf1 t' i hl
                have hi : i ≠ idx := by
                  intro heq
                  subst heq
                  rw [hex, Option.some.injEq] at hr
                  subst hr
                  rw [hext] at hrt
                  exact absurd hrt (by simp)
                refine ⟨r, ?_, hrt⟩
                rw [List.getElem?_set_ne (fun h => hi h.symm)]
                exact hr
              · intro i r t' hr hrt
                by_cases hi : i = idx
                · subst hi
                  rw [List.getElem?_set_self hidxlt, Option.some.injEq] at hr
                  subst hr
                  rw [hkt, hnt] at hrt
                  exact absurd hrt (by simp)
                · rw [List.getElem?_set_ne (fun h => hi h.symm)] at hr
                  exact hf2 i r t' hr hrt
              · intro nk i hl
                obtain ⟨r, hr, hrt, hrn⟩ := hf3 nk i hl
                by_cases hi : i = idx
                · subst hi
                  rw [hex, Option.some.injEq] at hr
                  subst hr
                  have hnk : nk = pyStrip (pyLower ((sanitizeName item.name).getD [])) := by
                    rw [← hrn, hexn]
                  subst hnk
                  refine ⟨mkUpcomingIpo item, ?_, by rw [hkt, hnt], hnamekey⟩
                  rw [List.getElem?_set_self hidxlt]
                · refine ⟨r, ?_, hrt, hrn⟩
                  rw [List.getElem?_set_ne (fun h => hi h.symm)]
                  exact hr
              · intro i r hr hrt
                by_cases hi : i = idx
                · subst hi
                  rw [List.getElem?_set_self hidxlt, Option.some.injEq] at hr
                  subst hr
                  rw [hnamekey]
                  exact hlu
                · rw [List.getElem?_set_ne (fun h => hi h.symm)] at hr
                  exact hf4 i r hr hrt
            refine ⟨(ih _ hinv').1, ?_⟩
            rw [(ih _ hinv').2]
            have hmapset : (st.parsed.set idx (mkUpcomingIpo item)).map
                (fun r => some (upcomingRecordKey r)) =
                st.parsed.map (fun r => some (upcomingRecordKey r)) := by
              rw [List.map_set]
              apply set_getElem?_self
              rw [List.getElem?_map, hex]
              show some (some (upcomingRecordKey existing)) =
                some (some (upcomingRecordKey (mkUpcomingIpo item)))
              rw [hkeyrec, hrawkey]
              unfold upcomingRecordKey
              rw [hext, hexn]
            have hgoal : List.map (fun r => some (upcomingRecordKey r))
                  (st.parsed.set idx (mkUpcomingIpo item)) ++
                specFirstKeys (upcomingSeenKeys st)
                  ((rest.filter (upcomingKeeps today)).map
                    (fun i => some (upcomingRawKey i))) =
                List.map (fun r => some (upcomingRecordKey r)) st.parsed ++
                specFirstKeys (upcomingSeenKeys st)
                  (some (upcomingRawKey item) ::
                    (rest.filter (upcomingKeeps today)).map
                      (fun i => some (upcomingRawKey i))) := by
              rw [hmapset, hrawkey, hkeyskip]
            exact hgoal
          · have hstep : parseUpcomingStep today st item = st := by
              unfold parseUpcomingStep
              rw [if_pos hk]
              dsimp only
              rw [hkt, hnt]
              dsimp only
              rw [hnamekey]
              simp only [hlu, List.get?_eq_getElem?, hex, if_neg hbeats]
            rw [hstep]
            refine ⟨(ih _ ⟨hf1, hf2, hf3, hf4⟩).1, ?_⟩
            rw [(ih _ ⟨hf1, hf2, hf3, hf4⟩).2]
            rw [hrawkey, hkeyskip]

/-! ## C10 -/

/-- C10: both normalizers list one record per dedup key in first-appearance
key order (recent keyed by normalized ticker, upcoming by normalized ticker
or else the case-insensitive trimmed name); and on concrete batches where a
later duplicate wins, it replaces the earlier record in place, at the
earlier record's position, leaving intervening records after it. -/
theorem dedup_first_appearance_order :
    (∀ (items : List RawItem) (cutoff : PyDate),
      (parseRecentItems items cutoff).map (fun r => r.ticker) =
        specFirstKeys [] ((items.filter (recentKeeps cutoff)).map recentRawKey)) ∧
    (∀ (items : List RawItem) (today : PyDate),
      (parseUpcomingItems items today).map (fun r => some (upcomingRecordKey r)) =
        specFirstKeys [] ((items.filter (upcomingKeeps today)).map
          (fun i => some (upcomingRawKey i)))) ∧
    parseRecentItems [c3ItemA, c10ItemC, c3ItemB] c3Cutoff =
      [mkRecentIpo c3ItemB, mkRecentIpo c10ItemC] ∧
    parseUpcomingItems [c2ItemA, c10ItemD, c2ItemB] c2Today =
      [mkUpcomingIpo c2ItemB, mkUpcomingIpo c10ItemD] := by
  refine ⟨?_, ?_, ?_, ?_⟩
  · intro items cutoff
    have h := (recentFold_spec cutoff items ⟨[], []⟩ recInv_empty).2
    simpa using h
  · intro items today
    have h := (upcomingFold_spec today items ⟨[], [], []⟩ upInv_empty).2
    simpa [upcomingSeenKeys] using h
  · rfl
  · rfl

/-! ## C7 machinery: fenced blocks -/

/-- A list headed by a non-backtick never starts a fence marker. -/
theorem startsWithTriple_cons_false (c : Char) (cs : List Char)
    (hc : c ≠ backtick) : startsWithTriple (c :: cs) = false := by
  cases cs with
  | nil => rfl
  | cons b cs2 =>
    cases cs2 with
    | nil => rfl
    | cons d cs3 => simp [startsWithTriple, hc]

/-- A backtick-free prefix followed by a newline never starts a fence
marker. -/
theorem startsWithTriple_btFree (l X : List Char)
    (hl : backtickFree l = true) :
    startsWithTriple (l ++ '\n' :: X) = false := by
  cases l with
  | nil => exact startsWithTriple_cons_false _ _ (by decide)
  | cons c l' =>
    have hc : c ≠ backtick := by
      have := (List.all_eq_true.mp hl) c (by simp)
      simpa using this
    exact startsWithTriple_cons_false _ _ hc

/-- The first fence marker after a backtick-free prefix splits the text
there. -/
theorem findTriple_append : ∀ (pre rest : List Char),
    backtickFree pre = true →
    findTriple (pre ++ backtick :: backtick :: backtick :: rest) =
      some (pre, rest) := by
  intro pre
  induction pre with
  | nil =>
    intro rest _
    show findTriple (backtick :: backtick :: backtick :: rest) = some ([], rest)
    simp [findTriple, startsWithTriple]
  | cons c pre' ih =>
    intro rest hpre
    have hc : c ≠ backtick := by
      have := (List.all_eq_true.mp hpre) c (by simp)
      simpa using this
    have hpre' : backtickFree pre' = true := by
      apply List.all_eq_true.mpr
      intro x hx
      exact (List.all_eq_true.mp hpre) x (by simp [hx])
    rw [List.cons_append, findTriple]
    simp [startsWithTriple_cons_false c _ hc, ih rest hpre']

/-- The lazy close-scan over a backtick-free capture consumes the dangling
newline and stops at the closing marker. -/
theorem findClose_append : ∀ (body post : List Char),
    backtickFree body = true →
    findClose (body ++ '\n' :: backtick :: backtick :: backtick :: post) =
      some (body, post) := by
  intro body
  induction body with
  | nil =>
    intro post _
    show findClose ('\n' :: backtick :: backtick :: backtick :: post) =
      some ([], post)
    have hnb : '\n' ≠ backtick := by decide
    rw [findClose]
    simp [startsWithTriple_cons_false '\n' _ hnb, startsWithTriple, hnb]
  | cons c body' ih =>
    intro post hbody
    have hc : c ≠ backtick := by
      have := (List.all_eq_true.mp hbody) c (by simp)
      simpa using this
    have hbody' : backtickFree body' = true := by
      apply List.all_eq_true.mpr
      intro x hx
      exact (List.all_eq_true.mp hbody) x (by simp [hx])
    rw [List.cons_append, findClose]
    simp [startsWithTriple_cons_false c _ hc,
      startsWithTriple_btFree body' _ hbody', ih post hbody']

/-- C7: a parseable bracket-headed JSON body sitting inside a
```json fence wins over anything in the later prose (stray braces
included), for any backtick-free preamble and body. -/
theorem fenced_block_priority (pre bs post : List Char) (vs : List Json)
    (hpre : backtickFree pre = true)
    (hbody : backtickFree ('[' :: bs) = true)
    (hstrip : pyStrip ('[' :: bs) = '[' :: bs)
    (hparse : loadsChars ('[' :: bs) = some (Json.arr vs)) :
    extractJsonBlock (pre ++ (tripleBT ++ ("json\n".toList ++ ('[' :: bs ++
      '\n' :: (tripleBT ++ post))))) = some (Json.arr vs) := by
  show extractJsonBlock
    (pre ++ backtick :: backtick :: backtick :: 'j' :: 's' :: 'o' :: 'n' ::
      '\n' :: '[' :: (bs ++ '\n' :: backtick :: backtick :: backtick :: post)) =
    some (Json.arr vs)
  have hne : pre ++ backtick :: backtick :: backtick :: 'j' :: 's' :: 'o' ::
      'n' :: '\n' :: '[' ::
      (bs ++ '\n' :: backtick :: backtick :: backtick :: post) ≠ [] := by
    simp
  rw [extractJsonBlock, if_neg hne]
  have hft : findTriple
      (pre ++ backtick :: backtick :: backtick :: 'j' :: 's' :: 'o' :: 'n' ::
        '\n' :: '[' ::
        (bs ++ '\n' :: backtick :: backtick :: backtick :: post)) =
      some (pre, 'j' :: 's' :: 'o' :: 'n' :: '\n' :: '[' ::
        (bs ++ '\n' :: backtick :: backtick :: backtick :: post)) :=
    findTriple_append pre _ hpre
  have hfc : findClose
      ('[' :: (bs ++ '\n' :: backtick :: backtick :: backtick :: post)) =
      some ('[' :: bs, post) := findClose_append ('[' :: bs) post hbody
  have hpref : List.isPrefixOf ['j', 's', 'o', 'n']
      ('j' :: 's' :: 'o' :: 'n' :: '\n' :: '[' ::
        (bs ++ '\n' :: backtick :: backtick :: backtick :: post)) = true := by
    simp [List.isPrefixOf]
  have hmain : firstParsedFence (findFences
      (pre ++ backtick :: backtick :: backtick :: 'j' :: 's' :: 'o' :: 'n' ::
        '\n' :: '[' ::
        (bs ++ '\n' :: backtick :: backtick :: backtick :: post))) =
      some (Json.arr vs) := by
    rw [findFences]
    simp only [findFencesFuel, hft, hpref, if_true]
    rw [show ('j' :: 's' :: 'o' :: 'n' :: '\n' :: '[' ::
      (bs ++ '\n' :: backtick :: backtick :: backtick :: post)).drop 4 =
      '\n' :: '[' ::
        (bs ++ '\n' :: backtick :: backtick :: backtick :: post) from rfl]
    rw [show List.dropWhile pyIsSpace ('\n' :: '[' ::
      (bs ++ '\n' :: backtick :: backtick :: backtick :: post)) =
      '[' :: (bs ++ '\n' :: backtick :: backtick :: backtick :: post) by
      rw [List.dropWhile_cons, if_pos (by decide), List.dropWhile_cons,
        if_neg (by decide)]]
    rw [hfc]
    rw [firstParsedFence, hstrip]
    simp [hparse]
  rw [hmain]

/-- C8 as claimed fails: on `c8Text` the raw scan extracts an array holding
one string that itself contains a fenced JSON array; re-extracting from the
serialization of that result returns the inner `[1]` (the fence branch now
fires on the backticks inside the string literal), not an equivalent
object. -/
theorem extract_idempotent_claim_counterexample :
    extractJsonBlock c8Text = some c8Value ∧
    extractJsonBlock (Json.dumps c8Value) = some (Json.arr [Json.num 1]) ∧
    Json.arr [Json.num 1] ≠ c8Value := by
  refine ⟨rfl, rfl, ?_⟩
  simp [c8Value]

/-! ## C8 machinery, part 1: decimal renderings -/

/-- `digitsToNat` over a final digit. -/
theorem digitsToNat_concat (l : List Char) (c : Char) :
    digitsToNat (l ++ [c]) = digitsToNat l * 10 + (c.toNat - 48) := by
  unfold digitsToNat
  rw [List.foldl_append]
  rfl

/-- `Nat.digitChar` of a digit value is a decimal digit character. -/
theorem digitChar_isDigit (m : Nat) (h : m < 10) :
    (Nat.digitChar m).isDigit = true := by
  interval_cases m <;> decide

/-- Decoding `Nat.digitChar` recovers the digit value. -/
theorem digitChar_toNat (m : Nat) (h : m < 10) :
    (Nat.digitChar m).toNat - 48 = m := by
  interval_cases m <;> decide

/-- `Nat.toDigitsCore`'s accumulator is a pure suffix. -/
theorem toDigitsCore_append :
    ∀ (fuel n : Nat) (ds : List Char),
      Nat.toDigitsCore 10 fuel n ds = Nat.toDigitsCore 10 fuel n [] ++ ds := by
  intro fuel
  induction fuel with
  | zero => intro n ds; rfl
  | succ f ih =>
    intro n ds
    simp only [Nat.toDigitsCore]
    by_cases h : n / 10 = 0
    · simp [h]
    · simp only [if_neg h]
      rw [ih (n / 10) (Nat.digitChar (n % 10) :: ds),
        ih (n / 10) [Nat.digitChar (n % 10)], List.append_cons]

/-- Any sufficient fuel yields the same digits. -/
theorem toDigitsCore_fuel :
    ∀ (n f1 f2 : Nat), n < f1 → n < f2 →
      Nat.toDigitsCore 10 f1 n [] = Nat.toDigitsCore 10 f2 n [] := by
  intro n
  induction n using Nat.strong_induction_on with
  | _ n ih =>
    intro f1 f2 h1 h2
    cases f1 with
    | zero => omega
    | succ g1 =>
      cases f2 with
      | zero => omega
      | succ g2 =>
        simp only [Nat.toDigitsCore]
        by_cases h : n / 10 = 0
        · simp [h]
        · simp only [if_neg h]
          have hdiv : n / 10 < n := Nat.div_lt_self (by omega) (by omega)
          rw [toDigitsCore_append g1 (n / 10) [Nat.digitChar (n % 10)],
            toDigitsCore_append g2 (n / 10) [Nat.digitChar (n % 10)]]
          rw [ih (n / 10) hdiv g1 g2 (by omega) (by omega)]

/-- The decimal rendering of a `Nat` is a nonempty digit string decoding
back to the number. -/
theorem toDigits_spec :
    ∀ n : Nat, (Nat.toDigits 10 n).all Char.isDigit = true ∧
      Nat.toDigits 10 n ≠ [] ∧ digitsToNat (Nat.toDigits 10 n) = n := by
  intro n
  induction n using Nat.strong_induction_on with
  | _ n ih =>
    unfold Nat.toDigits
    simp only [Nat.toDigitsCore]
    by_cases h : n / 10 = 0
    · have hn : n < 10 := by omega
      have hmod : n % 10 = n := Nat.mod_eq_of_lt hn
      simp only [if_pos h, hmod]
      refine ⟨by simp [digitChar_isDigit n hn], by simp, ?_⟩
      show digitsToNat ([] ++ [Nat.digitChar n]) = n
      rw [digitsToNat_concat, digitChar_toNat n hn]
      unfold digitsToNat
      simp
    · simp only [if_neg h]
      have hdiv : n / 10 < n := Nat.div_lt_self (by omega) (by omega)
      rw [toDigitsCore_append n (n / 10) [Nat.digitChar (n % 10)]]
      have hfuel : Nat.toDigitsCore 10 n (n / 10) [] =
          Nat.toDigits 10 (n / 10) := by
        unfold Nat.toDigits
        exact toDigitsCore_fuel (n / 10) n (n / 10 + 1) (by omega) (by omega)
      rw [hfuel]
      obtain ⟨hall, hne, hval⟩ := ih (n / 10) hdiv
      refine ⟨?_, by simp, ?_⟩
      · rw [List.all_append, hall]
        simp [digitChar_isDigit (n % 10) (Nat.mod_lt n (by omega))]
      · rw [digitsToNat_concat, hval,
          digitChar_toNat (n % 10) (Nat.mod_lt n (by omega))]
        omega

/-- A decimal digit character is none of JSON's structural characters. -/
theorem digit_facts (c : Char) (h : c.isDigit = true) :
    jsonWs c = false ∧ c ≠ '"' ∧ c ≠ '[' ∧ c ≠ '\x7b' ∧ c ≠ ']' ∧
      c ≠ '\x7d' ∧ c ≠ '-' ∧ c ≠ 'n' ∧ c ≠ 't' ∧ c ≠ 'f' ∧ c ≠ '\\' ∧
      c ≠ ',' := by
  refine ⟨?_, ?_, ?_, ?_, ?_, ?_, ?_, ?_, ?_, ?_, ?_, ?_⟩
  · cases hc : jsonWs c
    · rfl
    · exfalso
      have : ((c = ' ' ∨ c = '\t') ∨ c = '\n') ∨ c = '\r' := by
        simpa [jsonWs] using hc
      rcases this with ((rfl | rfl) | rfl) | rfl <;> exact absurd h (by decide)
  all_goals rintro rfl <;> exact absurd h (by decide)

/-- `takeWhile`/`dropWhile` split exactly at an all-satisfying prefix
followed by a non-satisfying head. -/
theorem takeWhile_dropWhile_append {p : Char → Bool} :
    ∀ (l r : List Char), l.all p = true →
      (∀ c cs, r = c :: cs → p c = false) →
      (l ++ r).takeWhile p = l ∧ (l ++ r).dropWhile p = r := by
  intro l
  induction l with
  | nil =>
    intro r _ hr
    cases r with
    | nil => exact ⟨rfl, rfl⟩
    | cons c cs =>
      simp [List.takeWhile_cons, List.dropWhile_cons, hr c cs rfl]
  | cons a l' ih =>
    intro r hl hr
    have ha : p a = true := List.all_eq_true.mp hl a (by simp)
    have hl' : l'.all p = true := by
      apply List.all_eq_true.mpr
      intro x hx
      exact List.all_eq_true.mp hl x (by simp [hx])
    obtain ⟨h1, h2⟩ := ih r hl' hr
    constructor
    · rw [List.cons_append, List.takeWhile_cons, if_pos ha, h1]
    · rw [List.cons_append, List.dropWhile_cons, if_pos ha, h2]

/-- Parsing the decimal rendering of an integer, with a non-digit
continuation, recovers the integer. -/
theorem parseNum_intToChars (n : Int) (rest : List Char)
    (hrest : ∀ c cs, rest = c :: cs → c.isDigit = false) :
    parseNum (intToChars n ++ rest) = some (n, rest) := by
  cases n with
  | ofNat m =>
    obtain ⟨hall, hne, hval⟩ := toDigits_spec m
    obtain ⟨d, ds, hd⟩ : ∃ d ds, Nat.toDigits 10 m = d :: ds := by
      cases hcase : Nat.toDigits 10 m with
      | nil => exact absurd hcase hne
      | cons d ds => exact ⟨d, ds, rfl⟩
    have hddig : d.isDigit = true :=
      List.all_eq_true.mp hall d (by rw [hd]; simp)
    obtain ⟨htake, hdrop⟩ :=
      takeWhile_dropWhile_append (Nat.toDigits 10 m) rest hall hrest
    show parseNum (Nat.toDigits 10 m ++ rest) = some (Int.ofNat m, rest)
    unfold parseNum
    rw [hd, List.cons_append]
    have hmatch : (match d :: (ds ++ rest) with
        | '-' :: r => ((true : Bool), r)
        | _ => (false, d :: (ds ++ rest))) = (false, d :: (ds ++ rest)) := by
      split
      · rename_i r heq
        obtain ⟨hdeq, _⟩ := List.cons.inj heq
        exact absurd hdeq (digit_facts d hddig).2.2.2.2.2.2.1
      · rfl
    rw [hmatch, ← List.cons_append, ← hd]
    dsimp only
    rw [htake, hdrop, if_neg hne, hval]
    rfl
  | negSucc m =>
    obtain ⟨hall, hne, hval⟩ := toDigits_spec (m + 1)
    obtain ⟨htake, hdrop⟩ :=
      takeWhile_dropWhile_append (Nat.toDigits 10 (m + 1)) rest hall hrest
    show parseNum ('-' :: (Nat.toDigits 10 (m + 1) ++ rest)) =
      some (Int.negSucc m, rest)
    unfold parseNum
    have hmatch : (match '-' :: (Nat.toDigits 10 (m + 1) ++ rest) with
        | '-' :: r => ((true : Bool), r)
        | _ => (false, '-' :: (Nat.toDigits 10 (m + 1) ++ rest))) =
        (true, Nat.toDigits 10 (m + 1) ++ rest) := rfl
    rw [hmatch]
    dsimp only
    rw [htake, hdrop, if_neg hne, hval]
    have hneg : -(Int.ofNat (m + 1)) = Int.negSucc m := by
      rw [Int.negSucc_eq]
      norm_num
    rw [if_pos rfl, hneg]

/-! ## C8 machinery, part 2: string literals -/

/-- `hexVal` decodes `hexChar`. -/
theorem hexVal_hexChar (m : Nat) (h : m < 16) : hexVal (hexChar m) = some m := by
  interval_cases m <;> rfl

/-- One escaped character parses back to the character. -/
theorem parseStrBody_escapeChar (c : Char) (f : Nat) (tail : List Char) :
    parseStrBody (f + 1) (escapeChar c ++ tail) =
      (parseStrBody f tail).map (fun p => (c :: p.1, p.2)) := by
  by_cases h1 : c = '"'
  · subst h1; rfl
  by_cases h2 : c = '\\'
  · subst h2; rfl
  by_cases h3 : c = '\n'
  · subst h3; rfl
  by_cases h4 : c = '\t'
  · subst h4; rfl
  by_cases h5 : c = '\r'
  · subst h5; rfl
  by_cases h6 : c = '\x08'
  · subst h6; rfl
  by_cases h7 : c = '\x0c'
  · subst h7; rfl
  by_cases h8 : c.toNat < 32
  · have hesc : escapeChar c =
        ['\\', 'u', '0', '0', hexChar (c.toNat / 16), hexChar (c.toNat % 16)] := by
      unfold escapeChar
      rw [if_neg h1, if_neg h2, if_neg h3, if_neg h4, if_neg h5, if_neg h6,
        if_neg h7, if_pos h8]
    rw [hesc]
    obtain ⟨t, ht⟩ : ∃ t, c.toNat = t := ⟨_, rfl⟩
    rw [ht] at h8
    interval_cases t <;>
    · conv_rhs => rw [(Char.ofNat_toNat c).symm, ht]
      rw [ht]
      rfl
  · have hesc : escapeChar c = [c] := by
      unfold escapeChar
      rw [if_neg h1, if_neg h2, if_neg h3, if_neg h4, if_neg h5, if_neg h6,
        if_neg h7, if_neg h8]
    rw [hesc]
    show parseStrBody (f + 1) (c :: tail) = _
    simp only [parseStrBody]
    rw [if_neg h1, if_neg h2, if_neg h8]

/-- The escaped body of a string literal parses back to the original
characters, consuming the closing quote. -/
theorem parseStrBody_escapeStr :
    ∀ (s : List Char) (f : Nat) (rest : List Char), s.length < f →
      parseStrBody f (escapeStr s ++ '"' :: rest) = some (s, rest) := by
  intro s
  induction s with
  | nil =>
    intro f rest hf
    cases f with
    | zero => omega
    | succ f' => rfl
  | cons c s' ih =>
    intro f rest hf
    cases f with
    | zero => omega
    | succ f' =>
      have hlen : s'.length < f' := by
        simp at hf
        omega
      show parseStrBody (f' + 1)
        ((escapeChar c ++ escapeStr s') ++ '"' :: rest) = _
      rw [List.append_assoc]
      rw [parseStrBody_escapeChar c f' (escapeStr s' ++ '"' :: rest)]
      rw [ih f' rest hlen]
      rfl

/-! ## C8 machinery, part 3: serialization shapes -/

/-- Mismatched heads refute a prefix test. -/
theorem isPrefixOf_cons_neq (a b : Char) (as bs : List Char) (h : a ≠ b) :
    List.isPrefixOf (a :: as) (b :: bs) = false := by
  show (a == b && List.isPrefixOf as bs) = false
  rw [beq_eq_false_iff_ne.mpr h, Bool.false_and]

/-- A list is a prefix of itself extended by anything. -/
theorem isPrefixOf_append_self : ∀ (l r : List Char),
    List.isPrefixOf l (l ++ r) = true := by
  intro l
  induction l with
  | nil => intro r; simp [List.isPrefixOf]
  | cons a as ih => intro r; simp [List.isPrefixOf, ih r]

/-- `dropWhile jsonWs` keeps a non-whitespace-headed list intact. -/
theorem dropWhile_jsonWs_cons (c : Char) (cs : List Char)
    (h : jsonWs c = false) :
    List.dropWhile jsonWs (c :: cs) = c :: cs := by
  rw [List.dropWhile_cons, if_neg (by simp [h])]

/-- A nonempty serialized element list starts with its first element's
serialization. -/
theorem dumpsList_cons (x : Json) (xs : List Json) :
    ∃ T, Json.dumps.dumpsList (x :: xs) = Json.dumps x ++ T := by
  cases xs with
  | nil => exact ⟨[], by simp [Json.dumps.dumpsList]⟩
  | cons y ys => exact ⟨',' :: ' ' :: Json.dumps.dumpsList (y :: ys), rfl⟩

/-- A nonempty serialized member list starts with a quote. -/
theorem dumpsMembers_head (k : List Char) (v : Json)
    (ms : List (List Char × Json)) :
    ∃ Y, Json.dumps.dumpsMembers ((k, v) :: ms) = '"' :: Y := by
  cases ms with
  | nil => exact ⟨_, rfl⟩
  | cons m rest => exact ⟨_, rfl⟩

/-- `Json.dumps` is never empty, and its head is neither whitespace nor a
closing bracket, closing brace, or comma. -/
theorem dumps_head (v : Json) :
    ∃ c cs, Json.dumps v = c :: cs ∧ jsonWs c = false ∧ c ≠ ']' ∧
      c ≠ '\x7d' ∧ c ≠ ',' := by
  cases v with
  | null => exact ⟨'n', _, rfl, by decide, by decide, by decide, by decide⟩
  | bool b =>
    cases b with
    | true => exact ⟨'t', _, rfl, by decide, by decide, by decide, by decide⟩
    | false => exact ⟨'f', _, rfl, by decide, by decide, by decide, by decide⟩
  | num n =>
    cases n with
    | ofNat m =>
      obtain ⟨hall, hne, _⟩ := toDigits_spec m
      obtain ⟨d, ds, hd⟩ : ∃ d ds, Nat.toDigits 10 m = d :: ds := by
        cases hcase : Nat.toDigits 10 m with
        | nil => exact absurd hcase hne
        | cons d ds => exact ⟨d, ds, rfl⟩
      have hdig : d.isDigit = true :=
        List.all_eq_true.mp hall d (by rw [hd]; simp)
      obtain ⟨hws, _, _, _, hrb, hcb, _, _, _, _, _, hcm⟩ := digit_facts d hdig
      exact ⟨d, ds, hd, hws, hrb, hcb, hcm⟩
    | negSucc m =>
      exact ⟨'-', _, rfl, by decide, by decide, by decide, by decide⟩
  | str s => exact ⟨'"', _, rfl, by decide, by decide, by decide, by decide⟩
  | arr xs => exact ⟨'[', _, rfl, by decide, by decide, by decide, by decide⟩
  | obj ms => exact ⟨'\x7b', _, rfl, by decide, by decide, by decide, by decide⟩

/-- `Json.dumps` is never empty. -/
theorem dumps_ne_nil (v : Json) : Json.dumps v ≠ [] := by
  obtain ⟨c, cs, h, _⟩ := dumps_head v
  rw [h]
  simp

/-- Any non-digit-headed continuation is safe. -/
theorem restSafe_of_head (v : Json) (c : Char) (cs : List Char)
    (h : c.isDigit = false) : restSafe v (c :: cs) = true := by
  cases v <;> simp [restSafe, h]

/-- The empty continuation is safe. -/
theorem restSafe_nil (v : Json) : restSafe v [] = true := by
  cases v <;> rfl

/-- The value parser ignores a leading blank. -/
theorem parseVal_space (fuel : Nat) (X : List Char) :
    parseVal fuel (' ' :: X) = parseVal fuel X := by
  cases fuel with
  | zero => rfl
  | succ f =>
    simp only [parseVal]
    rw [List.dropWhile_cons, if_pos (by decide)]

/-- The element parser ignores a leading blank. -/
theorem parseElems_space (fuel : Nat) (X : List Char) :
    parseElems fuel (' ' :: X) = parseElems fuel X := by
  cases fuel with
  | zero => rfl
  | succ f =>
    simp only [parseElems]
    rw [parseVal_space]

/-- The member parser ignores a leading blank. -/
theorem parseMembers_space (fuel : Nat) (X : List Char) :
    parseMembers fuel (' ' :: X) = parseMembers fuel X := by
  cases fuel with
  | zero => rfl
  | succ f =>
    simp only [parseMembers]
    rw [List.dropWhile_cons, if_pos (by decide)]

/-- Escaping cannot shrink a string. -/
theorem length_le_escapeStr : ∀ s : List Char,
    s.length ≤ (escapeStr s).length := by
  intro s
  induction s with
  | nil => simp [escapeStr]
  | cons c s' ih =>
    have hc : 1 ≤ (escapeChar c).length := by
      unfold escapeChar
      split_ifs <;> simp
    show (c :: s').length ≤ (escapeChar c ++ escapeStr s').length
    simp only [List.length_cons, List.length_append]
    omega

/-! ## C8 machinery, part 4: parsing inverts serialization -/

mutual

/-- `parseVal` consumes exactly one serialized value, for any fuel above
its length and any safe continuation. -/
theorem parseVal_dumps : ∀ (v : Json) (fuel : Nat) (rest : List Char),
    (Json.dumps v).length < fuel → restSafe v rest = true →
    parseVal fuel (Json.dumps v ++ rest) = some (v, rest)
  | Json.null, fuel, rest => by
    intro hfuel hrest
    cases fuel with
    | zero => omega
    | succ f =>
      show parseVal (f + 1) ('n' :: 'u' :: 'l' :: 'l' :: rest) =
        some (Json.null, rest)
      simp only [parseVal]
      rw [dropWhile_jsonWs_cons 'n' _ (by decide)]
      dsimp only
      rw [if_neg (by decide : ¬('n' : Char) = '"'),
        if_neg (by decide : ¬('n' : Char) = '['),
        if_neg (by decide : ¬('n' : Char) = '\x7b')]
      rw [if_pos (show List.isPrefixOf ['n', 'u', 'l', 'l']
          ('n' :: 'u' :: 'l' :: 'l' :: rest) = true from
        isPrefixOf_append_self ['n', 'u', 'l', 'l'] rest)]
      rfl
  | Json.bool true, fuel, rest => by
    intro hfuel hrest
    cases fuel with
    | zero => omega
    | succ f =>
      show parseVal (f + 1) ('t' :: 'r' :: 'u' :: 'e' :: rest) =
        some (Json.bool true, rest)
      simp only [parseVal]
      rw [dropWhile_jsonWs_cons 't' _ (by decide)]
      dsimp only
      rw [if_neg (by decide : ¬('t' : Char) = '"'),
        if_neg (by decide : ¬('t' : Char) = '['),
        if_neg (by decide : ¬('t' : Char) = '\x7b')]
      rw [if_neg (show ¬(List.isPrefixOf ['n', 'u', 'l', 'l']
          ('t' :: 'r' :: 'u' :: 'e' :: rest) = true) from by
        rw [isPrefixOf_cons_neq _ _ _ _ (by decide)]
        simp)]
      rw [if_pos (show List.isPrefixOf ['t', 'r', 'u', 'e']
          ('t' :: 'r' :: 'u' :: 'e' :: rest) = true from
        isPrefixOf_append_self ['t', 'r', 'u', 'e'] rest)]
      rfl
  | Json.bool false, fuel, rest => by
    intro hfuel hrest
    cases fuel with
    | zero => omega
    | succ f =>
      show parseVal (f + 1) ('f' :: 'a' :: 'l' :: 's' :: 'e' :: rest) =
        some (Json.bool false, rest)
      simp only [parseVal]
      rw [dropWhile_jsonWs_cons 'f' _ (by decide)]
      dsimp only
      rw [if_neg (by decide : ¬('f' : Char) = '"'),
        if_neg (by decide : ¬('f' : Char) = '['),
        if_neg (by decide : ¬('f' : Char) = '\x7b')]
      rw [if_neg (show ¬(List.isPrefixOf ['n', 'u', 'l', 'l']
          ('f' :: 'a' :: 'l' :: 's' :: 'e' :: rest) = true) from by
        rw [isPrefixOf_cons_neq _ _ _ _ (by decide)]
        simp)]
      rw [if_neg (show ¬(List.isPrefixOf ['t', 'r', 'u', 'e']
          ('f' :: 'a' :: 'l' :: 's' :: 'e' :: rest) = true) from by
        rw [isPrefixOf_cons_neq _ _ _ _ (by decide)]
        simp)]
      rw [if_pos (show List.isPrefixOf ['f', 'a', 'l', 's', 'e']
          ('f' :: 'a' :: 'l' :: 's' :: 'e' :: rest) = true from
        isPrefixOf_append_self ['f', 'a', 'l', 's', 'e'] rest)]
      rfl
  | Json.num n, fuel, rest => by
    intro hfuel hrest
    cases fuel with
    | zero => omega
    | succ f =>
      have hrest' : ∀ c cs, rest = c :: cs → c.isDigit = false := by
        intro c cs hc
        subst hc
        cases hdc : c.isDigit
        · rfl
        · exfalso
          rw [show restSafe (Json.num n) (c :: cs) = !c.isDigit from rfl,
            hdc] at hrest
          simp at hrest
      cases n with
      | ofNat m =>
        obtain ⟨hall, hne, hval⟩ := toDigits_spec m
        obtain ⟨d, ds, hd⟩ : ∃ d ds, Nat.toDigits 10 m = d :: ds := by
          cases hcase : Nat.toDigits 10 m with
          | nil => exact absurd hcase hne
          | cons d ds => exact ⟨d, ds, rfl⟩
        have hdig : d.isDigit = true :=
          List.all_eq_true.mp hall d (by rw [hd]; simp)
        obtain ⟨hws, hq, hlb, hob, _, _, hmin, hn, ht, hf2, _, _⟩ :=
          digit_facts d hdig
        have hpn := parseNum_intToChars (Int.ofNat m) rest hrest'
        rw [show intToChars (Int.ofNat m) = Nat.toDigits 10 m from rfl] at hpn
        show parseVal (f + 1) (Nat.toDigits 10 m ++ rest) =
          some (Json.num (Int.ofNat m), rest)
        rw [hd, List.cons_append]
        simp only [parseVal]
        rw [dropWhile_jsonWs_cons d _ hws]
        dsimp only
        rw [if_neg hq, if_neg hlb, if_neg hob]
        rw [if_neg (show ¬(List.isPrefixOf ['n', 'u', 'l', 'l']
            (d :: (ds ++ rest)) = true) from by
          rw [isPrefixOf_cons_neq _ _ _ _ (Ne.symm hn)]
          simp)]
        rw [if_neg (show ¬(List.isPrefixOf ['t', 'r', 'u', 'e']
            (d :: (ds ++ rest)) = true) from by
          rw [isPrefixOf_cons_neq _ _ _ _ (Ne.symm ht)]
          simp)]
        rw [if_neg (show ¬(List.isPrefixOf ['f', 'a', 'l', 's', 'e']
            (d :: (ds ++ rest)) = true) from by
          rw [isPrefixOf_cons_neq _ _ _ _ (Ne.symm hf2)]
          simp)]
        rw [if_pos (show (decide (d = '-') || d.isDigit) = true from by
          rw [hdig]
          simp)]
        rw [← List.cons_append, ← hd, hpn]
        rfl
      | negSucc m =>
        have hpn := parseNum_intToChars (Int.negSucc m) rest hrest'
        rw [show intToChars (Int.negSucc m) = '-' :: Nat.toDigits 10 (m + 1)
          from rfl, List.cons_append] at hpn
        have hstep : parseVal (f + 1)
            ('-' :: (Nat.toDigits 10 (m + 1) ++ rest)) =
            (parseNum ('-' :: (Nat.toDigits 10 (m + 1) ++ rest))).map
              (fun p => (Json.num p.1, p.2)) := rfl
        show parseVal (f + 1) ('-' :: (Nat.toDigits 10 (m + 1) ++ rest)) =
          some (Json.num (Int.negSucc m), rest)
        rw [hstep, hpn]
        rfl
  | Json.str s, fuel, rest => by
    intro hfuel hrest
    cases fuel with
    | zero => omega
    | succ f =>
      have hds : (Json.dumps (Json.str s)).length =
          (escapeStr s).length + 2 := by
        show ('"' :: (escapeStr s ++ ['"'])).length = _
        simp
      have hlen : s.length < f + 1 := by
        have := length_le_escapeStr s
        omega
      have hstep : parseVal (f + 1) ('"' :: ((escapeStr s ++ ['"']) ++ rest)) =
          (parseStrBody (f + 1) ((escapeStr s ++ ['"']) ++ rest)).map
            (fun p => (Json.str p.1, p.2)) := rfl
      show parseVal (f + 1) ('"' :: ((escapeStr s ++ ['"']) ++ rest)) =
        some (Json.str s, rest)
      rw [hstep]
      rw [show (escapeStr s ++ ['"']) ++ rest = escapeStr s ++ '"' :: rest
        from by simp]
      rw [parseStrBody_escapeStr s (f + 1) rest hlen]
      rfl
  | Json.arr [], fuel, rest => by
    intro hfuel hrest
    cases fuel with
    | zero => omega
    | succ f => rfl
  | Json.arr (x :: xs'), fuel, rest => by
    intro hfuel hrest
    cases fuel with
    | zero => omega
    | succ f =>
      obtain ⟨T, hT⟩ := dumpsList_cons x xs'
      obtain ⟨d, D, hdD, hws, hrb, _, _⟩ := dumps_head x
      have hlen : (Json.dumps (Json.arr (x :: xs'))).length =
          (Json.dumps.dumpsList (x :: xs')).length + 2 := by
        show ('[' :: (Json.dumps.dumpsList (x :: xs') ++ [']'])).length = _
        simp
      rw [show Json.dumps (Json.arr (x :: xs')) ++ rest =
          '[' :: (Json.dumps.dumpsList (x :: xs') ++ ']' :: rest) from by
        show ('[' :: (Json.dumps.dumpsList (x :: xs') ++ [']'])) ++ rest = _
        simp]
      simp only [parseVal]
      rw [dropWhile_jsonWs_cons '[' _ (by decide)]
      dsimp only
      rw [if_neg (by decide : ¬('[' : Char) = '"'), if_pos rfl]
      rw [hT, hdD, List.cons_append, List.cons_append]
      rw [dropWhile_jsonWs_cons d _ hws]
      split
      · rename_i r2 heq
        obtain ⟨hd1, _⟩ := List.cons.inj heq
        exact absurd hd1 hrb
      · rw [← List.cons_append, ← List.cons_append, ← hdD, ← hT]
        rw [parseElems_dumps x xs' f rest (by omega)]
        rfl
  | Json.obj [], fuel, rest => by
    intro hfuel hrest
    cases fuel with
    | zero => omega
    | succ f => rfl
  | Json.obj ((k, v2) :: ms'), fuel, rest => by
    intro hfuel hrest
    cases fuel with
    | zero => omega
    | succ f =>
      obtain ⟨Y, hY⟩ := dumpsMembers_head k v2 ms'
      have hlen : (Json.dumps (Json.obj ((k, v2) :: ms'))).length =
          (Json.dumps.dumpsMembers ((k, v2) :: ms')).length + 2 := by
        show ('\x7b' :: (Json.dumps.dumpsMembers ((k, v2) :: ms') ++
          ['\x7d'])).length = _
        simp
      rw [show Json.dumps (Json.obj ((k, v2) :: ms')) ++ rest =
          '\x7b' :: (Json.dumps.dumpsMembers ((k, v2) :: ms') ++
            '\x7d' :: rest) from by
        show ('\x7b' :: (Json.dumps.dumpsMembers ((k, v2) :: ms') ++
          ['\x7d'])) ++ rest = _
        simp]
      simp only [parseVal]
      rw [dropWhile_jsonWs_cons '\x7b' _ (by decide)]
      dsimp only
      rw [if_neg (by decide : ¬('\x7b' : Char) = '"'),
        if_neg (by decide : ¬('\x7b' : Char) = '['), if_pos rfl]
      rw [hY, List.cons_append]
      rw [dropWhile_jsonWs_cons '"' _ (by decide)]
      split
      · rename_i r2 heq
        obtain ⟨hd1, _⟩ := List.cons.inj heq
        exact absurd hd1 (by decide)
      · rw [← List.cons_append, ← hY]
        rw [parseMembers_dumps k v2 ms' f rest (by omega)]
        rfl
termination_by v _ _ => sizeOf v
decreasing_by all_goals (simp_wf; try omega)

/-- `parseElems` consumes a nonempty serialized element list up to and
including the closing bracket. -/
theorem parseElems_dumps : ∀ (x : Json) (xs : List Json) (fuel : Nat)
    (rest : List Char),
    (Json.dumps.dumpsList (x :: xs)).length + 1 < fuel →
    parseElems fuel (Json.dumps.dumpsList (x :: xs) ++ ']' :: rest) =
      some (x :: xs, rest)
  | x, [], fuel, rest => by
    intro hfuel
    cases fuel with
    | zero => omega
    | succ f =>
      have hfx : (Json.dumps x).length < f := by
        have heq : (Json.dumps.dumpsList [x]).length =
            (Json.dumps x).length := rfl
        omega
      show parseElems (f + 1) (Json.dumps x ++ ']' :: rest) = some ([x], rest)
      simp only [parseElems]
      rw [parseVal_dumps x f (']' :: rest) hfx
        (restSafe_of_head x ']' rest (by decide))]
      rfl
  | x, y :: ys, fuel, rest => by
    intro hfuel
    cases fuel with
    | zero => omega
    | succ f =>
      have hlen2 : (Json.dumps.dumpsList (x :: y :: ys)).length =
          (Json.dumps x).length + 2 +
            (Json.dumps.dumpsList (y :: ys)).length := by
        show (Json.dumps x ++ ',' :: ' ' ::
          Json.dumps.dumpsList (y :: ys)).length = _
        simp
        omega
      rw [show Json.dumps.dumpsList (x :: y :: ys) ++ ']' :: rest =
          Json.dumps x ++ ',' :: ' ' ::
            (Json.dumps.dumpsList (y :: ys) ++ ']' :: rest) from by
        show (Json.dumps x ++ ',' :: ' ' ::
          Json.dumps.dumpsList (y :: ys)) ++ ']' :: rest = _
        simp]
      simp only [parseElems]
      rw [parseVal_dumps x f _ (by omega)
        (restSafe_of_head x ',' _ (by decide))]
      show (parseElems f (' ' :: (Json.dumps.dumpsList (y :: ys) ++
        ']' :: rest))).map (fun p => (x :: p.1, p.2)) =
        some (x :: y :: ys, rest)
      rw [parseElems_space, parseElems_dumps y ys f rest (by omega)]
      rfl
termination_by x xs _ _ => 1 + sizeOf x + sizeOf xs
decreasing_by all_goals (simp_wf; try omega)

/-- `parseMembers` consumes a nonempty serialized member list up to and
including the closing brace. -/
theorem parseMembers_dumps : ∀ (k : List Char) (v : Json)
    (ms : List (List Char × Json)) (fuel : Nat) (rest : List Char),
    (Json.dumps.dumpsMembers ((k, v) :: ms)).length + 1 < fuel →
    parseMembers fuel
        (Json.dumps.dumpsMembers ((k, v) :: ms) ++ '\x7d' :: rest) =
      some ((k, v) :: ms, rest)
  | k, v, [], fuel, rest => by
    intro hfuel
    cases fuel with
    | zero => omega
    | succ f =>
      have hlen2 : (Json.dumps.dumpsMembers [(k, v)]).length =
          (escapeStr k).length + 4 + (Json.dumps v).length := by
        show (strLit k ++ ':' :: ' ' :: Json.dumps v).length = _
        simp [strLit]
        omega
      rw [show Json.dumps.dumpsMembers [(k, v)] ++ '\x7d' :: rest =
          '"' :: (escapeStr k ++ '"' ::
            (':' :: ' ' :: (Json.dumps v ++ '\x7d' :: rest))) from by
        show (('"' :: (escapeStr k ++ ['"'])) ++
          ':' :: ' ' :: Json.dumps v) ++ '\x7d' :: rest = _
        simp]
      simp only [parseMembers]
      rw [dropWhile_jsonWs_cons '"' _ (by decide)]
      show (parseStrBody (f + 1) (escapeStr k ++ '"' ::
        (':' :: ' ' :: (Json.dumps v ++ '\x7d' :: rest)))).bind _ =
        some ([(k, v)], rest)
      rw [parseStrBody_escapeStr k (f + 1)
        (':' :: ' ' :: (Json.dumps v ++ '\x7d' :: rest))
        (by have := length_le_escapeStr k; omega)]
      show (parseVal f (' ' :: (Json.dumps v ++ '\x7d' :: rest))).bind _ =
        some ([(k, v)], rest)
      rw [parseVal_space, parseVal_dumps v f ('\x7d' :: rest) (by omega)
        (restSafe_of_head v '\x7d' rest (by decide))]
      rfl
  | k, v, (k2, v2) :: ms2, fuel, rest => by
    intro hfuel
    cases fuel with
    | zero => omega
    | succ f =>
      have hlen2 : (Json.dumps.dumpsMembers ((k, v) :: (k2, v2) :: ms2)).length =
          (escapeStr k).length + 6 + (Json.dumps v).length +
            (Json.dumps.dumpsMembers ((k2, v2) :: ms2)).length := by
        show ((strLit k ++ ':' :: ' ' :: Json.dumps v) ++
          ',' :: ' ' :: Json.dumps.dumpsMembers ((k2, v2) :: ms2)).length = _
        simp [strLit]
        omega
      rw [show Json.dumps.dumpsMembers ((k, v) :: (k2, v2) :: ms2) ++
          '\x7d' :: rest =
          '"' :: (escapeStr k ++ '"' :: (':' :: ' ' ::
            (Json.dumps v ++ ',' :: ' ' ::
              (Json.dumps.dumpsMembers ((k2, v2) :: ms2) ++
                '\x7d' :: rest)))) from by
        show (((('"' :: (escapeStr k ++ ['"'])) ++ ':' :: ' ' :: Json.dumps v) ++
          ',' :: ' ' :: Json.dumps.dumpsMembers ((k2, v2) :: ms2)) ++
            '\x7d' :: rest) = _
        simp]
      simp only [parseMembers]
      rw [dropWhile_jsonWs_cons '"' _ (by decide)]
      show (parseStrBody (f + 1) (escapeStr k ++ '"' :: (':' :: ' ' ::
        (Json.dumps v ++ ',' :: ' ' ::
          (Json.dumps.dumpsMembers ((k2, v2) :: ms2) ++
            '\x7d' :: rest))))).bind _ =
        some ((k, v) :: (k2, v2) :: ms2, rest)
      rw [parseStrBody_escapeStr k (f + 1) _
        (by have := length_le_escapeStr k; omega)]
      show (parseVal f (' ' :: (Json.dumps v ++ ',' :: ' ' ::
        (Json.dumps.dumpsMembers ((k2, v2) :: ms2) ++
          '\x7d' :: rest)))).bind _ = some ((k, v) :: (k2, v2) :: ms2, rest)
      rw [parseVal_space, parseVal_dumps v f _ (by omega)
        (restSafe_of_head v ',' _ (by decide))]
      show (parseMembers f (' ' :: (Json.dumps.dumpsMembers
        ((k2, v2) :: ms2) ++ '\x7d' :: rest))).map
          (fun p => ((k, v) :: p.1, p.2)) =
        some ((k, v) :: (k2, v2) :: ms2, rest)
      rw [parseMembers_space, parseMembers_dumps k2 v2 ms2 f rest (by omega)]
      rfl
termination_by k v ms _ _ => 1 + sizeOf v + sizeOf ms
decreasing_by all_goals (simp_wf; try omega)

end

/-- `json.loads` of `json.dumps` returns the value: the parser inverts the
serializer on complete documents. -/
theorem loadsChars_dumps (v : Json) : loadsChars (Json.dumps v) = some v := by
  unfold loadsChars
  have h := parseVal_dumps v ((Json.dumps v).length + 1) [] (by omega)
    (restSafe_nil v)
  rw [List.append_nil] at h
  rw [h]
  rfl

/-! ## C8 machinery, part 5: the raw depth scan on serialized values -/

/-- The segment scanner splits over append. -/
theorem scanList_append (oc cc : Char) :
    ∀ (l1 l2 : List Char) (st : Nat × Bool × Bool),
      scanList oc cc (l1 ++ l2) st =
        (scanList oc cc l1 st).bind (fun st' => scanList oc cc l2 st') := by
  intro l1
  induction l1 with
  | nil => intro l2 st; rfl
  | cons ch l1' ih =>
    intro l2 st
    obtain ⟨d, i, e⟩ := st
    rw [List.cons_append]
    show scanList oc cc (ch :: (l1' ++ l2)) (d, i, e) = _
    simp only [scanList]
    split_ifs <;> first | rfl | exact ih l2 _

/-- A completed (non-closing) segment scan advances `findSpanLen` by the
segment's length. -/
theorem findSpanLen_append (oc cc : Char) :
    ∀ (l : List Char) (d : Nat) (i e : Bool) (d' : Nat) (i' e' : Bool),
      scanList oc cc l (d, i, e) = some (d', i', e') →
      ∀ r, findSpanLen oc cc (l ++ r) d i e =
        (findSpanLen oc cc r d' i' e').map (· + l.length) := by
  have comp : ∀ (o : Option Nat) (n : Nat),
      (o.map (· + n)).map (· + 1) = o.map (· + (n + 1)) := by
    intro o n
    cases o with
    | none => rfl
    | some a =>
      show some ((a + n) + 1) = some (a + (n + 1))
      rw [Nat.add_assoc]
  intro l
  induction l with
  | nil =>
    intro d i e d' i' e' h r
    obtain ⟨h1, h2, h3⟩ : d = d' ∧ i = i' ∧ e = e' := by
      have := Option.some.inj h
      exact ⟨congrArg Prod.fst this, congrArg (fun p => p.2.1) this,
        congrArg (fun p => p.2.2) this⟩
    subst h1
    subst h2
    subst h3
    show findSpanLen oc cc r d i e = (findSpanLen oc cc r d i e).map (· + 0)
    cases findSpanLen oc cc r d i e <;> simp
  | cons ch l' ih =>
    intro d i e d' i' e' h r
    simp only [scanList] at h
    rw [List.cons_append]
    simp only [findSpanLen]
    split_ifs at h ⊢ <;>
      first
        | exact absurd h (by simp)
        | (rw [ih _ _ _ _ _ _ h r]; exact comp _ _)

/-- Characters that are neither quotes nor the scanned brackets leave the
scan state unchanged. -/
theorem scanList_neutral (oc cc : Char) :
    ∀ (l : List Char) (d : Nat),
      (∀ c ∈ l, c ≠ '"' ∧ c ≠ oc ∧ c ≠ cc) →
      scanList oc cc l (d, false, false) = some (d, false, false) := by
  intro l
  induction l with
  | nil => intro d _; rfl
  | cons ch l' ih =>
    intro d hl
    obtain ⟨h1, h2, h3⟩ := hl ch (by simp)
    have hl' : ∀ c ∈ l', c ≠ '"' ∧ c ≠ oc ∧ c ≠ cc := fun c hc =>
      hl c (by simp [hc])
    simp only [scanList]
    rw [if_neg (by simp), if_neg (by simp), if_neg h1, if_neg (by simp),
      if_neg h2, if_neg h3]
    exact ih d hl'

/-- Inside a string, an escaped character leaves the scan in-string. -/
theorem scanList_escapeChar (oc cc : Char) (c : Char) (d : Nat) :
    scanList oc cc (escapeChar c) (d, true, false) =
      some (d, true, false) := by
  by_cases h1 : c = '"'
  · subst h1; rfl
  by_cases h2 : c = '\\'
  · subst h2; rfl
  by_cases h3 : c = '\n'
  · subst h3; rfl
  by_cases h4 : c = '\t'
  · subst h4; rfl
  by_cases h5 : c = '\r'
  · subst h5; rfl
  by_cases h6 : c = '\x08'
  · subst h6; rfl
  by_cases h7 : c = '\x0c'
  · subst h7; rfl
  by_cases h8 : c.toNat < 32
  · have hesc : escapeChar c =
        ['\\', 'u', '0', '0', hexChar (c.toNat / 16), hexChar (c.toNat % 16)] := by
      unfold escapeChar
      rw [if_neg h1, if_neg h2, if_neg h3, if_neg h4, if_neg h5, if_neg h6,
        if_neg h7, if_pos h8]
    rw [hesc]
    obtain ⟨t, ht⟩ : ∃ t, c.toNat = t := ⟨_, rfl⟩
    rw [ht] at h8
    rw [ht]
    interval_cases t <;> rfl
  · have hesc : escapeChar c = [c] := by
      unfold escapeChar
      rw [if_neg h1, if_neg h2, if_neg h3, if_neg h4, if_neg h5, if_neg h6,
        if_neg h7, if_neg h8]
    rw [hesc]
    show scanList oc cc (c :: []) (d, true, false) = some (d, true, false)
    simp only [scanList]
    rw [if_neg (by simp)]
    rw [if_neg (show ¬((decide (c = '\\') && true) = true) from by simp [h2])]
    rw [if_neg h1]
    simp

/-- Inside a string, a whole escaped body leaves the scan in-string. -/
theorem scanList_escapeStr (oc cc : Char) :
    ∀ (s : List Char) (d : Nat),
      scanList oc cc (escapeStr s) (d, true, false) =
        some (d, true, false) := by
  intro s
  induction s with
  | nil => intro d; rfl
  | cons c s' ih =>
    intro d
    show scanList oc cc (escapeChar c ++ escapeStr s') (d, true, false) = _
    rw [scanList_append, scanList_escapeChar]
    exact ih d

/-- A whole string literal leaves the scan state unchanged. -/
theorem scanList_strLit (oc cc : Char) (s : List Char) (d : Nat) :
    scanList oc cc (strLit s) (d, false, false) =
      some (d, false, false) := by
  show scanList oc cc ('"' :: (escapeStr s ++ ['"'])) (d, false, false) = _
  have hstep : scanList oc cc ('"' :: (escapeStr s ++ ['"']))
      (d, false, false) =
      scanList oc cc (escapeStr s ++ ['"']) (d, true, false) := rfl
  rw [hstep, scanList_append, scanList_escapeStr]
  rfl

mutual

/-- Scanning a whole serialized value from outside a string, at positive
depth, returns to the same state, for either bracket pair. -/
theorem scanList_dumps : ∀ (v : Json) (oc cc : Char),
    ((oc = '[' ∧ cc = ']') ∨ (oc = '\x7b' ∧ cc = '\x7d')) →
    ∀ d : Nat, 1 ≤ d →
    scanList oc cc (Json.dumps v) (d, false, false) = some (d, false, false)
  | Json.null, oc, cc => by
    intro hocc d _
    rcases hocc with ⟨rfl, rfl⟩ | ⟨rfl, rfl⟩ <;>
      exact scanList_neutral _ _ _ d (by decide)
  | Json.bool true, oc, cc => by
    intro hocc d _
    rcases hocc with ⟨rfl, rfl⟩ | ⟨rfl, rfl⟩ <;>
      exact scanList_neutral _ _ _ d (by decide)
  | Json.bool false, oc, cc => by
    intro hocc d _
    rcases hocc with ⟨rfl, rfl⟩ | ⟨rfl, rfl⟩ <;>
      exact scanList_neutral _ _ _ d (by decide)
  | Json.num n, oc, cc => by
    intro hocc d _
    apply scanList_neutral
    intro c hc
    cases n with
    | ofNat m =>
      have hc' : c ∈ Nat.toDigits 10 m := hc
      have hdig : c.isDigit = true :=
        List.all_eq_true.mp (toDigits_spec m).1 c hc'
      obtain ⟨_, hq, hlb, hob, hrb, hcb, _, _, _, _, _, _⟩ :=
        digit_facts c hdig
      rcases hocc with ⟨rfl, rfl⟩ | ⟨rfl, rfl⟩
      · exact ⟨hq, hlb, hrb⟩
      · exact ⟨hq, hob, hcb⟩
    | negSucc m =>
      have hc' : c ∈ '-' :: Nat.toDigits 10 (m + 1) := hc
      rcases List.mem_cons.mp hc' with rfl | hmem
      · rcases hocc with ⟨rfl, rfl⟩ | ⟨rfl, rfl⟩
        · exact ⟨by decide, by decide, by decide⟩
        · exact ⟨by decide, by decide, by decide⟩
      · have hdig : c.isDigit = true :=
          List.all_eq_true.mp (toDigits_spec (m + 1)).1 c hmem
        obtain ⟨_, hq, hlb, hob, hrb, hcb, _, _, _, _, _, _⟩ :=
          digit_facts c hdig
        rcases hocc with ⟨rfl, rfl⟩ | ⟨rfl, rfl⟩
        · exact ⟨hq, hlb, hrb⟩
        · exact ⟨hq, hob, hcb⟩
  | Json.str s, oc, cc => by
    intro _ d _
    exact scanList_strLit oc cc s d
  | Json.arr xs, oc, cc => by
    intro hocc d hd
    rcases hocc with ⟨rfl, rfl⟩ | ⟨rfl, rfl⟩
    · have hstep : scanList '[' ']'
          ('[' :: (Json.dumps.dumpsList xs ++ [']'])) (d, false, false) =
          scanList '[' ']' (Json.dumps.dumpsList xs ++ [']'])
            (d + 1, false, false) := rfl
      show scanList '[' ']'
        ('[' :: (Json.dumps.dumpsList xs ++ [']'])) (d, false, false) =
        some (d, false, false)
      rw [hstep, scanList_append,
        scanList_dumpsList xs '[' ']' (Or.inl ⟨rfl, rfl⟩) (d + 1) (by omega)]
      show scanList '[' ']' [']'] (d + 1, false, false) =
        some (d, false, false)
      have hclose : scanList '[' ']' [']'] (d + 1, false, false) =
          if d + 1 = 1 then none
          else scanList '[' ']' [] (d + 1 - 1, false, false) := rfl
      rw [hclose, if_neg (by omega)]
      show some (d + 1 - 1, false, false) = some (d, false, false)
      have : d + 1 - 1 = d := by omega
      rw [this]
    · have hstep : scanList '\x7b' '\x7d'
          ('[' :: (Json.dumps.dumpsList xs ++ [']'])) (d, false, false) =
          scanList '\x7b' '\x7d' (Json.dumps.dumpsList xs ++ [']'])
            (d, false, false) := rfl
      show scanList '\x7b' '\x7d'
        ('[' :: (Json.dumps.dumpsList xs ++ [']'])) (d, false, false) =
        some (d, false, false)
      rw [hstep, scanList_append,
        scanList_dumpsList xs '\x7b' '\x7d' (Or.inr ⟨rfl, rfl⟩) d hd]
      rfl
  | Json.obj ms, oc, cc => by
    intro hocc d hd
    rcases hocc with ⟨rfl, rfl⟩ | ⟨rfl, rfl⟩
    · have hstep : scanList '[' ']'
          ('\x7b' :: (Json.dumps.dumpsMembers ms ++ ['\x7d']))
            (d, false, false) =
          scanList '[' ']' (Json.dumps.dumpsMembers ms ++ ['\x7d'])
            (d, false, false) := rfl
      show scanList '[' ']'
        ('\x7b' :: (Json.dumps.dumpsMembers ms ++ ['\x7d']))
          (d, false, false) = some (d, false, false)
      rw [hstep, scanList_append,
        scanList_dumpsMembers ms '[' ']' (Or.inl ⟨rfl, rfl⟩) d hd]
      rfl
    · have hstep : scanList '\x7b' '\x7d'
          ('\x7b' :: (Json.dumps.dumpsMembers ms ++ ['\x7d']))
            (d, false, false) =
          scanList '\x7b' '\x7d' (Json.dumps.dumpsMembers ms ++ ['\x7d'])
            (d + 1, false, false) := rfl
      show scanList '\x7b' '\x7d'
        ('\x7b' :: (Json.dumps.dumpsMembers ms ++ ['\x7d']))
          (d, false, false) = some (d, false, false)
      rw [hstep, scanList_append,
        scanList_dumpsMembers ms '\x7b' '\x7d' (Or.inr ⟨rfl, rfl⟩) (d + 1)
          (by omega)]
      show scanList '\x7b' '\x7d' ['\x7d'] (d + 1, false, false) =
        some (d, false, false)
      have hclose : scanList '\x7b' '\x7d' ['\x7d'] (d + 1, false, false) =
          if d + 1 = 1 then none
          else scanList '\x7b' '\x7d' [] (d + 1 - 1, false, false) := rfl
      rw [hclose, if_neg (by omega)]
      show some (d + 1 - 1, false, false) = some (d, false, false)
      have : d + 1 - 1 = d := by omega
      rw [this]
termination_by v _ _ => sizeOf v
decreasing_by all_goals (simp_wf; try omega)

/-- Scanning a serialized element list preserves the state. -/
theorem scanList_dumpsList : ∀ (xs : List Json) (oc cc : Char),
    ((oc = '[' ∧ cc = ']') ∨ (oc = '\x7b' ∧ cc = '\x7d')) →
    ∀ d : Nat, 1 ≤ d →
    scanList oc cc (Json.dumps.dumpsList xs) (d, false, false) =
      some (d, false, false)
  | [], oc, cc => by intro _ d _; rfl
  | [x], oc, cc => by
    intro hocc d hd
    show scanList oc cc (Json.dumps x) (d, false, false) = _
    exact scanList_dumps x oc cc hocc d hd
  | x :: y :: ys, oc, cc => by
    intro hocc d hd
    show scanList oc cc
      (Json.dumps x ++ ',' :: ' ' :: Json.dumps.dumpsList (y :: ys))
      (d, false, false) = some (d, false, false)
    rw [scanList_append, scanList_dumps x oc cc hocc d hd]
    show scanList oc cc (',' :: ' ' :: Json.dumps.dumpsList (y :: ys))
      (d, false, false) = some (d, false, false)
    have hstep : scanList oc cc
        (',' :: ' ' :: Json.dumps.dumpsList (y :: ys)) (d, false, false) =
        scanList oc cc (Json.dumps.dumpsList (y :: ys)) (d, false, false) := by
      rcases hocc with ⟨rfl, rfl⟩ | ⟨rfl, rfl⟩ <;> rfl
    rw [hstep]
    exact scanList_dumpsList (y :: ys) oc cc hocc d hd
termination_by xs _ _ => sizeOf xs
decreasing_by all_goals (simp_wf; try omega)

/-- Scanning a serialized member list preserves the state. -/
theorem scanList_dumpsMembers : ∀ (ms : List (List Char × Json)) (oc cc : Char),
    ((oc = '[' ∧ cc = ']') ∨ (oc = '\x7b' ∧ cc = '\x7d')) →
    ∀ d : Nat, 1 ≤ d →
    scanList oc cc (Json.dumps.dumpsMembers ms) (d, false, false) =
      some (d, false, false)
  | [], oc, cc => by intro _ d _; rfl
  | [(k, v)], oc, cc => by
    intro hocc d hd
    show scanList oc cc (strLit k ++ ':' :: ' ' :: Json.dumps v)
      (d, false, false) = some (d, false, false)
    rw [scanList_append, scanList_strLit]
    show scanList oc cc (':' :: ' ' :: Json.dumps v) (d, false, false) =
      some (d, false, false)
    have hstep : scanList oc cc (':' :: ' ' :: Json.dumps v)
        (d, false, false) =
        scanList oc cc (Json.dumps v) (d, false, false) := by
      rcases hocc with ⟨rfl, rfl⟩ | ⟨rfl, rfl⟩ <;> rfl
    rw [hstep]
    exact scanList_dumps v oc cc hocc d hd
  | (k, v) :: (k2, v2) :: ms2, oc, cc => by
    intro hocc d hd
    show scanList oc cc
      ((strLit k ++ ':' :: ' ' :: Json.dumps v) ++
        ',' :: ' ' :: Json.dumps.dumpsMembers ((k2, v2) :: ms2))
      (d, false, false) = some (d, false, false)
    rw [scanList_append]
    rw [show scanList oc cc (strLit k ++ ':' :: ' ' :: Json.dumps v)
        (d, false, false) = some (d, false, false) from by
      rw [scanList_append, scanList_strLit]
      show scanList oc cc (':' :: ' ' :: Json.dumps v) (d, false, false) =
        some (d, false, false)
      have hstep : scanList oc cc (':' :: ' ' :: Json.dumps v)
          (d, false, false) =
          scanList oc cc (Json.dumps v) (d, false, false) := by
        rcases hocc with ⟨rfl, rfl⟩ | ⟨rfl, rfl⟩ <;> rfl
      rw [hstep]
      exact scanList_dumps v oc cc hocc d hd]
    show scanList oc cc
      (',' :: ' ' :: Json.dumps.dumpsMembers ((k2, v2) :: ms2))
      (d, false, false) = some (d, false, false)
    have hstep2 : scanList oc cc
        (',' :: ' ' :: Json.dumps.dumpsMembers ((k2, v2) :: ms2))
        (d, false, false) =
        scanList oc cc (Json.dumps.dumpsMembers ((k2, v2) :: ms2))
          (d, false, false) := by
      rcases hocc with ⟨rfl, rfl⟩ | ⟨rfl, rfl⟩ <;> rfl
    rw [hstep2]
    exact scanList_dumpsMembers ((k2, v2) :: ms2) oc cc hocc d hd
termination_by ms _ _ => sizeOf ms
decreasing_by all_goals (simp_wf; try omega)

end

/-- The raw depth scan over a serialized array spans exactly the
serialization. -/
theorem findSpanLen_dumps_arr (xs : List Json) (rest : List Char) :
    findSpanLen '[' ']' (Json.dumps (Json.arr xs) ++ rest) 0 false false =
      some (Json.dumps (Json.arr xs)).length := by
  have hstep : findSpanLen '[' ']'
      (('[' :: (Json.dumps.dumpsList xs ++ [']'])) ++ rest) 0 false false =
      (findSpanLen '[' ']' ((Json.dumps.dumpsList xs ++ [']']) ++ rest)
        1 false false).map (· + 1) := rfl
  show findSpanLen '[' ']'
    (('[' :: (Json.dumps.dumpsList xs ++ [']'])) ++ rest) 0 false false =
    some ('[' :: (Json.dumps.dumpsList xs ++ [']'])).length
  rw [hstep]
  rw [show (Json.dumps.dumpsList xs ++ [']']) ++ rest =
    Json.dumps.dumpsList xs ++ ']' :: rest from by simp]
  rw [findSpanLen_append '[' ']' (Json.dumps.dumpsList xs) 1 false false
    1 false false (scanList_dumpsList xs '[' ']' (Or.inl ⟨rfl, rfl⟩) 1
      (by omega)) (']' :: rest)]
  have hone : findSpanLen '[' ']' (']' :: rest) 1 false false = some 1 := rfl
  rw [hone]
  show some ((1 + (Json.dumps.dumpsList xs).length) + 1) =
    some ('[' :: (Json.dumps.dumpsList xs ++ [']'])).length
  simp
  omega

/-- The raw depth scan over a serialized object spans exactly the
serialization. -/
theorem findSpanLen_dumps_obj (ms : List (List Char × Json))
    (rest : List Char) :
    findSpanLen '\x7b' '\x7d' (Json.dumps (Json.obj ms) ++ rest)
      0 false false = some (Json.dumps (Json.obj ms)).length := by
  have hstep : findSpanLen '\x7b' '\x7d'
      (('\x7b' :: (Json.dumps.dumpsMembers ms ++ ['\x7d'])) ++ rest)
        0 false false =
      (findSpanLen '\x7b' '\x7d'
        ((Json.dumps.dumpsMembers ms ++ ['\x7d']) ++ rest)
        1 false false).map (· + 1) := rfl
  show findSpanLen '\x7b' '\x7d'
    (('\x7b' :: (Json.dumps.dumpsMembers ms ++ ['\x7d'])) ++ rest)
      0 false false =
    some ('\x7b' :: (Json.dumps.dumpsMembers ms ++ ['\x7d'])).length
  rw [hstep]
  rw [show (Json.dumps.dumpsMembers ms ++ ['\x7d']) ++ rest =
    Json.dumps.dumpsMembers ms ++ '\x7d' :: rest from by simp]
  rw [findSpanLen_append '\x7b' '\x7d' (Json.dumps.dumpsMembers ms)
    1 false false 1 false false
    (scanList_dumpsMembers ms '\x7b' '\x7d' (Or.inr ⟨rfl, rfl⟩) 1 (by omega))
    ('\x7d' :: rest)]
  have hone : findSpanLen '\x7b' '\x7d' ('\x7d' :: rest) 1 false false =
      some 1 := rfl
  rw [hone]
  show some ((1 + (Json.dumps.dumpsMembers ms).length) + 1) =
    some ('\x7b' :: (Json.dumps.dumpsMembers ms ++ ['\x7d'])).length
  simp
  omega

/-! ## C8 machinery, part 6: path analysis of `extract_json_block` -/

/-- Without a triple backtick there are no fences. -/
theorem findFences_of_no_triple (cs : List Char)
    (h : hasTripleBacktick cs = false) : findFences cs = [] := by
  have hft : findTriple cs = none := by
    unfold hasTripleBacktick at h
    exact Option.not_isSome_iff_eq_none.mp (by simp [h])
  unfold findFences
  simp only [findFencesFuel, hft]

/-- The text after the first fence marker is made of input characters. -/
theorem findTriple_mem : ∀ (cs pre rest : List Char),
    findTriple cs = some (pre, rest) → ∀ c ∈ rest, c ∈ cs := by
  intro cs
  induction cs with
  | nil => intro pre rest h; exact absurd h (by simp [findTriple])
  | cons c0 cs' ih =>
    intro pre rest h c hc
    rw [findTriple] at h
    by_cases hs : startsWithTriple (c0 :: cs') = true
    · rw [if_pos hs] at h
      obtain ⟨h1, h2⟩ := Prod.mk.inj (Option.some.inj h)
      right
      exact List.mem_of_mem_drop (h2 ▸ hc)
    · rw [if_neg hs] at h
      obtain ⟨p, hp, hpe⟩ := Option.map_eq_some'.mp h
      obtain ⟨h1, h2⟩ := Prod.mk.inj hpe
      right
      exact ih p.1 p.2 (by rw [hp]) c (h2 ▸ hc)

/-- Both results of the close-scan are made of input characters. -/
theorem findClose_mem : ∀ (cs cap rest : List Char),
    findClose cs = some (cap, rest) →
    (∀ c ∈ cap, c ∈ cs) ∧ (∀ c ∈ rest, c ∈ cs) := by
  intro cs
  induction cs with
  | nil => intro cap rest h; exact absurd h (by simp [findClose])
  | cons c0 cs' ih =>
    intro cap rest h
    rw [findClose] at h
    by_cases hs : startsWithTriple (c0 :: cs') = true
    · rw [if_pos hs] at h
      obtain ⟨h1, h2⟩ := Prod.mk.inj (Option.some.inj h)
      constructor
      · intro c hc
        rw [← h1] at hc
        exact absurd hc (by simp)
      · intro c hc
        right
        exact List.mem_of_mem_drop (h2 ▸ hc)
    · rw [if_neg hs] at h
      by_cases hn : (c0 = '\n' && startsWithTriple cs') = true
      · rw [if_pos hn] at h
        obtain ⟨h1, h2⟩ := Prod.mk.inj (Option.some.inj h)
        constructor
        · intro c hc
          rw [← h1] at hc
          exact absurd hc (by simp)
        · intro c hc
          right
          exact List.mem_of_mem_drop (h2 ▸ hc)
      · rw [if_neg hn] at h
        obtain ⟨p, hp, hpe⟩ := Option.map_eq_some'.mp h
        obtain ⟨h1, h2⟩ := Prod.mk.inj hpe
        obtain ⟨hcap, hrest⟩ := ih p.1 p.2 (by rw [hp])
        constructor
        · intro c hc
          rw [← h1] at hc
          rcases List.mem_cons.mp hc with rfl | hc'
          · exact List.mem_cons_self _ _
          · exact List.mem_cons_of_mem _ (hcap c hc')
        · intro c hc
          exact List.mem_cons_of_mem _ (hrest c (h2 ▸ hc))

/-- Every fence capture is made of input characters. -/
theorem findFencesFuel_mem : ∀ (fuel : Nat) (cs : List Char)
    (cap : List Char), cap ∈ findFencesFuel fuel cs → ∀ c ∈ cap, c ∈ cs := by
  intro fuel
  induction fuel with
  | zero => intro cs cap h; exact absurd h (by simp [findFencesFuel])
  | succ f ih =>
    intro cs cap h c hc
    rw [findFencesFuel] at h
    cases hft : findTriple cs with
    | none => rw [hft] at h; exact absurd h (by simp)
    | some pr =>
      obtain ⟨pre, afterOpen⟩ := pr
      rw [hft] at h
      dsimp only at h
      have hao := findTriple_mem cs pre afterOpen hft
      obtain ⟨r1, hr1⟩ : ∃ r1, (if ['j', 's', 'o', 'n'].isPrefixOf afterOpen
          then afterOpen.drop 4 else afterOpen) = r1 := ⟨_, rfl⟩
      rw [hr1] at h
      have hmem1 : ∀ x ∈ r1, x ∈ afterOpen := by
        intro x hx
        rw [← hr1] at hx
        by_cases hj : ['j', 's', 'o', 'n'].isPrefixOf afterOpen = true
        · rw [if_pos hj] at hx
          exact List.mem_of_mem_drop hx
        · rw [if_neg hj] at hx
          exact hx
      have hmem2 : ∀ x ∈ r1.dropWhile pyIsSpace, x ∈ afterOpen := by
        intro x hx
        exact hmem1 x ((List.dropWhile_sublist pyIsSpace).mem hx)
      cases hfc : findClose (r1.dropWhile pyIsSpace) with
      | none => rw [hfc] at h; exact absurd h (by simp)
      | some pr2 =>
        obtain ⟨cap0, rest0⟩ := pr2
        rw [hfc] at h
        dsimp only at h
        obtain ⟨hcap0, hrest0⟩ := findClose_mem _ _ _ hfc
        rcases List.mem_cons.mp h with rfl | hrec
        · exact hao c (hmem2 c (hcap0 c hc))
        · exact hao c (hmem2 c (hrest0 c (ih rest0 cap hrec c hc)))

/-- Stripping keeps input characters. -/
theorem pyStrip_mem (cs : List Char) : ∀ c ∈ pyStrip cs, c ∈ cs := by
  intro c hc
  unfold pyStrip pyRStrip pyLStrip at hc
  have h1 : c ∈ (cs.dropWhile pyIsSpace).reverse.dropWhile pyIsSpace :=
    List.mem_reverse.mp hc
  have h2 : c ∈ (cs.dropWhile pyIsSpace).reverse :=
    (List.dropWhile_sublist pyIsSpace).mem h1
  have h3 : c ∈ cs.dropWhile pyIsSpace := List.mem_reverse.mp h2
  exact (List.dropWhile_sublist pyIsSpace).mem h3

/-- Fence captures whose strip is not brace- or bracket-headed are all
skipped. -/
theorem firstParsedFence_none : ∀ l : List (List Char),
    (∀ m ∈ l, ∀ c0 cs0, pyStrip m = c0 :: cs0 → c0 ≠ '\x7b' ∧ c0 ≠ '[') →
    firstParsedFence l = none := by
  intro l
  induction l with
  | nil => intro _; rfl
  | cons m rest ih =>
    intro h
    simp only [firstParsedFence]
    split
    · rename_i h1
      split at h1
      · rename_i heq
        exact absurd rfl (h m (by simp) _ _ heq).1
      · rename_i heq
        exact absurd rfl (h m (by simp) _ _ heq).2
      · exact absurd h1 (by simp)
    · exact ih (fun m' hm' => h m' (by simp [hm']))

/-- C8 part 1: a text containing neither an opening brace nor an opening
bracket extracts to nothing. -/
theorem extract_none_of_braceBracketFree (text : List Char)
    (h : braceBracketFree text = true) : extractJsonBlock text = none := by
  by_cases hemp : text = []
  · unfold extractJsonBlock
    rw [if_pos hemp]
  · have hchars : ∀ c ∈ text, c ≠ '\x7b' ∧ c ≠ '[' := by
      intro c hc
      have := List.all_eq_true.mp h c hc
      constructor
      · simpa using (Bool.and_elim_left this)
      · simpa using (Bool.and_elim_right this)
    unfold extractJsonBlock
    rw [if_neg hemp]
    have hff : firstParsedFence (findFences text) = none := by
      apply firstParsedFence_none
      intro m hm c0 cs0 heq
      have hc0 : c0 ∈ text := by
        apply findFencesFuel_mem _ _ m hm
        apply pyStrip_mem
        rw [heq]
        simp
      exact hchars c0 hc0
    rw [hff]
    have hobj : pyFindChar text '\x7b' = none := by
      unfold pyFindChar
      rw [List.findIdx?_eq_none_iff]
      intro x hx
      simp [(hchars x hx).1]
    have harr : pyFindChar text '[' = none := by
      unfold pyFindChar
      rw [List.findIdx?_eq_none_iff]
      intro x hx
      simp [(hchars x hx).2]
    rw [hobj, harr]

/-- A bracket-headed document can only parse to an array. -/
theorem loads_bracket_shape : ∀ (t : List Char) (v : Json),
    loadsChars ('[' :: t) = some v → ∃ xs, v = Json.arr xs := by
  intro t v h
  unfold loadsChars at h
  cases hp : parseVal (('[' :: t).length + 1) ('[' :: t) with
  | none => rw [hp] at h; exact absurd h (by simp)
  | some pr =>
    obtain ⟨v', rest⟩ := pr
    rw [hp] at h
    dsimp only at h
    have hv : v' = v := by
      by_cases hr : rest.dropWhile jsonWs = []
      · rw [if_pos hr] at h
        exact Option.some.inj h
      · rw [if_neg hr] at h
        exact absurd h (by simp)
    subst hv
    simp only [parseVal] at hp
    rw [dropWhile_jsonWs_cons '[' t (by decide)] at hp
    dsimp only at hp
    rw [if_neg (by decide : ¬('[' : Char) = '"'),
      if_pos (rfl : ('[' : Char) = '[')] at hp
    split at hp
    · obtain ⟨h1, _⟩ := Prod.mk.inj (Option.some.inj hp)
      exact ⟨[], h1.symm⟩
    · obtain ⟨p, _, hpe⟩ := Option.map_eq_some'.mp hp
      obtain ⟨h1, _⟩ := Prod.mk.inj hpe
      exact ⟨p.1, h1.symm⟩

/-- A brace-headed document can only parse to an object. -/
theorem loads_brace_shape : ∀ (t : List Char) (v : Json),
    loadsChars ('\x7b' :: t) = some v → ∃ os, v = Json.obj os := by
  intro t v h
  unfold loadsChars at h
  cases hp : parseVal (('\x7b' :: t).length + 1) ('\x7b' :: t) with
  | none => rw [hp] at h; exact absurd h (by simp)
  | some pr =>
    obtain ⟨v', rest⟩ := pr
    rw [hp] at h
    dsimp only at h
    have hv : v' = v := by
      by_cases hr : rest.dropWhile jsonWs = []
      · rw [if_pos hr] at h
        exact Option.some.inj h
      · rw [if_neg hr] at h
        exact absurd h (by simp)
    subst hv
    simp only [parseVal] at hp
    rw [dropWhile_jsonWs_cons '\x7b' t (by decide)] at hp
    dsimp only at hp
    rw [if_neg (by decide : ¬('\x7b' : Char) = '"'),
      if_neg (by decide : ¬('\x7b' : Char) = '['),
      if_pos (rfl : ('\x7b' : Char) = '\x7b')] at hp
    split at hp
    · obtain ⟨h1, _⟩ := Prod.mk.inj (Option.some.inj hp)
      exact ⟨[], h1.symm⟩
    · obtain ⟨p, _, hpe⟩ := Option.map_eq_some'.mp hp
      obtain ⟨h1, _⟩ := Prod.mk.inj hpe
      exact ⟨p.1, h1.symm⟩

/-- A successful fence scan yields some capture whose strip is brace- or
bracket-headed and parses to the result. -/
theorem firstParsedFence_shape : ∀ (l : List (List Char)) (w : Json),
    firstParsedFence l = some w →
    ∃ cs t, loadsChars cs = some w ∧
      (cs = '\x7b' :: t ∨ cs = '[' :: t) := by
  intro l
  induction l with
  | nil => intro w h; exact absurd h (by simp [firstParsedFence])
  | cons m rest ih =>
    intro w h
    simp only [firstParsedFence] at h
    split at h
    · rename_i h1
      split at h
      · rename_i hload
        have hw := Option.some.inj h
        subst hw
        split at h1
        · rename_i heq
          exact ⟨pyStrip m, _, hload, Or.inl heq⟩
        · rename_i heq
          exact ⟨pyStrip m, _, hload, Or.inr heq⟩
        · exact absurd h1 (by simp)
      · exact ih w h
    · exact ih w h

/-- Occurrence index of the first hit of `pyFindChar`. -/
theorem pyFindChar_decomp : ∀ (cs : List Char) (ch : Char) (i : Nat),
    pyFindChar cs ch = some i →
    ∃ pre suf, cs = pre ++ ch :: suf ∧ pre.length = i := by
  intro cs
  induction cs with
  | nil => intro ch i h; exact absurd h (by simp [pyFindChar])
  | cons c0 cs' ih =>
    intro ch i h
    unfold pyFindChar at h
    by_cases hc : c0 = ch
    · subst hc
      rw [List.findIdx?_cons, if_pos (by simp)] at h
      exact ⟨[], cs', rfl, by simpa using Option.some.inj h⟩
    · rw [List.findIdx?_cons, if_neg (by simp [hc]), List.findIdx?_succ] at h
      obtain ⟨j, hj, hje⟩ := Option.map_eq_some'.mp h
      obtain ⟨pre, suf, heq, hlen⟩ := ih ch j hj
      refine ⟨c0 :: pre, suf, by rw [heq, List.cons_append], ?_⟩
      simp only [List.length_cons, hlen]
      omega

/-- A successful depth scan spans at least one character. -/
theorem findSpanLen_pos (oc cc : Char) : ∀ (l : List Char) (d : Nat)
    (i e : Bool) (n : Nat), findSpanLen oc cc l d i e = some n → 1 ≤ n := by
  intro l
  induction l with
  | nil => intro d i e n h; exact absurd h (by simp [findSpanLen])
  | cons ch l' ih =>
    intro d i e n h
    simp only [findSpanLen] at h
    split_ifs at h <;>
      first
        | (obtain ⟨a, _, hae⟩ := Option.map_eq_some'.mp h; omega)
        | (have hv := Option.some.inj h; omega)

/-- A successful raw parse starting at a found character parses a document
headed by that character. -/
theorem rawParse_shape (text : List Char) (start : Nat) (oc cc : Char)
    (v : Json) (hfind : pyFindChar text oc = some start)
    (h : rawParse text start oc cc = some v) :
    ∃ t', loadsChars (oc :: t') = some v := by
  obtain ⟨pre, suf, heq, hlen⟩ := pyFindChar_decomp text oc start hfind
  unfold rawParse at h
  have hdrop : text.drop start = oc :: suf := by
    rw [heq, ← hlen]
    exact List.drop_left pre (oc :: suf)
  rw [hdrop] at h
  dsimp only at h
  cases hsl : findSpanLen oc cc (oc :: suf) 0 false false with
  | none => rw [hsl] at h; exact absurd h (by simp)
  | some len =>
    rw [hsl] at h
    have hpos := findSpanLen_pos oc cc (oc :: suf) 0 false false len hsl
    obtain ⟨len', rfl⟩ : ∃ l', len = l' + 1 := ⟨len - 1, by omega⟩
    dsimp only at h
    rw [List.take_succ_cons] at h
    exact ⟨_, h⟩

/-- Whatever `extract_json_block` returns is an array or an object. -/
theorem extract_shape (text : List Char) (v : Json)
    (h : extractJsonBlock text = some v) :
    (∃ xs, v = Json.arr xs) ∨ (∃ os, v = Json.obj os) := by
  by_cases hemp : text = []
  · unfold extractJsonBlock at h
    rw [if_pos hemp] at h
    exact absurd h (by simp)
  · unfold extractJsonBlock at h
    rw [if_neg hemp] at h
    cases hfp : firstParsedFence (findFences text) with
    | some w =>
      rw [hfp] at h
      have hw : w = v := Option.some.inj h
      subst hw
      obtain ⟨csm, t0, hload, hc⟩ := firstParsedFence_shape _ _ hfp
      rcases hc with hc | hc
      · right
        exact loads_brace_shape t0 w (hc ▸ hload)
      · left
        exact loads_bracket_shape t0 w (hc ▸ hload)
    | none =>
      rw [hfp] at h
      dsimp only at h
      cases hso : pyFindChar text '\x7b' with
      | none =>
        cases hsa : pyFindChar text '[' with
        | none =>
          rw [hso, hsa] at h
          exact absurd h (by simp)
        | some sa =>
          rw [hso, hsa] at h
          dsimp only at h
          obtain ⟨t', hl⟩ := rawParse_shape text sa '[' ']' v hsa h
          exact Or.inl (loads_bracket_shape t' v hl)
      | some so =>
        cases hsa : pyFindChar text '[' with
        | none =>
          rw [hso, hsa] at h
          dsimp only at h
          obtain ⟨t', hl⟩ := rawParse_shape text so '\x7b' '\x7d' v hso h
          exact Or.inr (loads_brace_shape t' v hl)
        | some sa =>
          rw [hso, hsa] at h
          dsimp only at h
          by_cases hlt : sa < so
          · rw [if_pos hlt] at h
            obtain ⟨t', hl⟩ := rawParse_shape text sa '[' ']' v hsa h
            exact Or.inl (loads_bracket_shape t' v hl)
          · rw [if_neg hlt] at h
            obtain ⟨t', hl⟩ := rawParse_shape text so '\x7b' '\x7d' v hso h
            exact Or.inr (loads_brace_shape t' v hl)

/-- The raw scan on a serialized array recovers the array. -/
theorem rawParse_dumps_arr (xs : List Json) :
    rawParse (Json.dumps (Json.arr xs)) 0 '[' ']' = some (Json.arr xs) := by
  unfold rawParse
  dsimp only
  rw [List.drop_zero]
  have hsl := findSpanLen_dumps_arr xs []
  rw [List.append_nil] at hsl
  rw [hsl]
  dsimp only
  rw [List.take_length]
  exact loadsChars_dumps (Json.arr xs)

/-- The raw scan on a serialized object recovers the object. -/
theorem rawParse_dumps_obj (os : List (List Char × Json)) :
    rawParse (Json.dumps (Json.obj os)) 0 '\x7b' '\x7d' =
      some (Json.obj os) := by
  unfold rawParse
  dsimp only
  rw [List.drop_zero]
  have hsl := findSpanLen_dumps_obj os []
  rw [List.append_nil] at hsl
  rw [hsl]
  dsimp only
  rw [List.take_length]
  exact loadsChars_dumps (Json.obj os)

/-- C8 as amended: prose-only text (neither `\x7b` nor `[` present)
extracts to nothing; and extraction is idempotent whenever the
serialization of the extracted value contains no triple backtick —
re-extracting from it returns the value itself. -/
theorem extract_idempotent_amended :
    (∀ text : List Char, braceBracketFree text = true →
      extractJsonBlock text = none) ∧
    (∀ (text : List Char) (v : Json), extractJsonBlock text = some v →
      hasTripleBacktick (Json.dumps v) = false →
      extractJsonBlock (Json.dumps v) = some v) := by
  constructor
  · exact extract_none_of_braceBracketFree
  · intro text v hex hbt
    have hshape := extract_shape text v hex
    have hne := dumps_ne_nil v
    unfold extractJsonBlock
    rw [if_neg hne]
    have hff : firstParsedFence (findFences (Json.dumps v)) = none := by
      rw [findFences_of_no_triple _ hbt]
      rfl
    rw [hff]
    dsimp only
    rcases hshape with ⟨xs, rfl⟩ | ⟨os, rfl⟩
    · have harr : pyFindChar (Json.dumps (Json.arr xs)) '[' = some 0 := by
        show List.findIdx? (fun x => decide (x = '['))
          ('[' :: (Json.dumps.dumpsList xs ++ [']'])) = some 0
        rw [List.findIdx?_cons, if_pos (by simp)]
      cases hso : pyFindChar (Json.dumps (Json.arr xs)) '\x7b' with
      | none =>
        rw [harr]
        dsimp only
        exact rawParse_dumps_arr xs
      | some so =>
        have hso1 : 1 ≤ so := by
          have hso' : List.findIdx? (fun x => decide (x = '\x7b'))
              ('[' :: (Json.dumps.dumpsList xs ++ [']'])) = some so := hso
          rw [List.findIdx?_cons, if_neg (by simp),
            List.findIdx?_succ] at hso'
          obtain ⟨j, _, hje⟩ := Option.map_eq_some'.mp hso'
          omega
        rw [harr]
        dsimp only
        rw [if_pos (by omega : (0 : Nat) < so)]
        exact rawParse_dumps_arr xs
    · have hobj : pyFindChar (Json.dumps (Json.obj os)) '\x7b' = some 0 := by
        show List.findIdx? (fun x => decide (x = '\x7b'))
          ('\x7b' :: (Json.dumps.dumpsMembers os ++ ['\x7d'])) = some 0
        rw [List.findIdx?_cons, if_pos (by simp)]
      cases hsa : pyFindChar (Json.dumps (Json.obj os)) '[' with
      | none =>
        rw [hobj]
        dsimp only
        exact rawParse_dumps_obj os
      | some sa =>
        rw [hobj]
        dsimp only
        rw [if_neg (by omega : ¬ sa < 0)]
        exact rawParse_dumps_obj os

/-- C8 amended at concrete inputs: prose-only text yields nothing, and
re-extracting the serialized spec-example result returns it unchanged. -/
theorem extract_idempotent_amended_witness :
    extractJsonBlock "no json here.".toList = none ∧
    extractJsonBlock (Json.dumps c7Value) = some c7Value := by
  constructor
  · exact extract_idempotent_amended.1 "no json here.".toList (by decide)
  · exact extract_idempotent_amended.2 c7Text c7Value (by rfl) (by rfl)

/-- C7 at the spec's example: the fenced array beats the stray-brace
prose. -/
theorem fenced_block_priority_witness :
    extractJsonBlock c7Text = some c7Value := by
  have h := fenced_block_priority "Here is data:\n".toList
    "\x7b\"a\":1\x7d]".toList "\nNote: cost was \x7bhigh\x7d.".toList
    [Json.obj [("a".toList, Json.num 1)]]
    (by decide) (by decide) (by decide) (by rfl)
  exact h

end IpoUpdate
